import Mathlib

/-!
Verification development for the `morm` declarative-schema migration engine.

The TypeScript sources are shallowly embedded as executable Lean functions.
JavaScript strings are modelled as Lean `String`s; the JS string primitives
`toUpperCase`, `toLowerCase` and `trim` are modelled on the ASCII fragment
(the inputs the engine manipulates are ASCII SQL identifiers and keywords).
JavaScript runtime values that can appear as column defaults are modelled by
the inductive type `JSVal`.  Database interaction is modelled by explicit
state passing: every `client.query(...)` of the source becomes an entry in an
ordered trace of SQL statement strings, and catalog reads are answered from an
explicit catalog state.
-/

namespace Morm

/-! ## JS string primitives (ASCII model) -/

/-- Auxiliary fact about `Char.ofNat` for valid code points. -/
theorem toNat_ofNat_of_lt (n : Nat) (h : n < 55296) : (Char.ofNat n).toNat = n := by
  have hv : n.isValidChar := Or.inl h
  rw [Char.ofNat, dif_pos hv]
  rfl

/-- Model of JS `toUpperCase` on one ASCII character. -/
def jsUpChar (c : Char) : Char :=
  if 97 ≤ c.toNat ∧ c.toNat ≤ 122 then Char.ofNat (c.toNat - 32) else c

/-- Model of JS `toLowerCase` on one ASCII character. -/
def jsLowChar (c : Char) : Char :=
  if 65 ≤ c.toNat ∧ c.toNat ≤ 90 then Char.ofNat (c.toNat + 32) else c

/-- Model of the JS whitespace class used by `trim` (ASCII part:
space, tab, LF, CR, VT, FF). -/
def isJsSpace (c : Char) : Bool :=
  c.toNat = 32 ∨ c.toNat = 9 ∨ c.toNat = 10 ∨ c.toNat = 13 ∨ c.toNat = 11 ∨ c.toNat = 12

/-- Strip leading and trailing whitespace from a character list. -/
def trimChars (l : List Char) : List Char :=
  ((l.dropWhile isJsSpace).reverse.dropWhile isJsSpace).reverse

/-- Model of JS `String.prototype.toUpperCase`. -/
def jsToUpper (s : String) : String := ⟨s.data.map jsUpChar⟩

/-- Model of JS `String.prototype.toLowerCase`. -/
def jsToLower (s : String) : String := ⟨s.data.map jsLowChar⟩

/-- Model of JS `String.prototype.trim`. -/
def jsTrim (s : String) : String := ⟨trimChars s.data⟩

/-- `colors.reset` of `logColors.ts`. -/
def colorsReset : String := "\x1b[0m"

/-- `colors.bold` of `logColors.ts`. -/
def colorsBold : String := "\x1b[1m"

/-- `colors.red` of `logColors.ts`. -/
def colorsRed : String := "\x1b[31m"

/-- JS template interpolation of a possibly-undefined string. -/
def jsInterpOptStr : Option String → String
  | some s => s
  | none => "undefined"

theorem jsUpChar_idem (c : Char) : jsUpChar (jsUpChar c) = jsUpChar c := by
  by_cases h : 97 ≤ c.toNat ∧ c.toNat ≤ 122
  · have h1 : jsUpChar c = Char.ofNat (c.toNat - 32) := by
      unfold jsUpChar; exact if_pos h
    have h2 : (jsUpChar c).toNat = c.toNat - 32 := by
      rw [h1]; exact toNat_ofNat_of_lt _ (by omega)
    have h3 : ¬(97 ≤ (jsUpChar c).toNat ∧ (jsUpChar c).toNat ≤ 122) := by omega
    conv_lhs => unfold jsUpChar
    exact if_neg h3
  · have h1 : jsUpChar c = c := by unfold jsUpChar; exact if_neg h
    simp only [h1]

theorem isJsSpace_jsUpChar (c : Char) : isJsSpace (jsUpChar c) = isJsSpace c := by
  by_cases h : 97 ≤ c.toNat ∧ c.toNat ≤ 122
  · have h1 : jsUpChar c = Char.ofNat (c.toNat - 32) := by
      unfold jsUpChar; exact if_pos h
    have h2 : (jsUpChar c).toNat = c.toNat - 32 := by
      rw [h1]; exact toNat_ofNat_of_lt _ (by omega)
    unfold isJsSpace
    have hl : ¬((jsUpChar c).toNat = 32 ∨ (jsUpChar c).toNat = 9 ∨ (jsUpChar c).toNat = 10 ∨
        (jsUpChar c).toNat = 13 ∨ (jsUpChar c).toNat = 11 ∨ (jsUpChar c).toNat = 12) := by omega
    have hr : ¬(c.toNat = 32 ∨ c.toNat = 9 ∨ c.toNat = 10 ∨
        c.toNat = 13 ∨ c.toNat = 11 ∨ c.toNat = 12) := by omega
    simp [hl, hr]
  · have h1 : jsUpChar c = c := by unfold jsUpChar; exact if_neg h
    rw [h1]

theorem map_jsUpChar_idem (l : List Char) :
    (l.map jsUpChar).map jsUpChar = l.map jsUpChar := by
  induction l with
  | nil => rfl
  | cons a t ih => simp [ih, jsUpChar_idem]

theorem head_dropWhile_isJsSpace (l : List Char) (c : Char)
    (h : (l.dropWhile isJsSpace).head? = some c) : isJsSpace c = false := by
  induction l with
  | nil => simp [List.dropWhile] at h
  | cons a t ih =>
    by_cases ha : isJsSpace a
    · rw [List.dropWhile_cons_of_pos ha] at h
      exact ih h
    · rw [List.dropWhile_cons_of_neg ha] at h
      simp at h
      subst h
      simpa using ha

theorem dropWhile_of_head_clean (l : List Char)
    (h : ∀ c, l.head? = some c → isJsSpace c = false) :
    l.dropWhile isJsSpace = l := by
  cases l with
  | nil => rfl
  | cons a t =>
    have ha : isJsSpace a = false := h a (by simp)
    rw [List.dropWhile_cons_of_neg (by simp [ha])]

theorem dropWhile_isJsSpace_idem (l : List Char) :
    (l.dropWhile isJsSpace).dropWhile isJsSpace = l.dropWhile isJsSpace :=
  dropWhile_of_head_clean _ (head_dropWhile_isJsSpace l)

theorem getLast?_dropWhile_isJsSpace (l : List Char)
    (h : l.dropWhile isJsSpace ≠ []) :
    (l.dropWhile isJsSpace).getLast? = l.getLast? := by
  induction l with
  | nil => simp [List.dropWhile] at h
  | cons a t ih =>
    by_cases ha : isJsSpace a
    · rw [List.dropWhile_cons_of_pos ha] at h ⊢
      have ht : t ≠ [] := by
        intro he; rw [he] at h; simp [List.dropWhile] at h
      rw [ih h]
      cases t with
      | nil => exact absurd rfl ht
      | cons b u => rw [List.getLast?_cons_cons]
    · rw [List.dropWhile_cons_of_neg ha]

theorem map_dropWhile_isJsSpace (l : List Char) :
    (l.map jsUpChar).dropWhile isJsSpace = (l.dropWhile isJsSpace).map jsUpChar := by
  induction l with
  | nil => rfl
  | cons a t ih =>
    by_cases ha : isJsSpace a
    · have ha2 : isJsSpace (jsUpChar a) = true := by rw [isJsSpace_jsUpChar]; exact ha
      simp only [List.map_cons, List.dropWhile_cons_of_pos ha2, List.dropWhile_cons_of_pos ha]
      exact ih
    · have ha2 : isJsSpace (jsUpChar a) = false := by rw [isJsSpace_jsUpChar]; simpa using ha
      have hb : ¬isJsSpace (jsUpChar a) = true := by simp [ha2]
      simp only [List.map_cons, List.dropWhile_cons_of_neg hb,
        List.dropWhile_cons_of_neg ha, List.map_cons]

theorem trimChars_map_jsUpChar (l : List Char) :
    trimChars (l.map jsUpChar) = (trimChars l).map jsUpChar := by
  unfold trimChars
  rw [map_dropWhile_isJsSpace, ← List.map_reverse, map_dropWhile_isJsSpace, List.map_reverse]

theorem rdrop_isJsSpace_idem (l : List Char) :
    (((l.reverse.dropWhile isJsSpace).reverse.reverse).dropWhile isJsSpace).reverse
      = (l.reverse.dropWhile isJsSpace).reverse := by
  rw [List.reverse_reverse, dropWhile_isJsSpace_idem]

theorem trimChars_idem (l : List Char) : trimChars (trimChars l) = trimChars l := by
  unfold trimChars
  set m := l.dropWhile isJsSpace with hm
  have step1 : ((m.reverse.dropWhile isJsSpace).reverse).dropWhile isJsSpace
      = (m.reverse.dropWhile isJsSpace).reverse := by
    apply dropWhile_of_head_clean
    intro c hc
    by_cases hz : m.reverse.dropWhile isJsSpace = []
    · rw [hz] at hc; simp at hc
    · rw [List.head?_reverse] at hc
      rw [getLast?_dropWhile_isJsSpace _ hz, List.getLast?_reverse] at hc
      cases hmm : m with
      | nil => rw [hmm] at hc; simp at hc
      | cons a t =>
        rw [hmm] at hc
        simp at hc
        subst hc
        have : isJsSpace a = false := by
          apply head_dropWhile_isJsSpace l a
          rw [← hm, hmm]; simp
        exact this
  rw [step1, rdrop_isJsSpace_idem]

/-! ## TypeCanonicalizer: `morm/utils/canonicalType.ts` -/

/-- JS `Map`-like association-list read: first entry whose key matches. -/
def alGet {α : Type} (m : List (String × α)) (k : String) : Option α :=
  (m.find? (fun p => p.1 == k)).map (·.2)

/-- Alias table of `canonicalType` in `morm/utils/canonicalType.ts`. -/
def canonAliasMap : List (String × String) := [
  ("INT", "INTEGER"), ("INTEGER", "INTEGER"), ("INT4", "INTEGER"),
  ("SMALLINT", "SMALLINT"), ("INT2", "SMALLINT"),
  ("BIGINT", "BIGINT"), ("INT8", "BIGINT"),
  ("NUMERIC", "NUMERIC"), ("DECIMAL", "NUMERIC"),
  ("BOOLEAN", "BOOLEAN"), ("BOOL", "BOOLEAN"),
  ("TEXT", "TEXT"),
  ("UUID", "UUID"),
  ("JSON", "JSON"), ("JSONB", "JSONB"),
  ("TIME", "TIME"), ("TIME WITHOUT TIME ZONE", "TIME"),
  ("TIMESTAMP", "TIMESTAMP"), ("TIMESTAMP WITHOUT TIME ZONE", "TIMESTAMP"),
  ("TIMESTAMPTZ", "TIMESTAMPTZ"), ("TIMESTAMP WITH TIME ZONE", "TIMESTAMPTZ"),
  ("DATE", "DATE")]

/-- Embedding of `canonicalType` from `morm/utils/canonicalType.ts`:
trim, upper-case, then look the result up in the alias map, falling back to
the raw upper-cased string.  The JS guard `if (!t) return ""` is modelled by
the empty-string test. -/
def canonicalType (t : String) : String :=
  if t = "" then ""
  else (alGet canonAliasMap (jsToUpper (jsTrim t))).getD (jsToUpper (jsTrim t))

/-- Line-terminator test for the JS regex `.` (ASCII model). -/
def jsDotMatches (c : Char) : Bool := ¬(c.toNat = 10 ∨ c.toNat = 13)

/-- Does the regex `\(.+\)$` match `l` starting at position `i`? -/
def parenMatchAt (l : List Char) (i : Nat) : Bool :=
  l.get? i = some '(' ∧ i + 3 ≤ l.length ∧ l.getLast? = some ')' ∧
    ((l.drop (i + 1)).dropLast).all jsDotMatches

/-- Model of `raw.replace(/\(.+\)$/, "")`: drop everything from the leftmost
position where the anchored-paren pattern matches. -/
def stripParenSuffix (l : List Char) : List Char :=
  match (List.range l.length).find? (parenMatchAt l) with
  | some i => l.take i
  | none => l

/-- Alias table local to `canonicalType` in `morm/model.ts` (note: it maps
`DECIMAL` to `DECIMAL`, unlike the utils version, and has a `TIMETZ` entry). -/
def canonModelMap : List (String × String) := [
  ("INT", "INTEGER"), ("INTEGER", "INTEGER"),
  ("SMALLINT", "SMALLINT"),
  ("BIGINT", "BIGINT"),
  ("TEXT", "TEXT"),
  ("UUID", "UUID"),
  ("BOOLEAN", "BOOLEAN"),
  ("JSON", "JSON"), ("JSONB", "JSONB"),
  ("TIMESTAMP", "TIMESTAMP"), ("TIMESTAMPTZ", "TIMESTAMPTZ"),
  ("DATE", "DATE"),
  ("TIME", "TIME"), ("TIMETZ", "TIMETZ"),
  ("NUMERIC", "NUMERIC"), ("DECIMAL", "DECIMAL")]

/-- Body of `canonicalType` from `morm/model.ts` after the trim/upper-case
step: it special-cases three long-form temporal names (the first returning
the misspelled `TIMEZ`), then tries the map on the raw string, then on the
string with a trailing parenthesised length stripped, then falls back to the
stripped string. -/
def canonicalTypeModelRaw (raw : String) : String :=
  if raw = "TIME WITH TIME ZONE" then "TIMEZ"
  else if raw = "TIMESTAMP WITHOUT TIME ZONE" then "TIMESTAMP"
  else if raw = "TIMESTAMP WITH TIME ZONE" then "TIMESTAMPTZ"
  else
    ((alGet canonModelMap raw).orElse
        (fun _ => alGet canonModelMap (jsTrim ⟨stripParenSuffix raw.data⟩))).getD
      (jsTrim ⟨stripParenSuffix raw.data⟩)

/-- Embedding of the private `canonicalType` defined in `morm/model.ts`
(lines 12-41). -/
def canonicalTypeModel (t : String) : String :=
  if t = "" then ""
  else
    canonicalTypeModelRaw (jsToUpper (jsTrim t))

theorem jsToUpper_jsTrim_proj (t : String) :
    jsToUpper (jsTrim (jsToUpper (jsTrim t))) = jsToUpper (jsTrim t) := by
  unfold jsToUpper jsTrim
  apply congrArg String.mk
  show (trimChars ((trimChars t.data).map jsUpChar)).map jsUpChar
      = (trimChars t.data).map jsUpChar
  rw [trimChars_map_jsUpChar, trimChars_idem, map_jsUpChar_idem]

theorem canonAliasMap_value_fixed (v : String)
    (h : ∃ p ∈ canonAliasMap, p.2 = v) : canonicalType v = v := by
  obtain ⟨p, hp, hv⟩ := h
  subst hv
  fin_cases hp <;> decide

theorem canonicalType_idem (t : String) :
    canonicalType (canonicalType t) = canonicalType t := by
  by_cases h0 : t = ""
  · subst h0; decide
  · have hstep : canonicalType t
        = (alGet canonAliasMap (jsToUpper (jsTrim t))).getD (jsToUpper (jsTrim t)) := by
      unfold canonicalType; rw [if_neg h0]
    cases hfind : alGet canonAliasMap (jsToUpper (jsTrim t)) with
    | some v =>
      have hres : canonicalType t = v := by rw [hstep, hfind]; rfl
      rw [hres]
      apply canonAliasMap_value_fixed
      unfold alGet at hfind
      cases hf : canonAliasMap.find? (fun p => p.1 == jsToUpper (jsTrim t)) with
      | none => rw [hf] at hfind; simp at hfind
      | some p =>
        rw [hf] at hfind
        simp at hfind
        exact ⟨p, List.mem_of_find?_eq_some hf, hfind⟩
    | none =>
      have hres : canonicalType t = jsToUpper (jsTrim t) := by rw [hstep, hfind]; rfl
      rw [hres]
      by_cases hraw : jsToUpper (jsTrim t) = ""
      · rw [hraw]; decide
      · unfold canonicalType
        rw [if_neg hraw, jsToUpper_jsTrim_proj, hfind]
        rfl

/-- Claim C10 counterexample: the `canonicalType` implementation in
`morm/model.ts` is not idempotent.  On the input `TIME WITH TIME ZONE(3)`
one application strips the parenthesised length and returns
`TIME WITH TIME ZONE`, while a second application hits the special case and
returns `TIMEZ`. -/
theorem claim10_counterexample :
    canonicalTypeModel (canonicalTypeModel "TIME WITH TIME ZONE(3)")
      ≠ canonicalTypeModel "TIME WITH TIME ZONE(3)" := by
  decide

/-- Claim C10 (amended): the canonicalizer in `morm/utils/canonicalType.ts`
is idempotent for every input string, but the `canonicalType` implementation
private to `morm/model.ts` is not idempotent (it fails on
`TIME WITH TIME ZONE(3)`). -/
theorem claim10_amended :
    (∀ t : String, canonicalType (canonicalType t) = canonicalType t) ∧
      ¬(∀ t : String, canonicalTypeModel (canonicalTypeModel t) = canonicalTypeModel t) := by
  constructor
  · exact canonicalType_idem
  · intro h
    have := h "TIME WITH TIME ZONE(3)"
    revert this
    decide

/-- Replace every occurrence of one character by a character sequence
(kernel-reducible model of the JS `replace(/c/g, rep)` calls). -/
def replaceAllChar (target : Char) (rep : List Char) : List Char → List Char
  | [] => []
  | c :: cs =>
    if c = target then rep ++ replaceAllChar target rep cs
    else c :: replaceAllChar target rep cs

/-! ## JS runtime values

Column defaults in the source are arbitrary JS values.  `JSVal` models the
cases the engine distinguishes (`undefined`, `null`, booleans, numbers,
strings, arrays, plain objects).  A non-integral number carries its decimal
rendering; a plain object carries its `JSON.stringify` rendering. -/

inductive JSVal where
  | undef
  | null
  | boolean (b : Bool)
  | int (n : Int)
  | float (r : String)
  | str (s : String)
  | arr (elems : List JSVal)
  | obj (json : String)
deriving Repr

/-- JS truthiness of a value. -/
def jsTruthy : JSVal → Bool
  | .undef => false
  | .null => false
  | .boolean b => b
  | .int n => n ≠ 0
  | .float r => r ≠ "0"
  | .str s => s ≠ ""
  | .arr _ => true
  | .obj _ => true

mutual

/-- Model of the JS `String(v)` coercion. -/
def jsString : JSVal → String
  | .undef => "undefined"
  | .null => "null"
  | .boolean b => cond b "true" "false"
  | .int n => toString n
  | .float r => r
  | .str s => s
  | .arr xs => String.intercalate "," (jsStringList xs)
  | .obj _ => "[object Object]"

def jsStringList : List JSVal → List String
  | [] => []
  | x :: xs => jsString x :: jsStringList xs

end

mutual

/-- Model of `JSON.stringify` on the values above (string escaping is limited
to quote and backslash, the cases arising in SQL defaults). -/
def jsonStringify : JSVal → String
  | .undef => "null"
  | .null => "null"
  | .boolean b => cond b "true" "false"
  | .int n => toString n
  | .float r => r
  | .str s => "\"" ++ (⟨replaceAllChar '"' ['\\', '"'] (replaceAllChar '\\' ['\\', '\\'] s.data)⟩ : String) ++ "\""
  | .arr xs => "[" ++ String.intercalate "," (jsonStringifyList xs) ++ "]"
  | .obj j => j

def jsonStringifyList : List JSVal → List String
  | [] => []
  | x :: xs => jsonStringify x :: jsonStringifyList xs

end

/-! ## CheckParser: `morm copy 2/utils/checkParser.ts` -/

/-- Token type of the check-expression tokenizer (the explicit `eof` token of
the source is modelled by the end of the token list). -/
inductive CToken where
  | num (v : String)
  | str (v : String)
  | ident (v : String)
  | op (v : String)
  | punc (v : String)
deriving Repr, DecidableEq

/-- Source `isWhitespace`: exactly space, tab, LF, CR. -/
def isWsTok (c : Char) : Bool :=
  c = ' ' ∨ c = '\t' ∨ c = '\n' ∨ c = '\r'

/-- Source `isDigit` (regex `[0-9]`). -/
def isDigitC (c : Char) : Bool := 48 ≤ c.toNat ∧ c.toNat ≤ 57

/-- Source `isIdentStart` (regex `[a-zA-Z_]`). -/
def isIdentStartC (c : Char) : Bool :=
  (65 ≤ c.toNat ∧ c.toNat ≤ 90) ∨ (97 ≤ c.toNat ∧ c.toNat ≤ 122) ∨ c.toNat = 95

/-- Source `isIdentPart` (regex `[a-zA-Z0-9_.$]`). -/
def isIdentPartC (c : Char) : Bool :=
  isIdentStartC c ∨ isDigitC c ∨ c.toNat = 46 ∨ c.toNat = 36

/-- String-literal scanner of the tokenizer: consumes up to the closing
quote, honouring backslash escapes; `none` models the thrown
`Unterminated string literal` error. -/
def strBody (quote : Char) : List Char → Option (List Char × List Char)
  | [] => none
  | '\\' :: c2 :: cs2 => (strBody quote cs2).map (fun p => (c2 :: p.1, p.2))
  | '\\' :: [] => none
  | c :: cs =>
    if c = quote then some ([], cs)
    else (strBody quote cs).map (fun p => (c :: p.1, p.2))

/-- Number scanner: digits with at most one interior dot. -/
def scanNum (acc : List Char) (seenDot : Bool) : List Char → (List Char × List Char)
  | [] => (acc, [])
  | c :: cs =>
    if c = '.' then
      if seenDot then (acc, c :: cs)
      else scanNum (acc ++ ['.']) true cs
    else if isDigitC c then scanNum (acc ++ [c]) seenDot cs
    else (acc, c :: cs)

/-- One tokenizer step worth of lookahead for the 3- and 2-character
operators (source: `input.slice(i, i + 3)` / `slice(i, i + 2)`). -/
def tokTake (n : Nat) (l : List Char) : String := ⟨l.take n⟩

/-- Tokenizer loop of `checkParser.ts` (fuel is one plus the number of
remaining characters; every iteration consumes at least one character, so
the fuel never runs out). -/
def tokenizeAux : Nat → List Char → Except String (List CToken)
  | 0, _ => .error "out of fuel"
  | _, [] => .ok []
  | fuel + 1, c :: cs =>
    if isWsTok c then tokenizeAux fuel cs
    else if c = '(' ∨ c = ')' ∨ c = ',' ∨ c = '[' ∨ c = ']' then
      (tokenizeAux fuel cs).map (CToken.punc ⟨[c]⟩ :: ·)
    else if tokTake 3 (c :: cs) = "===" ∨ tokTake 3 (c :: cs) = "!==" then
      (tokenizeAux fuel (cs.drop 2)).map (CToken.op (tokTake 3 (c :: cs)) :: ·)
    else if tokTake 2 (c :: cs) = "==" ∨ tokTake 2 (c :: cs) = "!=" ∨
        tokTake 2 (c :: cs) = ">=" ∨ tokTake 2 (c :: cs) = "<=" ∨
        tokTake 2 (c :: cs) = "&&" ∨ tokTake 2 (c :: cs) = "||" then
      (tokenizeAux fuel (cs.drop 1)).map (CToken.op (tokTake 2 (c :: cs)) :: ·)
    else if c = '>' ∨ c = '<' ∨ c = '!' ∨ c = '+' ∨ c = '-' ∨ c = '*' ∨ c = '/' then
      (tokenizeAux fuel cs).map (CToken.op ⟨[c]⟩ :: ·)
    else if c = '\x27' ∨ c = '"' then
      match strBody c cs with
      | none => .error "Unterminated string literal in check expression"
      | some (buf, rest) => (tokenizeAux fuel rest).map (CToken.str ⟨buf⟩ :: ·)
    else if isDigitC c ∨ (c = '-' ∧ (cs.head?.map isDigitC).getD false) then
      match scanNum [c] false cs with
      | (acc, rest) => (tokenizeAux fuel rest).map (CToken.num ⟨acc⟩ :: ·)
    else if isIdentStartC c then
      let rest := cs.takeWhile isIdentPartC
      let raw : String := ⟨c :: rest⟩
      let remaining := cs.drop rest.length
      if jsToUpper raw = "AND" then (tokenizeAux fuel remaining).map (CToken.op "&&" :: ·)
      else if jsToUpper raw = "OR" then (tokenizeAux fuel remaining).map (CToken.op "||" :: ·)
      else (tokenizeAux fuel remaining).map (CToken.ident raw :: ·)
    else .error "Unexpected character in check expression"

/-- Tokenizer entry point. -/
def tokenize (l : List Char) : Except String (List CToken) :=
  tokenizeAux (l.length + 1) l

/-- Literal payload of an AST leaf.  A numeric literal stores the token text;
the source stores `Number(text)` and re-renders it with `String(...)`, which
`jsNumToString` models below. -/
inductive CLit where
  | numL (raw : String)
  | strL (s : String)
  | boolL (b : Bool)
  | nullL
deriving Repr, DecidableEq

/-- AST of the check-expression language. -/
inductive CAst where
  | lit (v : CLit)
  | identNode (nm : String)
  | call (nm : String) (args : List CAst)
  | unary (op : String) (e : CAst)
  | binary (op : String) (lhs rhs : CAst)
  | arrayLit (items : List CAst)
deriving Repr

/-- Check whether a token is one of the comparison operators
(source regex `^(===|==|!==|!=|>=|<=|>|<)$`). -/
def isCompOp (v : String) : Bool :=
  v = "===" ∨ v = "==" ∨ v = "!==" ∨ v = "!=" ∨ v = ">=" ∨ v = "<=" ∨ v = ">" ∨ v = "<"

/-- Check whether a token is an additive/multiplicative operator. -/
def isAddOp (v : String) : Bool :=
  v = "+" ∨ v = "-" ∨ v = "*" ∨ v = "/"

mutual

/-- `parseOr` of the source (lowest precedence, left associative). -/
def parseOr : Nat → List CToken → Except String (CAst × List CToken)
  | 0, _ => .error "out of fuel"
  | fuel + 1, ts => do
    let (n, ts) ← parseAnd fuel ts
    parseOrLoop fuel n ts

def parseOrLoop : Nat → CAst → List CToken → Except String (CAst × List CToken)
  | 0, _, _ => .error "out of fuel"
  | fuel + 1, n, ts =>
    match ts with
    | CToken.op "||" :: ts2 => do
      let (r, ts3) ← parseAnd fuel ts2
      parseOrLoop fuel (CAst.binary "||" n r) ts3
    | _ => .ok (n, ts)

/-- `parseAnd` of the source. -/
def parseAnd : Nat → List CToken → Except String (CAst × List CToken)
  | 0, _ => .error "out of fuel"
  | fuel + 1, ts => do
    let (n, ts) ← parseNot fuel ts
    parseAndLoop fuel n ts

def parseAndLoop : Nat → CAst → List CToken → Except String (CAst × List CToken)
  | 0, _, _ => .error "out of fuel"
  | fuel + 1, n, ts =>
    match ts with
    | CToken.op "&&" :: ts2 => do
      let (r, ts3) ← parseNot fuel ts2
      parseAndLoop fuel (CAst.binary "&&" n r) ts3
    | _ => .ok (n, ts)

/-- `parseNot` of the source. -/
def parseNot : Nat → List CToken → Except String (CAst × List CToken)
  | 0, _ => .error "out of fuel"
  | fuel + 1, ts =>
    match ts with
    | CToken.op "!" :: ts2 => do
      let (e, ts3) ← parseNot fuel ts2
      .ok (CAst.unary "!" e, ts3)
    | _ => parseComparison fuel ts

/-- `parseComparison` of the source: a single optional comparison between two
additive expressions. -/
def parseComparison : Nat → List CToken → Except String (CAst × List CToken)
  | 0, _ => .error "out of fuel"
  | fuel + 1, ts => do
    let (l, ts2) ← parseAdd fuel ts
    match ts2 with
    | CToken.op v :: ts3 =>
      if isCompOp v then do
        let (r, ts4) ← parseAdd fuel ts3
        .ok (CAst.binary v l r, ts4)
      else .ok (l, ts2)
    | _ => .ok (l, ts2)

/-- `parseAdd` of the source (arithmetic operators, one precedence level,
left associative). -/
def parseAdd : Nat → List CToken → Except String (CAst × List CToken)
  | 0, _ => .error "out of fuel"
  | fuel + 1, ts => do
    let (n, ts) ← parsePrimary fuel ts
    parseAddLoop fuel n ts

def parseAddLoop : Nat → CAst → List CToken → Except String (CAst × List CToken)
  | 0, _, _ => .error "out of fuel"
  | fuel + 1, n, ts =>
    match ts with
    | CToken.op v :: ts2 =>
      if isAddOp v then do
        let (r, ts3) ← parsePrimary fuel ts2
        parseAddLoop fuel (CAst.binary v n r) ts3
      else .ok (n, ts)
    | _ => .ok (n, ts)

/-- `parsePrimary` of the source.  Note that in the source the array-literal
branch sits inside the identifier branch, after the identifier has been
consumed. -/
def parsePrimary : Nat → List CToken → Except String (CAst × List CToken)
  | 0, _ => .error "out of fuel"
  | fuel + 1, ts =>
    match ts with
    | CToken.num v :: ts2 => .ok (CAst.lit (CLit.numL v), ts2)
    | CToken.str v :: ts2 => .ok (CAst.lit (CLit.strL v), ts2)
    | CToken.ident v :: ts2 =>
      if jsToLower v = "true" then .ok (CAst.lit (CLit.boolL true), ts2)
      else if jsToLower v = "false" then .ok (CAst.lit (CLit.boolL false), ts2)
      else if jsToLower v = "null" then .ok (CAst.lit CLit.nullL, ts2)
      else
        match ts2 with
        | CToken.punc "(" :: ts3 =>
          match ts3 with
          | CToken.punc ")" :: ts4 => .ok (CAst.call v [], ts4)
          | _ => do
            let (args, ts4) ← parseArgsLoop fuel [] ts3
            match ts4 with
            | CToken.punc ")" :: ts5 => .ok (CAst.call v args, ts5)
            | _ => .error "Expected close paren in check expression"
        | CToken.punc "[" :: ts3 =>
          match ts3 with
          | CToken.punc "]" :: ts4 => .ok (CAst.arrayLit [], ts4)
          | _ => do
            let (items, ts4) ← parseArgsLoop fuel [] ts3
            match ts4 with
            | CToken.punc "]" :: ts5 => .ok (CAst.arrayLit items, ts5)
            | _ => .error "Expected close bracket in check expression"
        | _ => .ok (CAst.identNode v, ts2)
    | CToken.punc "(" :: ts2 => do
      let (n, ts3) ← parseOr fuel ts2
      match ts3 with
      | CToken.punc ")" :: ts4 => .ok (n, ts4)
      | _ => .error "Expected close paren in check expression"
    | _ => .error "Unexpected token in check expression"

/-- Comma-separated expression list shared by the call and array branches. -/
def parseArgsLoop : Nat → List CAst → List CToken → Except String (List CAst × List CToken)
  | 0, _, _ => .error "out of fuel"
  | fuel + 1, acc, ts => do
    let (e, ts2) ← parseOr fuel ts
    match ts2 with
    | CToken.punc "," :: ts3 => parseArgsLoop fuel (acc ++ [e]) ts3
    | _ => .ok (acc ++ [e], ts2)

end

/-- Drop leading zero characters but keep at least one digit. -/
def dropLeadZeros : List Char → List Char
  | [] => []
  | [c] => [c]
  | c :: cs => if c = '0' then dropLeadZeros cs else c :: cs

/-- Model of `String(Number(raw))` for the decimal tokens the tokenizer
produces: normalises leading zeros, a trailing dot and trailing fractional
zeros, and `-0` (exponent re-rendering of very large or very small values is
outside the model; the engine only meets short literals). -/
def jsNumToString (raw : String) : String :=
  let l := raw.data
  let neg := l.head? = some '-'
  let l2 := if neg then l.tail else l
  let ip := l2.takeWhile (fun c => ¬(c = '.'))
  let fpRaw := (l2.dropWhile (fun c => ¬(c = '.'))).tail
  let ip2 := dropLeadZeros ip
  let fp2 := (fpRaw.reverse.dropWhile (fun c => c = '0')).reverse
  if ip2.all (fun c => c = '0') ∧ fp2 = [] then "0"
  else (if neg then "-" else "") ++ (⟨ip2⟩ : String) ++
    (if fp2 = [] then "" else "." ++ (⟨fp2⟩ : String))

/-- Source `escapeSqlString`: double every single quote. -/
def escapeSqlString (s : String) : String :=
  ⟨replaceAllChar '\x27' ['\x27', '\x27'] s.data⟩

/-- SQL rendering of a literal (source `astToSql`, `Literal` case). -/
def litSql : CLit → String
  | .nullL => "NULL"
  | .boolL b => cond b "TRUE" "FALSE"
  | .numL raw => jsNumToString raw
  | .strL s => "\x27" ++ escapeSqlString s ++ "\x27"

/-- Operator translation table of `astToSql` (`BinaryOp` case). -/
def sqlOpOf (op : String) : String :=
  if op = "||" then "OR"
  else if op = "&&" then "AND"
  else if op = "===" then "="
  else if op = "==" then "="
  else if op = "!==" then "<>"
  else if op = "!=" then "<>"
  else op

mutual

/-- Embedding of `astToSql`. -/
def astToSql : CAst → String
  | .lit v => litSql v
  | .identNode nm => nm
  | .call nm args => nm ++ "(" ++ String.intercalate ", " (astToSqlList args) ++ ")"
  | .arrayLit items => "ARRAY[" ++ String.intercalate ", " (astToSqlList items) ++ "]"
  | .unary _ e => "NOT (" ++ astToSql e ++ ")"
  | .binary op lhs rhs =>
    "(" ++ astToSql lhs ++ " " ++ sqlOpOf op ++ " " ++ astToSql rhs ++ ")"

def astToSqlList : List CAst → List String
  | [] => []
  | x :: xs => astToSql x :: astToSqlList xs

end

/-- Embedding of the public `parseCheck`: tokenize, parse a full expression,
require that all tokens are consumed, then render SQL.  Errors model the
thrown `SyntaxError`s. -/
def parseCheck (input : String) : Except String String := do
  let tokens ← tokenize input.data
  let (ast, rest) ← parseOr (tokens.length * 4 + 16) tokens
  match rest with
  | [] => .ok (astToSql ast)
  | _ => .error "Unexpected content after end of expression"

/-- Claim C7: `parseCheck` on the S5 scenario input yields exactly the SQL
string of the specification. -/
theorem claim7_parseCheck :
    parseCheck "age >= 18 && (role === \x27ADMIN\x27 || role === \x27STUDENT\x27)"
      = Except.ok "((age >= 18) AND ((role = \x27ADMIN\x27) OR (role = \x27STUDENT\x27)))" := by
  rfl

/-! ## Column model

`RtCol` models a processed (runtime) column: the declared fields plus the
derived double-underscore flags the engine attaches.  `notNull` is an
`Option Bool` because the source distinguishes `undefined`, `true` and
`false` (`col.notNull !== false` vs truthiness). -/

/-- Declared `references` payload of a column. -/
structure ColRef where
  table : String
  column : String
  relation : Option String := none
  onDelete : Option String := none
  onUpdate : Option String := none
deriving Repr, DecidableEq

/-- Processed column as used by `createModelRuntime` and the alter phases. -/
structure RtCol where
  name : String := ""
  type : String := ""
  primary : Bool := false
  unique : Bool := false
  notNull : Option Bool := none
  default : JSVal := .undef
  check : Option String := none
  references : Option ColRef := none
  __primary : Bool := false
  __renamed : Bool := false
  __identity : Bool := false
  __isEnumType : Bool := false
  __isArray : Bool := false
  __arrayInner : Option String := none
  __enumKey : Option String := none
  __virtual : Bool := false
deriving Repr

/-- Is the value JS `undefined`? -/
def JSVal.isUndef : JSVal → Bool
  | .undef => true
  | _ => false

/-- Is the value JS `null`? -/
def JSVal.isNull : JSVal → Bool
  | .null => true
  | _ => false

/-- Is the value a JS string? -/
def JSVal.isStr : JSVal → Bool
  | .str _ => true
  | _ => false

/-! ## ColumnSqlBuilder: `morm/sql/buildColumnSQL.ts` -/

/-- `BUILTIN_SCALARS` of `buildColumnSQL.ts` (note: contains the misspelled
`TIMEZ` and no `JSON`). -/
def builtinScalars : List String :=
  ["TEXT", "INT", "INTEGER", "BIGINT", "SMALLINT", "UUID", "BOOLEAN", "JSONB",
   "TIMESTAMP", "TIMESTAMPTZ", "DATE", "TIME", "TIMEZ", "NUMERIC", "DECIMAL"]

/-- Source `isArrayType`: does the string end in `[]`? -/
def typeEndsArray (s : String) : Bool :=
  match s.data.reverse with
  | ']' :: '[' :: _ => true
  | _ => false

/-- JS `slice(0, -2)`. -/
def dropRight2 (s : String) : String := ⟨s.data.take (s.data.length - 2)⟩

/-- Source `normalizeType` of `buildColumnSQL.ts`. -/
def normalizeType (type : String) : String :=
  let raw := jsTrim type
  let upper := jsToUpper raw
  if typeEndsArray upper then
    let base := dropRight2 upper
    if builtinScalars.contains base then base ++ "[]" else raw
  else if builtinScalars.contains upper then upper
  else raw

/-- Source `escapeLiteral` of `buildColumnSQL.ts`. -/
def escapeLiteral (s : String) : String :=
  ⟨replaceAllChar '\x27' ['\x27', '\x27'] s.data⟩

/-- Regex `^-?\d+(\.\d+)?$` on a character list. -/
def isDecimalLit (l : List Char) : Bool :=
  let l2 := if l.head? = some '-' then l.tail else l
  let ip := l2.takeWhile isDigitC
  let rest := l2.drop ip.length
  decide (ip ≠ []) && (match rest with
    | [] => true
    | '.' :: frac => decide (frac ≠ []) && frac.all isDigitC
    | _ => false)

/-- Source `isNumericString`: numeric-literal strings (after trim). -/
def isNumericString : JSVal → Bool
  | .str v => isDecimalLit (trimChars v.data)
  | _ => false

/-- Word character of the JS regex `\w`. -/
def isWordChar (c : Char) : Bool :=
  isDigitC c ∨ (65 ≤ c.toNat ∧ c.toNat ≤ 90) ∨ (97 ≤ c.toNat ∧ c.toNat ≤ 122) ∨ c.toNat = 95

/-- Scan helper for `looksLikeFunction`: is there a `)` after this point with
no line terminator before it (the `.*\)` tail of the regex)? -/
def hasCloseNoNewline : List Char → Bool
  | [] => false
  | c :: cs =>
    if c = ')' then true
    else if c = '\n' ∨ c = '\r' then false
    else hasCloseNoNewline cs

/-- Model of the unanchored regex test `/\w+\s*\(.*\)/` of the source
`looksLikeFunction`: some word character, optional whitespace, an opening
parenthesis and a closing parenthesis later on the same line. -/
def looksLikeFunction (raw : String) : Bool :=
  let l := raw.data
  (List.range l.length).any (fun p =>
    l.get? p = some '(' &&
    (match ((l.take p).reverse.dropWhile isJsSpace).head? with
     | some c => isWordChar c
     | none => false) &&
    hasCloseNoNewline (l.drop (p + 1)))

/-- Hexadecimal digit or dash (element class of the inline UUID regex
`^[0-9a-fA-F-]{36}$` in the UUID default branch). -/
def isHexDash (c : Char) : Bool :=
  isDigitC c ∨ (65 ≤ c.toNat ∧ c.toNat ≤ 70) ∨ (97 ≤ c.toNat ∧ c.toNat ≤ 102) ∨ c.toNat = 45

/-- The inline UUID-shape test of the UUID default branch. -/
def matchesUuid36 (s : String) : Bool :=
  s.data.length = 36 && s.data.all isHexDash

/-- Source `formatPgArrayLiteral`, one element. -/
def formatPgArrayElem (elementTypeUpper : String) (el : JSVal) : String :=
  match el with
  | .null => "NULL"
  | .undef => "NULL"
  | _ =>
    if elementTypeUpper = "BOOLEAN" then cond (jsTruthy el) "t" "f"
    else if elementTypeUpper = "JSONB" then "\"" ++ escapeLiteral (jsonStringify el) ++ "\""
    else if elementTypeUpper = "INT" ∨ elementTypeUpper = "INTEGER" ∨
        elementTypeUpper = "BIGINT" ∨ elementTypeUpper = "SMALLINT" ∨
        elementTypeUpper = "NUMERIC" ∨ elementTypeUpper = "DECIMAL" then jsString el
    else "\"" ++ escapeLiteral (jsString el) ++ "\""

/-- Source `formatPgArrayLiteral`. -/
def formatPgArrayLiteral (elems : List JSVal) (elementTypeUpper : String) : String :=
  "\x7b" ++ String.intercalate "," (elems.map (formatPgArrayElem elementTypeUpper)) ++ "\x7d"

/-- JS `raw.replace(/\[\]$/, "")`. -/
def stripArraySuffix (s : String) : String :=
  if typeEndsArray s then dropRight2 s else s

/-- DEFAULT fragment of `buildColumnSQL` (the long `col.default` chain).
Returns the list of parts to append (empty when nothing is emitted). -/
def buildDefaultParts (typUpper : String) (d : JSVal) : List String :=
  match d with
  | .undef => []
  | _ =>
    if typUpper = "TEXT" then
      ["DEFAULT \x27" ++ escapeLiteral (jsString d) ++ "\x27"]
    else if typUpper = "UUID" then
      match d with
      | .null => ["DEFAULT NULL"]
      | .str s =>
        let rawTrim := jsTrim s
        if jsToLower rawTrim = "uuid()" then ["DEFAULT gen_random_uuid()"]
        else if matchesUuid36 rawTrim then ["DEFAULT \x27" ++ escapeLiteral rawTrim ++ "\x27"]
        else if looksLikeFunction rawTrim then ["DEFAULT " ++ rawTrim]
        else ["DEFAULT \x27" ++ escapeLiteral rawTrim ++ "\x27"]
      | _ => ["DEFAULT \x27" ++ escapeLiteral (jsString d) ++ "\x27"]
    else if isNumericString d &&
        (typUpper = "INT" ∨ typUpper = "INTEGER" ∨ typUpper = "SMALLINT" ∨
         typUpper = "BIGINT" ∨ typUpper = "NUMERIC" ∨ typUpper = "DECIMAL") then
      match d with
      | .str s => ["DEFAULT " ++ jsTrim s]
      | _ => []
    else
      match d with
      | .str s =>
        if jsToLower (jsTrim s) = "int()" then []
        else if looksLikeFunction (jsTrim s) then ["DEFAULT " ++ jsTrim s]
        else ["DEFAULT \x27" ++ escapeLiteral (jsTrim s) ++ "\x27"]
      | .arr elems =>
        let elType := if typeEndsArray typUpper then dropRight2 typUpper else typUpper
        ["DEFAULT \x27" ++ formatPgArrayLiteral elems elType ++ "\x27"]
      | .int n => ["DEFAULT " ++ toString n]
      | .float r => ["DEFAULT " ++ r]
      | .boolean b => ["DEFAULT " ++ cond b "true" "false"]
      | .null => ["DEFAULT NULL"]
      | .obj j => ["DEFAULT \x27" ++ escapeLiteral j ++ "\x27"]
      | .undef => []

/-- Truthiness of the `check` field (`col.check && ...`). -/
def checkTruthy : Option String → Bool
  | some s => s ≠ ""
  | none => false

/-- Embedding of `buildColumnSQL` from `morm/sql/buildColumnSQL.ts`.
Virtual columns yield the empty fragment.  A CHECK parse error makes the
source log and return the partial fragment built so far, which the embedding
reproduces. -/
def buildColumnSQL (col : RtCol) : String :=
  if col.__virtual then ""
  else
    let typRaw := col.type
    let typUpper := jsToUpper (normalizeType typRaw)
    let typePart :=
      if col.__identity ∧ (typUpper = "INT" ∨ typUpper = "INTEGER") then
        ["INTEGER GENERATED ALWAYS AS IDENTITY"]
      else if typeEndsArray typUpper then
        let base := dropRight2 typUpper
        if builtinScalars.contains base then [base ++ "[]"]
        else ["\"" ++ jsToLower (stripArraySuffix typRaw) ++ "\"[]"]
      else if builtinScalars.contains typUpper then [typUpper]
      else ["\"" ++ typRaw ++ "\""]
    let relParts :=
      match col.references with
      | some ref =>
        (if col.notNull ≠ some false then ["NOT NULL"] else []) ++
          (if ref.relation = some "ONE-TO-ONE" then ["UNIQUE"] else [])
      | none => []
    let headParts :=
      ["\"" ++ col.name ++ "\""] ++ typePart ++ relParts ++
        (if col.__primary then ["PRIMARY KEY"] else []) ++
        (if col.unique then ["UNIQUE"] else []) ++
        (if col.notNull = some true then ["NOT NULL"] else []) ++
        buildDefaultParts typUpper col.default
    let tailParts :=
      (if col.notNull = some true then ["NOT NULL"] else []) ++
        (if col.unique then ["UNIQUE"] else []) ++
        (match col.references with
         | some ref =>
           ["REFERENCES \"" ++ ref.table ++ "\"(\"" ++ ref.column ++ "\")" ++
             "ON DELETE " ++ ref.onDelete.getD "CASCADE" ++
             " ON UPDATE " ++ ref.onUpdate.getD "CASCADE"]
         | none => [])
    if checkTruthy col.check ∧ col.references = none then
      match parseCheck (col.check.getD "") with
      | .error _ => String.intercalate " " headParts
      | .ok sqlCheck =>
        String.intercalate " " (headParts ++ ["CHECK (" ++ sqlCheck ++ ")"] ++ tailParts)
    else
      String.intercalate " " (headParts ++ tailParts)

/-! ## JS `Map` operations on association lists -/

/-- JS `Map.set`: update the existing entry in place, else append. -/
def alSet {α : Type} : List (String × α) → String → α → List (String × α)
  | [], k, v => [(k, v)]
  | (k0, v0) :: rest, k, v =>
    if k0 = k then (k, v) :: rest else (k0, v0) :: alSet rest k v

/-- JS `Map.delete`. -/
def alDelete {α : Type} : List (String × α) → String → List (String × α)
  | [], _ => []
  | (k0, v0) :: rest, k => if k0 = k then rest else (k0, v0) :: alDelete rest k

/-- JS `new Map(entries)`: later entries for the same key overwrite earlier
ones. -/
def jsMapOfEntries {α : Type} (entries : List (String × α)) : List (String × α) :=
  entries.foldl (fun m p => alSet m p.1 p.2) []

/-! ## Shared phase types -/

/-- Row of `information_schema.columns` as read by `diffTable`. -/
structure DbRow where
  column_name : String := ""
  data_type : String := ""
  udt_name : String := ""
  is_nullable : String := ""
  column_default : Option String := none
  is_identity : String := ""
deriving Repr, DecidableEq

/-- Result of phase 0 (`batchCounts`); `none` models the `null` produced when
the counts query fails. -/
structure Counts where
  total : Nat := 0
  nonNull : List (String × Nat) := []
deriving Repr, DecidableEq

/-- Common result shape of the simple alter phases: success flag, executed
mutating statements in order, and log messages (colour codes omitted). -/
structure PhaseResult where
  ok : Bool
  trace : List String := []
  messages : List String := []
deriving Repr, DecidableEq

/-- Source helper `q`: double-quote an identifier, doubling embedded
quotes. -/
def qIdent (n : String) : String :=
  "\"" ++ (⟨replaceAllChar '"' ['"', '"'] n.data⟩ : String) ++ "\""

/-! ## Unique phase: `migrations/alterColumnUnique.ts` (unnamed part) -/

/-- Source `isAllowedUniqueDefault`: `null`, `int()` or `uuid()` (after trim
and lower-casing) are the only defaults accepted when adding UNIQUE to a
table that has data. -/
def isAllowedUniqueDefault : JSVal → Bool
  | .null => true
  | .str s => jsToLower (jsTrim s) = "int()" ∨ jsToLower (jsTrim s) = "uuid()"
  | _ => false

/-- Column loop of `alterColumnUnique`.  `dbUniques` is the column-to-
constraint-name map read by `getUniqueConstraints`. -/
def alterColumnUniqueLoop (table : String) (dbUniques : List (String × String))
    (tableHasData : Bool) : List RtCol → PhaseResult
  | [] => { ok := true }
  | col :: rest =>
    if col.__virtual then alterColumnUniqueLoop table dbUniques tableHasData rest
    else if col.__primary then alterColumnUniqueLoop table dbUniques tableHasData rest
    else
      let wantsUnique := col.unique
      let hasUnique := (alGet dbUniques col.name).isSome
      if wantsUnique = hasUnique then alterColumnUniqueLoop table dbUniques tableHasData rest
      else if wantsUnique ∧ ¬hasUnique then
        if tableHasData ∧ ¬isAllowedUniqueDefault col.default then { ok := false }
        else
          let r := alterColumnUniqueLoop table dbUniques tableHasData rest
          { ok := r.ok,
            trace := ("ALTER TABLE " ++ qIdent table ++ " ADD UNIQUE (" ++ qIdent col.name ++ ")")
              :: r.trace,
            messages := ("Added UNIQUE: " ++ col.name) :: r.messages }
      else
        match alGet dbUniques col.name with
        | some constraintName =>
          if constraintName ≠ "" then
            let r := alterColumnUniqueLoop table dbUniques tableHasData rest
            { ok := r.ok,
              trace := ("ALTER TABLE " ++ qIdent table ++ " DROP CONSTRAINT " ++ qIdent constraintName)
                :: r.trace,
              messages := ("Dropped UNIQUE: " ++ col.name) :: r.messages }
          else alterColumnUniqueLoop table dbUniques tableHasData rest
        | none => alterColumnUniqueLoop table dbUniques tableHasData rest

/-- Embedding of `alterColumnUnique`.  `counts = none` models null counts;
`tableHasData` is the source expression `(counts?.total ?? 0) > 0`. -/
def alterColumnUnique (table : String) (processed : List RtCol)
    (dbUniques : List (String × String)) (counts : Option Counts) : PhaseResult :=
  alterColumnUniqueLoop table dbUniques (0 < (counts.map (·.total)).getD 0) processed

/-! ## Name phase: `alterColumn` appended in `morm/migrations/diffTable.ts` -/

/-- JS `replace(/^_/, "")`. -/
def stripLeadingUnderscore (s : String) : String :=
  match s.data with
  | '_' :: rest => ⟨rest⟩
  | _ => s

/-- Source `dbCanonicalType` of the name phase. -/
def dbCanonicalType (r : DbRow) : String :=
  let dt := jsToUpper r.data_type
  if dt = "ARRAY" then canonicalType (stripLeadingUnderscore r.udt_name) ++ "[]"
  else if dt = "USER-DEFINED" then canonicalType r.udt_name
  else canonicalType r.data_type

/-- Source `canonicalTypeWithArray` of the name phase. -/
def canonicalTypeWithArray (t : String) : String :=
  let upper := jsToUpper t
  if typeEndsArray upper then canonicalType (dropRight2 upper) ++ "[]"
  else canonicalType upper

/-- Mark `__renamed` on the column the JS object mutation hits: the map is
built with last-entry-wins, so the last column with the name. -/
def markRenamedLast (cols : List RtCol) (nm : String) : List RtCol :=
  let rec go : List RtCol → List RtCol
    | [] => []
    | c :: cs => if c.name = nm then { c with __renamed := true } :: cs else c :: go cs
  (go cols.reverse).reverse

/-- State threaded through the three loops of the name phase. -/
structure AlterColState where
  existing : List (String × DbRow)
  missingInModel : List String
  missingInDB : List String
  processed : List RtCol
  trace : List String := []
  messages : List String := []
  failed : Bool := false
deriving Repr

/-- Rename loop of the name phase, iterating over a copy of the initial
`missingInModel` (source `for (const oldName of [...missingInModel])`). -/
def renameLoop (table : String) (modelMap : List (String × RtCol)) :
    List String → AlterColState → AlterColState
  | [], st => st
  | oldName :: restIter, st =>
    if st.failed then st
    else
      match alGet st.existing oldName with
      | none => renameLoop table modelMap restIter st
      | some row =>
        let oldType := dbCanonicalType row
        let candidates := st.missingInDB.filter (fun newName =>
          match alGet modelMap newName with
          | none => false
          | some col => canonicalTypeWithArray col.type = canonicalTypeWithArray oldType)
        if candidates.length ≠ 1 then renameLoop table modelMap restIter st
        else
          let newName := candidates.headD ""
          if (alGet st.existing newName).isSome then { st with failed := true }
          else
            renameLoop table modelMap restIter
              { st with
                existing := alSet (alDelete st.existing oldName) newName row,
                trace := st.trace ++
                  ["ALTER TABLE " ++ qIdent table ++ " RENAME COLUMN " ++ qIdent oldName ++
                    " TO " ++ qIdent newName],
                messages := st.messages ++ ["Renamed COLUMN: " ++ oldName ++ " -> " ++ newName],
                processed := markRenamedLast st.processed newName,
                missingInModel := st.missingInModel.erase oldName,
                missingInDB := st.missingInDB.erase newName }

/-- ADD COLUMN loop of the name phase. -/
def addColumnsLoop (table : String) (modelMap : List (String × RtCol))
    (tableHasData : Bool) : List String → AlterColState → AlterColState
  | [], st => st
  | name :: rest, st =>
    if st.failed then st
    else
      match alGet modelMap name with
      | none => addColumnsLoop table modelMap tableHasData rest st
      | some col =>
        if col.__virtual then addColumnsLoop table modelMap tableHasData rest st
        else if tableHasData ∧ col.notNull = some true ∧ col.default.isUndef then
          { st with failed := true }
        else
          addColumnsLoop table modelMap tableHasData rest
            { st with
              trace := st.trace ++
                ["ALTER TABLE " ++ qIdent table ++ " ADD COLUMN " ++ buildColumnSQL col],
              messages := st.messages ++ ["Added COLUMN: " ++ name] }

/-- DROP COLUMN loop of the name phase. -/
def dropColumnsLoop (table : String) (tableHasData : Bool) :
    List String → AlterColState → AlterColState
  | [], st => st
  | name :: rest, st =>
    if st.failed then st
    else if ¬tableHasData then
      dropColumnsLoop table tableHasData rest
        { st with
          trace := st.trace ++ ["ALTER TABLE " ++ qIdent table ++ " DROP COLUMN " ++ qIdent name],
          messages := st.messages ++ ["Dropped COLUMN: " ++ name] }
    else { st with failed := true }

/-- Result of the name phase: the mutated `existing` map and the processed
columns (with `__renamed` marks) are returned alongside the flag and the
trace. -/
structure AlterColumnResult where
  ok : Bool
  trace : List String := []
  messages : List String := []
  existing : List (String × DbRow) := []
  processed : List RtCol := []
deriving Repr

/-- Embedding of `alterColumn` (name phase) from the second `diffTable.ts`
section: rename heuristic, then guarded ADD COLUMN, then guarded
DROP COLUMN. -/
def alterColumn (table : String) (existing : List (String × DbRow))
    (processed : List RtCol) (counts : Option Counts) : AlterColumnResult :=
  let tableHasData := 0 < (counts.map (·.total)).getD 0
  let modelNames := processed.map (·.name)
  let existingNames := existing.map (·.1)
  let missingInModel := existingNames.filter (fun n => ¬ modelNames.contains n)
  let missingInDB := modelNames.filter (fun n => (alGet existing n).isNone)
  let modelMap := jsMapOfEntries (processed.map (fun c => (c.name, c)))
  let st0 : AlterColState :=
    { existing := existing, missingInModel := missingInModel, missingInDB := missingInDB,
      processed := processed }
  let st1 := renameLoop table modelMap missingInModel st0
  let st2 := addColumnsLoop table modelMap tableHasData st1.missingInDB st1
  let st3 := dropColumnsLoop table tableHasData st2.missingInModel st2
  { ok := ¬st3.failed, trace := st3.trace, messages := st3.messages,
    existing := st3.existing, processed := st3.processed }

/-! ## Type phase: `morm/migrations/alterColumnTypes.ts` -/

/-- Source `baseType`. -/
def baseTypeStr (t : String) : String :=
  if typeEndsArray t then dropRight2 t else t

/-- Source `canonicalDbType` of the type phase (distinct from the name
phase's `dbCanonicalType`: it lower-cases and special-cases the long
timestamp names). -/
def canonicalDbTypeT (row : DbRow) : String :=
  let dt := jsToLower row.data_type
  if dt = "array" then canonicalType (stripLeadingUnderscore row.udt_name) ++ "[]"
  else if dt = "timestamp with time zone" then "TIMESTAMPTZ"
  else if dt = "timestamp without time zone" then "TIMESTAMP"
  else if dt = "user-defined" then canonicalType row.udt_name
  else canonicalType row.data_type

/-- `BUILTIN_TYPES` of `alterColumnTypes.ts` (has `JSON`, lacks `INT`). -/
def builtinTypesT : List String :=
  ["TEXT", "INTEGER", "BIGINT", "SMALLINT", "UUID", "BOOLEAN", "JSON", "JSONB",
   "TIMESTAMP", "TIMESTAMPTZ", "DATE", "TIME", "TIMEZ", "NUMERIC", "DECIMAL"]

/-- Source `renderTypeSql`. -/
def renderTypeSql (t : String) : String :=
  if typeEndsArray t then
    let base := dropRight2 t
    if builtinTypesT.contains base then base ++ "[]" else "\"" ++ base ++ "\"[]"
  else if builtinTypesT.contains t then t
  else "\"" ++ t ++ "\""

/-- Column loop of `alterColumnTypes`. -/
def alterColumnTypesLoop (table : String) (existing : List (String × DbRow))
    (enumTypes : List String) (tableHasData : Bool) : List RtCol → PhaseResult
  | [] => { ok := true }
  | col :: rest =>
    if col.__virtual then alterColumnTypesLoop table existing enumTypes tableHasData rest
    else
      match alGet existing col.name with
      | none => alterColumnTypesLoop table existing enumTypes tableHasData rest
      | some row =>
        let raw := col.type
        let isArr := typeEndsArray raw
        let desiredBase := canonicalType (baseTypeStr raw)
        let desired := if isArr then desiredBase ++ "[]" else desiredBase
        let current := canonicalDbTypeT row
        if desired = current then alterColumnTypesLoop table existing enumTypes tableHasData rest
        else
          let base := baseTypeStr desired
          let isEnum := enumTypes.contains base
          let isRecognized := canonicalType base = base
          if ¬isRecognized ∧ ¬isEnum then { ok := false }
          else if tableHasData then { ok := false }
          else
            let typeSql := renderTypeSql desired
            let stmts :=
              (if row.column_default.isSome then
                ["ALTER TABLE " ++ qIdent table ++ " ALTER COLUMN " ++ qIdent col.name ++
                  " DROP DEFAULT"]
               else []) ++
              ["ALTER TABLE " ++ qIdent table ++ " DROP CONSTRAINT IF EXISTS " ++
                qIdent (table ++ "_" ++ col.name ++ "_check"),
               "ALTER TABLE " ++ qIdent table ++ " ALTER COLUMN " ++ qIdent col.name ++
                " TYPE " ++ typeSql ++ " USING NULL::" ++ typeSql]
            let r := alterColumnTypesLoop table existing enumTypes tableHasData rest
            { ok := r.ok, trace := stmts ++ r.trace,
              messages := ("Changed TYPE: " ++ current ++ " -> " ++ desired) :: r.messages }

/-- Embedding of `alterColumnTypes`.  `enumRows` is the list of `typname`
values the enum-types query returns; the source canonicalises them into a
set. -/
def alterColumnTypes (table : String) (existing : List (String × DbRow))
    (processed : List RtCol) (counts : Option Counts) (enumRows : List String) : PhaseResult :=
  alterColumnTypesLoop table existing (enumRows.map canonicalType)
    (0 < (counts.map (·.total)).getD 0) processed

/-! ## Nullity phase: `migrations/alterColumnNullity.ts` -/

/-- Column loop of `alterColumnNullity`. -/
def alterColumnNullityLoop (table : String) (existing : List (String × DbRow))
    (tableHasData : Bool) : List RtCol → PhaseResult
  | [] => { ok := true }
  | col :: rest =>
    if col.__virtual then alterColumnNullityLoop table existing tableHasData rest
    else if col.__primary then alterColumnNullityLoop table existing tableHasData rest
    else
      match alGet existing col.name with
      | none => alterColumnNullityLoop table existing tableHasData rest
      | some row =>
        let modelNN := col.notNull = some true
        let dbNN := row.is_nullable = "NO"
        if modelNN = dbNN then alterColumnNullityLoop table existing tableHasData rest
        else if ¬modelNN ∧ dbNN then
          let r := alterColumnNullityLoop table existing tableHasData rest
          { ok := r.ok,
            trace := ("ALTER TABLE " ++ qIdent table ++ " ALTER COLUMN " ++ qIdent col.name ++
              " DROP NOT NULL") :: r.trace,
            messages := ("Dropped NOT NULL: " ++ col.name) :: r.messages }
        else
          if tableHasData ∧ col.default.isUndef then { ok := false }
          else
            let r := alterColumnNullityLoop table existing tableHasData rest
            { ok := r.ok,
              trace := ("ALTER TABLE " ++ qIdent table ++ " ALTER COLUMN " ++ qIdent col.name ++
                " SET NOT NULL") :: r.trace,
              messages := ("Set NOT NULL: " ++ col.name) :: r.messages }

/-- Embedding of `alterColumnNullity`. -/
def alterColumnNullity (table : String) (existing : List (String × DbRow))
    (processed : List RtCol) (counts : Option Counts) : PhaseResult :=
  alterColumnNullityLoop table existing (0 < (counts.map (·.total)).getD 0) processed

/-- Claim C8 counterexample: `smallint()` is an integer-identity sentinel,
yet on a non-empty table the unique phase fails for a non-primary,
non-virtual column declared unique with that default, and executes no
ADD UNIQUE statement.  The source accepts only `null`, `int()` and `uuid()`
(`isAllowedUniqueDefault`). -/
theorem claim8_counterexample :
    (alterColumnUnique "users"
        [{ name := "code", type := "SMALLINT", unique := true,
           default := JSVal.str "smallint()" }]
        [] (some { total := 5 })).ok = false ∧
      (alterColumnUnique "users"
        [{ name := "code", type := "SMALLINT", unique := true,
           default := JSVal.str "smallint()" }]
        [] (some { total := 5 })).trace = [] := by
  exact ⟨rfl, rfl⟩

/-- Claim C8 (amended): for a non-primary, non-virtual column declared
unique with no unique constraint in the database and a table containing
data, the unique phase adds the constraint if and only if the declared
default is `null`, or trims case-insensitively to `int()` or `uuid()`;
every other default (including `smallint()`, `bigint()`, or no default)
fails without adding the constraint. -/
theorem claim8_amended :
    (∀ d : JSVal, isAllowedUniqueDefault d = true ↔
        d = JSVal.null ∨ ∃ s, d = JSVal.str s ∧
          (jsToLower (jsTrim s) = "int()" ∨ jsToLower (jsTrim s) = "uuid()")) ∧
      (∀ (table : String) (col : RtCol) (dbUniques : List (String × String))
          (counts : Option Counts),
        col.__virtual = false → col.__primary = false → col.unique = true →
        alGet dbUniques col.name = none → 0 < (counts.map (·.total)).getD 0 →
        (((alterColumnUnique table [col] dbUniques counts).ok = true ∧
            (alterColumnUnique table [col] dbUniques counts).trace =
              ["ALTER TABLE " ++ qIdent table ++ " ADD UNIQUE (" ++ qIdent col.name ++ ")"]) ↔
          isAllowedUniqueDefault col.default = true)) := by
  constructor
  · intro d
    cases d <;> simp [isAllowedUniqueDefault]
  · intro table col dbUniques counts hv hp hu hm hd
    have ht : (decide (0 < (counts.map (·.total)).getD 0)) = true := decide_eq_true hd
    by_cases hall : isAllowedUniqueDefault col.default = true
    · simp [alterColumnUnique, alterColumnUniqueLoop, hv, hp, hu, hm, ht, hall]
    · simp [alterColumnUnique, alterColumnUniqueLoop, hv, hp, hu, hm, ht, hall]

/-- Witness for the amended claim C8 at a concrete input: the default
`" UUID() "` trims and lower-cases to `uuid()`, so on a table with rows the
phase adds the unique constraint. -/
theorem claim8_witness :
    0 < ((some { total := 3 } : Option Counts).map (·.total)).getD 0 ∧
      ((alterColumnUnique "users"
          [{ name := "token", type := "UUID", unique := true,
             default := JSVal.str " UUID() " }]
          [] (some { total := 3 })).ok = true ∧
        (alterColumnUnique "users"
          [{ name := "token", type := "UUID", unique := true,
             default := JSVal.str " UUID() " }]
          [] (some { total := 3 })).trace =
            ["ALTER TABLE \"users\" ADD UNIQUE (\"token\")"]) := by
  refine ⟨by decide, ?_⟩
  exact (claim8_amended.2 "users"
      { name := "token", type := "UUID", unique := true, default := JSVal.str " UUID() " }
      [] (some { total := 3 }) rfl rfl rfl rfl (by decide)).mpr (by decide)

/-- Claim C9 counterexample: with `counts = null` (failed counts query) the
name phase drops a DB-only column and reports success — the code treats
unknown counts as an empty table (`(counts?.total ?? 0) > 0` is false), not
as a table with data. -/
theorem claim9_counterexample :
    (alterColumn "users"
        [("legacy", { column_name := "legacy", data_type := "text", udt_name := "text",
                      is_nullable := "YES" })]
        [] none).ok = true ∧
      (alterColumn "users"
        [("legacy", { column_name := "legacy", data_type := "text", udt_name := "text",
                      is_nullable := "YES" })]
        [] none).trace = ["ALTER TABLE \"users\" DROP COLUMN \"legacy\""] := by
  exact ⟨rfl, rfl⟩

/-- Claim C9 (amended): when the phase-0 counts query fails and counts is
null, every alter phase behaves exactly as if the table were empty
(`counts?.total ?? 0` evaluates to 0), so the data-loss-guarded operations
proceed rather than fail: DB-only columns are dropped, type changes are
applied, and NOT NULL is set on defaultless columns. -/
theorem claim9_amended :
    (∀ (table : String) (existing : List (String × DbRow)) (processed : List RtCol),
        alterColumn table existing processed none
          = alterColumn table existing processed (some { total := 0 })) ∧
      (∀ (table : String) (existing : List (String × DbRow)) (processed : List RtCol)
          (enumRows : List String),
        alterColumnTypes table existing processed none enumRows
          = alterColumnTypes table existing processed (some { total := 0 }) enumRows) ∧
      (∀ (table : String) (existing : List (String × DbRow)) (processed : List RtCol),
        alterColumnNullity table existing processed none
          = alterColumnNullity table existing processed (some { total := 0 })) ∧
      (∀ (table : String) (processed : List RtCol) (dbUniques : List (String × String)),
        alterColumnUnique table processed dbUniques none
          = alterColumnUnique table processed dbUniques (some { total := 0 })) := by
  exact ⟨fun _ _ _ => rfl, fun _ _ _ _ => rfl, fun _ _ _ => rfl, fun _ _ _ => rfl⟩

/-! ## EnumMigrator: `morm copy 2/migrations/enumRegistry.ts`

The pg catalog state visible to `migrateEnumsGlobal` is the map from enum
type names to ordered label lists (`pg_enum` joined to `pg_type`) plus the
usage relation (`information_schema.columns` rows keyed by `udt_name`).
Both queries of the source match names case-insensitively (`LOWER(...)`).
Usage does not change during enum migration (no column DDL is issued), so it
is a fixed component of the state. -/

/-- Enum catalog and usage state. -/
structure EnumCatalog where
  enums : List (String × List String) := []
  usage : List (String × List (String × String)) := []
deriving Repr, DecidableEq

/-- Case-insensitive enum lookup (`WHERE LOWER(pg_type.typname) = LOWER($1)`). -/
def findEnumLower (enums : List (String × List String)) (name : String) :
    Option (String × List String) :=
  enums.find? (fun p => jsToLower p.1 = jsToLower name)

/-- Source `enumUsage`: columns whose `udt_name` matches case-insensitively. -/
def usageOf (cat : EnumCatalog) (name : String) : List (String × String) :=
  ((cat.usage.find? (fun p => jsToLower p.1 = jsToLower name)).map (·.2)).getD []

/-- Update the values of the (first) case-insensitive match. -/
def updateEnumLower (enums : List (String × List String)) (name : String)
    (f : List String → List String) : List (String × List String) :=
  match enums with
  | [] => []
  | (k, vs) :: rest =>
    if jsToLower k = jsToLower name then (k, f vs) :: rest
    else (k, vs) :: updateEnumLower rest name f

/-- Remove the (first) case-insensitive match (`DROP TYPE`). -/
def removeEnumLower (enums : List (String × List String)) (name : String) :
    List (String × List String) :=
  match enums with
  | [] => []
  | (k, vs) :: rest =>
    if jsToLower k = jsToLower name then rest
    else (k, vs) :: removeEnumLower rest name

/-- Quoted, comma-joined value list of a `CREATE TYPE ... AS ENUM` statement. -/
def sqlEnumVals (vs : List String) : String :=
  String.intercalate ", " (vs.map (fun v => "\x27" ++ escapeSqlString v ++ "\x27"))

/-- One registry entry of the `migrateEnumsGlobal` loop: create the enum if
absent; otherwise add missing values first, then — only when values were
removed — either skip with an error log when the enum is in use, or drop and
recreate it when unused.  Returns the new catalog and the mutating
statements executed. -/
def migrateEnumStep (cat : EnumCatalog) (name : String) (desired : List String) :
    EnumCatalog × List String :=
  match findEnumLower cat.enums name with
  | none =>
    ({ cat with enums := cat.enums ++ [(name, desired)] },
     ["CREATE TYPE \"" ++ name ++ "\" AS ENUM (" ++ sqlEnumVals desired ++ ")"])
  | some entry =>
    let existing := entry.2
    let added := desired.filter (fun v => ¬ existing.contains v)
    let removed := existing.filter (fun v => ¬ desired.contains v)
    let addStmts := added.map (fun v =>
      "ALTER TYPE \"" ++ name ++ "\" ADD VALUE \x27" ++ escapeSqlString v ++ "\x27")
    let catAfterAdd := { cat with enums := updateEnumLower cat.enums name (· ++ added) }
    if removed ≠ [] ∧ usageOf cat name ≠ [] then
      (catAfterAdd, addStmts)
    else if removed ≠ [] then
      ({ catAfterAdd with
          enums := removeEnumLower catAfterAdd.enums name ++ [(name, desired)] },
       addStmts ++
         ["DROP TYPE \"" ++ name ++ "\"",
          "CREATE TYPE \"" ++ name ++ "\" AS ENUM (" ++ sqlEnumVals desired ++ ")"])
    else (catAfterAdd, addStmts)

/-- Embedding of `migrateEnumsGlobal`: fold the step over the registry
entries in insertion order, concatenating the statement traces. -/
def migrateEnumsGlobal (cat : EnumCatalog) :
    List (String × List String) → EnumCatalog × List String
  | [] => (cat, [])
  | (name, desired) :: rest =>
    let step := migrateEnumStep cat name desired
    let tail := migrateEnumsGlobal step.1 rest
    (tail.1, step.2 ++ tail.2)

/-- Claim C2 counterexample (the S3 scenario): registry
`USER_ROLE = [ADMIN, STUDENT, TEACHER]`, database
`USER_ROLE = [ADMIN, STUDENT, GUEST]` with `users.role` using the enum.
Without reset the migrator adds `TEACHER` to the enum before checking usage
and then merely skips the blocked removal: the run does not abort and the
catalog is changed. -/
theorem claim2_counterexample :
    (migrateEnumsGlobal
        { enums := [("USER_ROLE", ["ADMIN", "STUDENT", "GUEST"])],
          usage := [("USER_ROLE", [("users", "role")])] }
        [("USER_ROLE", ["ADMIN", "STUDENT", "TEACHER"])]).2
        = ["ALTER TYPE \"USER_ROLE\" ADD VALUE \x27TEACHER\x27"] ∧
      (migrateEnumsGlobal
        { enums := [("USER_ROLE", ["ADMIN", "STUDENT", "GUEST"])],
          usage := [("USER_ROLE", [("users", "role")])] }
        [("USER_ROLE", ["ADMIN", "STUDENT", "TEACHER"])]).1.enums
        = [("USER_ROLE", ["ADMIN", "STUDENT", "GUEST", "TEACHER"])] := by
  exact ⟨rfl, rfl⟩

/-- Claim C2 (amended): for a registered enum present in the database with
values removed from the registry and in use by at least one column, running
without reset skips only the destructive recreation: values new to the
registry have already been added via `ALTER TYPE ... ADD VALUE`, the enum is
neither dropped nor recreated, no exception is raised, and the loop
continues with the remaining registry entries. -/
theorem claim2_amended :
    ∀ (cat : EnumCatalog) (name : String) (desired : List String)
      (entry : String × List String),
      findEnumLower cat.enums name = some entry →
      entry.2.filter (fun v => ¬ desired.contains v) ≠ [] →
      usageOf cat name ≠ [] →
      ((migrateEnumStep cat name desired).2
          = (desired.filter (fun v => ¬ entry.2.contains v)).map (fun v =>
              "ALTER TYPE \"" ++ name ++ "\" ADD VALUE \x27" ++ escapeSqlString v ++ "\x27") ∧
        (migrateEnumStep cat name desired).1.enums
          = updateEnumLower cat.enums name
              (· ++ desired.filter (fun v => ¬ entry.2.contains v)) ∧
        ∀ rest, migrateEnumsGlobal cat ((name, desired) :: rest)
          = ((migrateEnumsGlobal (migrateEnumStep cat name desired).1 rest).1,
             (migrateEnumStep cat name desired).2 ++
               (migrateEnumsGlobal (migrateEnumStep cat name desired).1 rest).2)) := by
  intro cat name desired entry hfind hrem husage
  have hstep : migrateEnumStep cat name desired
      = ({ cat with
            enums := updateEnumLower cat.enums name
              (· ++ desired.filter (fun v => ¬ entry.2.contains v)) },
         (desired.filter (fun v => ¬ entry.2.contains v)).map (fun v =>
           "ALTER TYPE \"" ++ name ++ "\" ADD VALUE \x27" ++ escapeSqlString v ++ "\x27")) := by
    unfold migrateEnumStep
    rw [hfind]
    simp only [if_pos (And.intro hrem husage)]
  refine ⟨by rw [hstep], by rw [hstep], ?_⟩
  intro rest
  rfl

/-- Witness for the amended claim C2 at the S3 input. -/
theorem claim2_witness :
    (migrateEnumStep
        { enums := [("USER_ROLE", ["ADMIN", "STUDENT", "GUEST"])],
          usage := [("USER_ROLE", [("users", "role")])] }
        "USER_ROLE" ["ADMIN", "STUDENT", "TEACHER"]).2
      = ["ALTER TYPE \"USER_ROLE\" ADD VALUE \x27TEACHER\x27"] := by
  have h := claim2_amended
    { enums := [("USER_ROLE", ["ADMIN", "STUDENT", "GUEST"])],
      usage := [("USER_ROLE", [("users", "role")])] }
    "USER_ROLE" ["ADMIN", "STUDENT", "TEACHER"]
    ("USER_ROLE", ["ADMIN", "STUDENT", "GUEST"])
    rfl (by decide) (by decide)
  exact h.1

/-- Claim C3 counterexample: a successful run never drops database enums
absent from the registry.  A catalog holding `EXTRA` and a registry holding
only `ROLE` finishes with both enums present, so the final catalog name set
is a strict superset of the registry name set. -/
theorem claim3_counterexample :
    (migrateEnumsGlobal { enums := [("EXTRA", ["X"])] } [("ROLE", ["A"])]).1.enums
        = [("EXTRA", ["X"]), ("ROLE", ["A"])] ∧
      (migrateEnumsGlobal { enums := [("EXTRA", ["X"])] } [("ROLE", ["A"])]).2
        = ["CREATE TYPE \"ROLE\" AS ENUM (\x27A\x27)"] := by
  exact ⟨rfl, rfl⟩

/-! ### Lookup lemmas for the enum catalog -/

theorem findEnumLower_updateOther (enums : List (String × List String)) (name n : String)
    (f : List String → List String) (h : jsToLower name ≠ jsToLower n) :
    findEnumLower (updateEnumLower enums name f) n = findEnumLower enums n := by
  induction enums with
  | nil => rfl
  | cons p rest ih =>
    obtain ⟨k, vs⟩ := p
    unfold updateEnumLower
    by_cases hk : jsToLower k = jsToLower name
    · rw [if_pos hk]
      unfold findEnumLower
      have hkn : ¬(jsToLower k = jsToLower n) := by rw [hk]; exact h
      simp only [List.find?]
      simp [hkn]
    · rw [if_neg hk]
      unfold findEnumLower at ih ⊢
      by_cases hkn : jsToLower k = jsToLower n
      · simp only [List.find?]
        simp [hkn]
      · simp only [List.find?]
        simp only [decide_eq_true_eq] at *
        simp [hkn, ih]

theorem findEnumLower_update_self (enums : List (String × List String)) (name : String)
    (f : List String → List String) :
    findEnumLower (updateEnumLower enums name f) name
      = (findEnumLower enums name).map (fun e => (e.1, f e.2)) := by
  induction enums with
  | nil => rfl
  | cons p rest ih =>
    obtain ⟨k, vs⟩ := p
    unfold updateEnumLower
    by_cases hk : jsToLower k = jsToLower name
    · rw [if_pos hk]
      unfold findEnumLower
      simp only [List.find?]
      simp [hk]
    · rw [if_neg hk]
      unfold findEnumLower at ih ⊢
      simp only [List.find?]
      simp [hk, ih]

theorem findEnumLower_remove_other (enums : List (String × List String)) (name n : String)
    (h : jsToLower name ≠ jsToLower n) :
    findEnumLower (removeEnumLower enums name) n = findEnumLower enums n := by
  induction enums with
  | nil => rfl
  | cons p rest ih =>
    obtain ⟨k, vs⟩ := p
    unfold removeEnumLower
    by_cases hk : jsToLower k = jsToLower name
    · rw [if_pos hk]
      unfold findEnumLower
      have hkn : ¬(jsToLower k = jsToLower n) := by rw [hk]; exact h
      simp only [List.find?]
      simp [hkn]
    · rw [if_neg hk]
      unfold findEnumLower at ih ⊢
      simp only [List.find?]
      by_cases hkn : jsToLower k = jsToLower n
      · simp [hkn]
      · simp [hkn, ih]

theorem findEnumLower_remove_self (enums : List (String × List String)) (name : String)
    (hnd : (enums.map (fun p => jsToLower p.1)).Nodup) :
    findEnumLower (removeEnumLower enums name) name = none := by
  induction enums with
  | nil => rfl
  | cons p rest ih =>
    obtain ⟨k, vs⟩ := p
    simp only [List.map_cons, List.nodup_cons] at hnd
    unfold removeEnumLower
    by_cases hk : jsToLower k = jsToLower name
    · rw [if_pos hk]
      unfold findEnumLower
      rw [List.find?_eq_none]
      intro q hq
      simp only [decide_eq_true_eq]
      intro hqe
      apply hnd.1
      rw [hk, ← hqe]
      exact List.mem_map_of_mem _ hq
    · rw [if_neg hk]
      unfold findEnumLower at ih ⊢
      simp only [List.find?]
      simp [hk, ih hnd.2]

theorem findEnumLower_append_one (enums : List (String × List String))
    (x : String × List String) (n : String) (hnone : findEnumLower enums n = none) :
    findEnumLower (enums ++ [x]) n
      = if jsToLower x.1 = jsToLower n then some x else none := by
  unfold findEnumLower at *
  rw [List.find?_append, hnone]
  by_cases hx : jsToLower x.1 = jsToLower n
  · simp [List.find?, Option.orElse, hx]
  · simp [List.find?, Option.orElse, hx]

theorem findEnumLower_append_one_found (enums : List (String × List String))
    (x : String × List String) (n : String) (e : String × List String)
    (hfound : findEnumLower enums n = some e) :
    findEnumLower (enums ++ [x]) n = some e := by
  unfold findEnumLower at *
  rw [List.find?_append, hfound]
  rfl

theorem lowers_updateEnumLower (enums : List (String × List String)) (name : String)
    (f : List String → List String) :
    (updateEnumLower enums name f).map (fun p => jsToLower p.1)
      = enums.map (fun p => jsToLower p.1) := by
  induction enums with
  | nil => rfl
  | cons p rest ih =>
    obtain ⟨k, vs⟩ := p
    unfold updateEnumLower
    by_cases hk : jsToLower k = jsToLower name
    · rw [if_pos hk]; rfl
    · rw [if_neg hk]; simp [ih]

theorem lowers_removeEnumLower_sublist (enums : List (String × List String)) (name : String) :
    ((removeEnumLower enums name).map (fun p => jsToLower p.1)).Sublist
      (enums.map (fun p => jsToLower p.1)) := by
  induction enums with
  | nil => exact List.Sublist.refl _
  | cons p rest ih =>
    obtain ⟨k, vs⟩ := p
    unfold removeEnumLower
    by_cases hk : jsToLower k = jsToLower name
    · rw [if_pos hk]
      simp only [List.map_cons]
      exact List.sublist_cons_of_sublist _ (List.Sublist.refl _)
    · rw [if_neg hk]
      simp only [List.map_cons]
      exact List.Sublist.cons₂ _ ih

theorem migrateEnumStep_nodup (cat : EnumCatalog) (name : String) (desired : List String)
    (hnd : (cat.enums.map (fun p => jsToLower p.1)).Nodup) :
    (((migrateEnumStep cat name desired).1.enums).map (fun p => jsToLower p.1)).Nodup := by
  unfold migrateEnumStep
  cases hf : findEnumLower cat.enums name with
  | none =>
    simp only
    rw [List.map_append, List.nodup_append]
    refine ⟨hnd, List.nodup_singleton _, ?_⟩
    intro a ha hb
    simp only [List.map_cons, List.map_nil, List.mem_singleton] at hb
    subst hb
    unfold findEnumLower at hf
    rw [List.find?_eq_none] at hf
    obtain ⟨q, hq, hqe⟩ := List.mem_map.mp ha
    exact absurd hqe (by simpa using hf q hq)
  | some entry =>
    simp only
    by_cases hblock : entry.2.filter (fun v => ¬ desired.contains v) ≠ [] ∧ usageOf cat name ≠ []
    · rw [if_pos hblock]
      simpa [lowers_updateEnumLower] using hnd
    · rw [if_neg hblock]
      by_cases hrem : entry.2.filter (fun v => ¬ desired.contains v) ≠ []
      · rw [if_pos hrem]
        simp only
        rw [List.map_append, List.nodup_append]
        have hnd2 : ((updateEnumLower cat.enums name
            (· ++ desired.filter (fun v => ¬ entry.2.contains v))).map
              (fun p => jsToLower p.1)).Nodup := by
          simpa [lowers_updateEnumLower] using hnd
        refine ⟨(lowers_removeEnumLower_sublist _ _).nodup hnd2, List.nodup_singleton _, ?_⟩
        intro a ha hb
        simp only [List.map_cons, List.map_nil, List.mem_singleton] at hb
        subst hb
        have hrs := findEnumLower_remove_self
          (updateEnumLower cat.enums name (· ++ desired.filter (fun v => ¬ entry.2.contains v)))
          name hnd2
        unfold findEnumLower at hrs
        rw [List.find?_eq_none] at hrs
        obtain ⟨q, hq, hqe⟩ := List.mem_map.mp ha
        exact absurd hqe (by simpa using hrs q hq)
      · rw [if_neg hrem]
        simpa [lowers_updateEnumLower] using hnd

theorem migrateEnumStep_other (cat : EnumCatalog) (name : String) (desired : List String)
    (n : String) (h : jsToLower name ≠ jsToLower n) :
    findEnumLower (migrateEnumStep cat name desired).1.enums n
      = findEnumLower cat.enums n := by
  unfold migrateEnumStep
  cases hf : findEnumLower cat.enums name with
  | none =>
    simp only
    cases hn : findEnumLower cat.enums n with
    | none =>
      rw [findEnumLower_append_one _ _ _ hn]
      simp only
      rw [if_neg h]
    | some e => rw [findEnumLower_append_one_found _ _ _ _ hn]
  | some entry =>
    simp only
    by_cases hblock : entry.2.filter (fun v => ¬ desired.contains v) ≠ [] ∧ usageOf cat name ≠ []
    · rw [if_pos hblock]
      exact findEnumLower_updateOther _ _ _ _ h
    · rw [if_neg hblock]
      by_cases hrem : entry.2.filter (fun v => ¬ desired.contains v) ≠ []
      · rw [if_pos hrem]
        simp only
        have h1 : findEnumLower (removeEnumLower (updateEnumLower cat.enums name
            (· ++ desired.filter (fun v => ¬ entry.2.contains v))) name) n
            = findEnumLower cat.enums n := by
          rw [findEnumLower_remove_other _ _ _ h, findEnumLower_updateOther _ _ _ _ h]
        cases hn : findEnumLower cat.enums n with
        | none =>
          rw [findEnumLower_append_one _ _ _ (by rw [h1, hn])]
          simp only
          rw [if_neg h]
        | some e =>
          rw [findEnumLower_append_one_found _ _ _ _ (by rw [h1, hn])]
      · rw [if_neg hrem]
        exact findEnumLower_updateOther _ _ _ _ h

theorem migrateEnumStep_self (cat : EnumCatalog) (name : String) (desired : List String)
    (hnd : (cat.enums.map (fun p => jsToLower p.1)).Nodup) :
    ∃ e, findEnumLower (migrateEnumStep cat name desired).1.enums name = some e ∧
      ∀ v ∈ desired, v ∈ e.2 := by
  unfold migrateEnumStep
  cases hf : findEnumLower cat.enums name with
  | none =>
    refine ⟨(name, desired), ?_, fun v hv => hv⟩
    simp only
    rw [findEnumLower_append_one _ _ _ hf]
    simp
  | some entry =>
    have hmem : ∀ v ∈ desired, v ∈ entry.2 ++ desired.filter (fun w => ¬ entry.2.contains w) := by
      intro v hv
      by_cases hc : entry.2.contains v
      · exact List.mem_append_left _ (by simpa using hc)
      · refine List.mem_append_right _ ?_
        rw [List.mem_filter]
        exact ⟨hv, by simpa using hc⟩
    simp only
    by_cases hblock : entry.2.filter (fun v => ¬ desired.contains v) ≠ [] ∧ usageOf cat name ≠ []
    · rw [if_pos hblock]
      refine ⟨(entry.1, entry.2 ++ desired.filter (fun w => ¬ entry.2.contains w)), ?_, hmem⟩
      rw [findEnumLower_update_self, hf]
      rfl
    · rw [if_neg hblock]
      by_cases hrem : entry.2.filter (fun v => ¬ desired.contains v) ≠ []
      · rw [if_pos hrem]
        refine ⟨(name, desired), ?_, fun v hv => hv⟩
        simp only
        have hnd2 : ((updateEnumLower cat.enums name
            (· ++ desired.filter (fun v => ¬ entry.2.contains v))).map
              (fun p => jsToLower p.1)).Nodup := by
          simpa [lowers_updateEnumLower] using hnd
        rw [findEnumLower_append_one _ _ _ (findEnumLower_remove_self _ _ hnd2)]
        simp
      · rw [if_neg hrem]
        refine ⟨(entry.1, entry.2 ++ desired.filter (fun w => ¬ entry.2.contains w)), ?_, hmem⟩
        rw [findEnumLower_update_self, hf]
        rfl

/-- Claim C3 (amended): after any run of the global enum migrator (with
case-insensitively distinct names in the catalog and in the registry), every
registered enum exists in the catalog and its registered values are all
present in that catalog entry; but database enums whose names are not in the
registry are left exactly as they were — they are never dropped or renamed,
so the catalog may contain enums beyond the registry. -/
theorem claim3_amended :
    ∀ (reg : List (String × List String)) (cat : EnumCatalog),
      (cat.enums.map (fun p => jsToLower p.1)).Nodup →
      (reg.map (fun p => jsToLower p.1)).Nodup →
      ((∀ entry ∈ reg, ∃ e,
          findEnumLower (migrateEnumsGlobal cat reg).1.enums entry.1 = some e ∧
            ∀ v ∈ entry.2, v ∈ e.2) ∧
        (∀ n : String, (∀ entry ∈ reg, jsToLower entry.1 ≠ jsToLower n) →
          findEnumLower (migrateEnumsGlobal cat reg).1.enums n
            = findEnumLower cat.enums n)) := by
  intro reg
  induction reg with
  | nil =>
    intro cat _ _
    exact ⟨fun _ h => absurd h (List.not_mem_nil _), fun _ _ => rfl⟩
  | cons hd rest ih =>
    intro cat hcat hreg
    obtain ⟨name, desired⟩ := hd
    simp only [List.map_cons, List.nodup_cons] at hreg
    have hcat1 : (((migrateEnumStep cat name desired).1.enums).map
        (fun p => jsToLower p.1)).Nodup := migrateEnumStep_nodup cat name desired hcat
    obtain ⟨ihA, ihB⟩ := ih (migrateEnumStep cat name desired).1 hcat1 hreg.2
    have hrun : migrateEnumsGlobal cat ((name, desired) :: rest)
        = ((migrateEnumsGlobal (migrateEnumStep cat name desired).1 rest).1,
           (migrateEnumStep cat name desired).2 ++
             (migrateEnumsGlobal (migrateEnumStep cat name desired).1 rest).2) := rfl
    constructor
    · intro entry hentry
      rcases List.mem_cons.mp hentry with heq | hmem
      · subst heq
        obtain ⟨e, he, hsub⟩ := migrateEnumStep_self cat name desired hcat
        refine ⟨e, ?_, hsub⟩
        rw [hrun]
        simp only
        rw [ihB name ?hdiff]
        · exact he
        · intro entry2 h2
          intro habs
          exact hreg.1 (by rw [← habs]; exact List.mem_map_of_mem _ h2)
      · obtain ⟨e, he, hsub⟩ := ihA entry hmem
        refine ⟨e, ?_, hsub⟩
        rw [hrun]
        exact he
    · intro n hall
      rw [hrun]
      simp only
      rw [ihB n (fun e he => hall e (List.mem_cons_of_mem _ he))]
      exact migrateEnumStep_other cat name desired n (hall (name, desired) (List.mem_cons_self _ _))

/-- Witness for the amended claim C3: catalog `EXTRA` plus registry `ROLE`;
after the run `ROLE` exists with its registered value and `EXTRA` is
untouched. -/
theorem claim3_witness :
    (∃ e, findEnumLower
        (migrateEnumsGlobal { enums := [("EXTRA", ["X"])] } [("ROLE", ["A"])]).1.enums "ROLE"
          = some e ∧ ∀ v ∈ ["A"], v ∈ e.2) ∧
      findEnumLower
        (migrateEnumsGlobal { enums := [("EXTRA", ["X"])] } [("ROLE", ["A"])]).1.enums "EXTRA"
          = findEnumLower [("EXTRA", ["X"])] "EXTRA" := by
  have h := claim3_amended [("ROLE", ["A"])] { enums := [("EXTRA", ["X"])] }
    (by decide) (by decide)
  refine ⟨h.1 ("ROLE", ["A"]) (by simp), ?_⟩
  exact h.2 "EXTRA" (by intro entry he; simp at he; subst he; decide)

/-! ## RelationGraph: `morm copy 2/utils/relationValidator.ts`

Models carry the fields the validator and the later migration loop read.
`migrateOk` abstracts the boolean result of the per-model `migrate(client)`
closure, and `sqlCreate` the `sql.create` string, both produced by
`createModelRuntime`; the validator does not read either. -/

/-- Relation descriptor recorded on `_relations.outgoing` / `incoming`. -/
structure RelOut where
  fromTable : String
  fromColumn : String
  toTable : String
  toColumn : String
  relation : String
deriving Repr, DecidableEq

/-- Runtime model object. -/
structure MModel where
  table : String
  columns : List RtCol := []
  sqlCreate : String := ""
  migrateOk : Bool := true
  outgoing : List RelOut := []
  incoming : List RelOut := []
deriving Repr

/-- `normalizeRelation` of the source with its three alias sets. -/
def normalizeRelation (input : Option String) : Option String :=
  match input with
  | none => none
  | some s =>
    if s = "" then none
    else
      let v := jsToLower (jsTrim s)
      if ["one", "1", "one-to-one", "one_to_one", "1-1", "1:1", "o2o", "n-n", "nn",
          "n-to-n", "n_t_n", "ntn"].contains v then some "ONE-TO-ONE"
      else if ["one-to-many", "one_to_many", "1-m", "1:m", "one-to-m", "n-to-m",
          "n_t_m", "ntm", "n-m", "nm"].contains v then some "ONE-TO-MANY"
      else if ["many-to-many", "m-to-m", "m_t_m", "mtm", "mm", "m-m"].contains v then
        some "MANY-TO-MANY"
      else none

/-- `parseType` of the source: upper-cased base and array bit. -/
def parseTypeRV (type : String) : String × Bool :=
  let upper := jsToUpper (jsTrim type)
  let isArray := typeEndsArray upper
  (if isArray then dropRight2 upper else upper, isArray)

/-- `VALID_FK_ACTIONS` of the source. -/
def validFkActions : List String :=
  ["CASCADE", "SET NULL", "SET DEFAULT", "RESTRICT", "NO ACTION"]

/-- Result of processing one `references` column of one model: accumulated
error messages, the dependency edge to add (target-table-lower first), the
relation descriptor with the target model index, the virtual mark, and the
reference rewritten with normalized FK actions. -/
structure ColProcResult where
  errors : List String := []
  edge : Option (String × String) := none
  record : Option (RelOut × Nat) := none
  virtualMark : Bool := false
  newRef : Option ColRef := none
deriving Repr

/-- Per-column body of the validation loop.  All fields this reads
(`table`, column `name`/`type`, and the `table`/`column`/`relation` parts of
`references`) are never written by the loop, so reads are taken from the
original model list. -/
def processColumn (modelIdxByLower : List (String × Nat)) (models0 : List MModel)
    (table : String) (col : RtCol) : ColProcResult :=
  match col.references with
  | none => {}
  | some ref =>
    if ref.table = "" ∨ ref.column = "" then
      { errors := [colorsRed ++ colorsBold ++ "MORM ERROR: invalid references on \"" ++
          table ++ "." ++ col.name ++ "\": missing table or column." ++ colorsReset] }
    else
      let tableLower := jsToLower table
      let refTableLower := jsToLower ref.table
      let isSelfRef := refTableLower = tableLower
      match alGet modelIdxByLower refTableLower with
      | none =>
        { errors := [colorsRed ++ colorsBold ++ "MORM ERROR: relation on \"" ++ table ++
            "." ++ col.name ++ "\" references missing table \"" ++ ref.table ++ "\"." ++
            colorsReset] }
      | some targetIdx =>
        let targetModel := (models0.get? targetIdx).getD { table := "" }
        match targetModel.columns.find? (fun c => c.name = ref.column) with
        | none =>
          { errors := [colorsRed ++ colorsBold ++ "MORM ERROR: relation on \"" ++ table ++
              "." ++ col.name ++ "\" references missing column \"" ++ ref.table ++ "." ++
              ref.column ++ "\"." ++ colorsReset] }
        | some targetCol =>
          match normalizeRelation ref.relation with
          | none =>
            { errors := [colorsRed ++ colorsBold ++ "MORM ERROR: invalid relation \"" ++
                jsInterpOptStr ref.relation ++ "\" on \"" ++ table ++ "." ++ col.name ++
                "\"." ++ colorsReset] }
          | some relation =>
            let desc : RelOut :=
              { fromTable := table, fromColumn := col.name,
                toTable := ref.table, toColumn := ref.column, relation := relation }
            let onDelete := match ref.onDelete with
              | some s => if s = "" then "CASCADE" else jsToUpper s
              | none => "CASCADE"
            let onUpdate := match ref.onUpdate with
              | some s => if s = "" then "CASCADE" else jsToUpper s
              | none => "CASCADE"
            let fkErrors :=
              (if ¬ validFkActions.contains onDelete then
                [colorsRed ++ colorsBold ++ "MORM ERROR: invalid onDelete action \"" ++
                  jsInterpOptStr ref.onDelete ++ "\" on \"" ++ table ++ "." ++ col.name ++
                  "\"." ++ colorsReset] else []) ++
              (if ¬ validFkActions.contains onUpdate then
                [colorsRed ++ colorsBold ++ "MORM ERROR: invalid onUpdate action \"" ++
                  jsInterpOptStr ref.onUpdate ++ "\" on \"" ++ table ++ "." ++ col.name ++
                  "\"." ++ colorsReset] else [])
            let newRef := some { ref with onDelete := some onDelete, onUpdate := some onUpdate }
            let left := parseTypeRV col.type
            let right := parseTypeRV targetCol.type
            if relation = "MANY-TO-MANY" then
              { errors := fkErrors ++
                  (if ¬ left.2 then
                    [colorsRed ++ colorsBold ++ "MORM ERROR: MANY-TO-MANY relation on \"" ++
                      table ++ "." ++ col.name ++ "\" requires array type (UUID[])." ++
                      colorsReset] else []),
                record := some (desc, targetIdx), virtualMark := true, newRef := newRef }
            else if left.1 ≠ right.1 then
              { errors := fkErrors ++
                  [colorsRed ++ colorsBold ++ "MORM ERROR: type mismatch on relation \"" ++
                    table ++ "." ++ col.name ++ "\" → \"" ++ ref.table ++ "." ++ ref.column ++
                    "\": " ++ left.1 ++ " ≠ " ++ right.1 ++ "." ++ colorsReset],
                record := some (desc, targetIdx), newRef := newRef }
            else
              { errors := fkErrors,
                edge := if isSelfRef then none else some (refTableLower, tableLower),
                record := some (desc, targetIdx), newRef := newRef }

/-- Add an edge to the successor set of `u` (JS `graph.get(u)!.add(v)`;
set semantics, key present by construction). -/
def graphAddEdge (graph : List (String × List String)) (u v : String) :
    List (String × List String) :=
  match graph with
  | [] => []
  | (k, outs) :: rest =>
    if k = u then (k, if outs.contains v then outs else outs ++ [v]) :: rest
    else (k, outs) :: graphAddEdge rest u v

/-- Indexed column list (`for (const col of model.columns)` with the column
position retained for the in-place mutations). -/
def idxList {α : Type} (l : List α) : List (Nat × α) :=
  (List.range l.length).zip l

/-- Positional map used to model in-place mutation of JS arrays. -/
def mapIdxL {α : Type} (f : Nat → α → α) (l : List α) : List α :=
  (idxList l).map (fun p => f p.1 p.2)

/-- Apply one column's outcome to the mutable state: push the outgoing and
incoming descriptors, mark the column virtual, and store the normalized
reference. -/
def applyColEffect (ms : List MModel) (mIdx colIdx : Nat) (r : ColProcResult) :
    List MModel :=
  let ms1 := match r.record with
    | none => ms
    | some (desc, targetIdx) =>
      let ms' := mapIdxL (fun i m =>
        if i = mIdx then { m with outgoing := m.outgoing ++ [desc] } else m) ms
      mapIdxL (fun i m =>
        if i = targetIdx then { m with incoming := m.incoming ++ [desc] } else m) ms'
  mapIdxL (fun i m =>
    if i = mIdx then
      { m with columns := mapIdxL (fun j c =>
          if j = colIdx then
            { c with
              __virtual := c.__virtual || r.virtualMark,
              references := match r.newRef with | some nr => some nr | none => c.references }
          else c) m.columns }
    else m) ms1

/-- Fold the validation loop over one model's columns. -/
def processModelColumns (modelIdxByLower : List (String × Nat)) (models0 : List MModel)
    (mIdx : Nat) (table : String) (cols : List (Nat × RtCol))
    (st : List MModel × List String × List (String × List String)) :
    List MModel × List String × List (String × List String) :=
  cols.foldl (fun st p =>
    let r := processColumn modelIdxByLower models0 table p.2
    let ms := applyColEffect st.1 mIdx p.1 r
    let errs := st.2.1 ++ r.errors
    let g := match r.edge with
      | some (u, v) => graphAddEdge st.2.2 u v
      | none => st.2.2
    (ms, errs, g)) st

/-- The node set: case-folded table names, first occurrence kept. -/
def relNodes (models : List MModel) : List String :=
  models.foldl (fun acc m =>
    if acc.contains (jsToLower m.table) then acc else acc ++ [jsToLower m.table]) []

/-- `tableLower → model index` map (later models overwrite earlier ones,
matching `modelByLower.set`). -/
def modelIdxByLowerOf (models : List MModel) : List (String × Nat) :=
  jsMapOfEntries ((idxList models).map (fun p => (jsToLower p.2.table, p.1)))

/-- The whole reference-validation loop: returns the annotated models, the
error list, and the dependency graph. -/
def collectRelations (models : List MModel) :
    List MModel × List String × List (String × List String) :=
  let models0 := models.map (fun m => { m with outgoing := [], incoming := [] })
  let modelIdxByLower := modelIdxByLowerOf models0
  let nodes := relNodes models0
  let graph0 := nodes.map (fun n => (n, ([] : List String)))
  (idxList models0).foldl (fun st p =>
    processModelColumns modelIdxByLower models0 p.1 p.2.table (idxList p.2.columns) st)
    (models0, [], graph0)

/-- Increment pass building the in-degree map. -/
def buildInDeg (nodes : List String) (graph : List (String × List String)) :
    List (String × Int) :=
  graph.foldl (fun deg p =>
    p.2.foldl (fun deg v => alSet deg v ((alGet deg v).getD 0 + 1)) deg)
    (nodes.map (fun n => (n, (0 : Int))))

/-- Body of the successor-decrement fold. -/
def kahnDecStep (acc : List (String × Int) × List String) (v : String) :
    List (String × Int) × List String :=
  let nd := (alGet acc.1 v).getD 0 - 1
  (alSet acc.1 v nd, if nd = 0 then acc.2 ++ [v] else acc.2)

/-- One iteration worth of successor decrements (the inner `for` of the Kahn
loop); returns the updated in-degree map and the nodes pushed. -/
def kahnDecrement (succs : List String) (deg : List (String × Int)) :
    List (String × Int) × List String :=
  succs.foldl kahnDecStep (deg, [])

/-- Kahn's-algorithm loop.  The fuel is at least the number of initial queue
elements plus the total successor count, so it never runs out: every pop
consumes either an initial element or one produced by a decrement-to-zero. -/
def kahnLoop (graph : List (String × List String)) :
    Nat → List String → List (String × Int) → List String → List String
  | 0, _, _, order => order
  | _ + 1, [], _, order => order
  | fuel + 1, n :: q, deg, order =>
    let order2 := order ++ [n]
    let step := kahnDecrement ((alGet graph n).getD []) deg
    kahnLoop graph fuel (q ++ step.2) step.1 order2

/-- Sufficient fuel for `kahnLoop`. -/
def kahnFuel (nodes : List String) (graph : List (String × List String)) : Nat :=
  nodes.length + (graph.map (fun p => p.2.length)).foldl (· + ·) 0 + 1

/-- The cyclic-relations error message. -/
def cyclicRelationsMsg : String :=
  colorsRed ++ colorsBold ++
    "MORM ERROR: cyclic relations detected — cannot determine migration order." ++
    colorsReset

/-- Result record of `validateAndSortModels`. -/
structure RelValidation where
  errors : List String := []
  infos : List String := []
  sorted : Option (List MModel) := none
deriving Repr

/-- Embedding of `validateAndSortModels`: validate all references building
the dependency graph, then topologically sort with Kahn's algorithm; a
residue signals a cycle and yields a null order. -/
def validateAndSortModels (models : List MModel) : RelValidation :=
  let st := collectRelations models
  let msFinal := st.1
  let errors := st.2.1
  let graph := st.2.2
  let nodes := relNodes models
  if errors ≠ [] then { errors := errors, sorted := none }
  else
    let inDeg := buildInDeg nodes graph
    let q0 := (inDeg.filter (fun p => p.2 = 0)).map (·.1)
    let order := kahnLoop graph (kahnFuel nodes graph) q0 inDeg []
    if order.length ≠ nodes.length then
      { errors := [cyclicRelationsMsg], sorted := none }
    else
      { errors := [], sorted :=
          some (order.filterMap (fun t =>
            msFinal.find? (fun m => jsToLower m.table = t))) }

/-! ### Association-list lemmas for the Kahn proof -/

theorem alGet_some_key {α : Type} (m : List (String × α)) (k : String) (v : α)
    (h : alGet m k = some v) : k ∈ m.map (·.1) := by
  unfold alGet at h
  cases hf : m.find? (fun p => p.1 == k) with
  | none => rw [hf] at h; simp at h
  | some p =>
    rw [hf] at h
    have hp := List.find?_some hf
    simp only [beq_iff_eq] at hp
    rw [← hp]
    exact List.mem_map_of_mem _ (List.mem_of_find?_eq_some hf)

theorem alGet_isSome_of_key {α : Type} (m : List (String × α)) (k : String)
    (h : k ∈ m.map (·.1)) : (alGet m k).isSome := by
  induction m with
  | nil => simp at h
  | cons p rest ih =>
    by_cases hk : p.1 = k
    · unfold alGet
      rw [List.find?_cons_of_pos _ (by simp [hk])]
      simp
    · simp only [List.map_cons, List.mem_cons] at h
      rcases h with h | h
      · exact absurd h.symm hk
      · unfold alGet at ih ⊢
        rw [List.find?_cons_of_neg _ (by simp [hk])]
        exact ih h

theorem alGet_alSet_self {α : Type} (m : List (String × α)) (k : String) (v : α) :
    alGet (alSet m k v) k = some v := by
  induction m with
  | nil =>
    unfold alSet alGet
    rw [List.find?_cons_of_pos _ (by simp)]
    rfl
  | cons p rest ih =>
    obtain ⟨k0, v0⟩ := p
    unfold alSet
    by_cases hk : k0 = k
    · rw [if_pos hk]
      unfold alGet
      rw [List.find?_cons_of_pos _ (by simp)]
      rfl
    · rw [if_neg hk]
      unfold alGet at ih ⊢
      rw [List.find?_cons_of_neg _ (by simp [hk])]
      exact ih

theorem alGet_alSet_other {α : Type} (m : List (String × α)) (k k' : String) (v : α)
    (h : k ≠ k') : alGet (alSet m k v) k' = alGet m k' := by
  induction m with
  | nil =>
    unfold alSet alGet
    rw [List.find?_cons_of_neg _ (by simp [h])]
  | cons p rest ih =>
    obtain ⟨k0, v0⟩ := p
    unfold alSet
    by_cases hk : k0 = k
    · rw [if_pos hk]
      unfold alGet
      subst hk
      rw [List.find?_cons_of_neg _ (by simp [h]), List.find?_cons_of_neg _ (by simp [h])]
    · rw [if_neg hk]
      unfold alGet at ih ⊢
      by_cases hk' : k0 = k'
      · rw [List.find?_cons_of_pos _ (by simp [hk']), List.find?_cons_of_pos _ (by simp [hk'])]
      · rw [List.find?_cons_of_neg _ (by simp [hk']), List.find?_cons_of_neg _ (by simp [hk'])]
        exact ih

theorem alSet_keys_of_mem {α : Type} (m : List (String × α)) (k : String) (v : α)
    (h : k ∈ m.map (·.1)) : (alSet m k v).map (·.1) = m.map (·.1) := by
  induction m with
  | nil => simp at h
  | cons p rest ih =>
    obtain ⟨k0, v0⟩ := p
    unfold alSet
    by_cases hk : k0 = k
    · rw [if_pos hk]
      simp [hk]
    · rw [if_neg hk]
      simp only [List.map_cons, List.mem_cons] at h
      rcases h with h | h
      · exact absurd h.symm hk
      · simp [ih h]

theorem alGet_of_mem_nodup {α : Type} (m : List (String × α)) (k : String) (v : α)
    (hnd : (m.map (·.1)).Nodup) (h : (k, v) ∈ m) : alGet m k = some v := by
  induction m with
  | nil => simp at h
  | cons p rest ih =>
    obtain ⟨k0, v0⟩ := p
    simp only [List.map_cons, List.nodup_cons] at hnd
    rcases List.mem_cons.mp h with heq | hmem
    · obtain ⟨h1, h2⟩ := Prod.mk.injEq .. ▸ heq.symm
      subst h1
      subst h2
      unfold alGet
      rw [List.find?_cons_of_pos _ (by simp)]
      rfl
    · have hk : k0 ≠ k := by
        intro he
        subst he
        exact hnd.1 (List.mem_map_of_mem (·.1) hmem)
      unfold alGet at ih ⊢
      rw [List.find?_cons_of_neg _ (by simp [hk])]
      exact ih hnd.2 hmem

/-! ### In-neighbours and graph well-formedness -/

/-- In-neighbours of `v`: keys whose successor set contains `v`. -/
def inNbrs (graph : List (String × List String)) (v : String) : List String :=
  graph.filterMap (fun p => if v ∈ p.2 then some p.1 else none)

theorem mem_inNbrs_iff (graph : List (String × List String)) (u v : String) :
    u ∈ inNbrs graph v ↔ ∃ outs, (u, outs) ∈ graph ∧ v ∈ outs := by
  unfold inNbrs
  rw [List.mem_filterMap]
  constructor
  · rintro ⟨p, hp, hif⟩
    by_cases hv : v ∈ p.2
    · rw [if_pos hv] at hif
      exact ⟨p.2, by simpa [← Option.some_inj.mp hif] using hp, hv⟩
    · rw [if_neg hv] at hif; simp at hif
  · rintro ⟨outs, hmem, hv⟩
    exact ⟨(u, outs), hmem, by simp [hv]⟩

/-- Well-formedness of the dependency graph relative to the node list. -/
structure GraphWF (graph : List (String × List String)) (nodes : List String) : Prop where
  keysNodup : (graph.map (·.1)).Nodup
  succNodup : ∀ p ∈ graph, p.2.Nodup
  noSelf : ∀ p ∈ graph, p.1 ∉ p.2
  keysSub : ∀ p ∈ graph, p.1 ∈ nodes
  succSub : ∀ p ∈ graph, ∀ v ∈ p.2, v ∈ nodes
  nodesNodup : nodes.Nodup

theorem key_unique_of_nodup (graph : List (String × List String))
    (hnd : (graph.map (·.1)).Nodup) (k : String) (o1 o2 : List String)
    (h1 : (k, o1) ∈ graph) (h2 : (k, o2) ∈ graph) : o1 = o2 := by
  induction graph with
  | nil => simp at h1
  | cons p rest ih =>
    simp only [List.map_cons, List.nodup_cons] at hnd
    rcases List.mem_cons.mp h1 with he1 | hm1 <;> rcases List.mem_cons.mp h2 with he2 | hm2
    · rw [← he2] at he1
      exact (Prod.mk.injEq .. ▸ he1).2
    · exfalso
      apply hnd.1
      rw [← he1]
      exact List.mem_map_of_mem (·.1) hm2
    · exfalso
      apply hnd.1
      rw [← he2]
      exact List.mem_map_of_mem (·.1) hm1
    · exact ih hnd.2 hm1 hm2

theorem succs_mem_of_alGet (graph : List (String × List String)) (n : String)
    (outs : List String) (h : alGet graph n = some outs) : (n, outs) ∈ graph := by
  unfold alGet at h
  cases hf : graph.find? (fun p => p.1 == n) with
  | none => rw [hf] at h; simp at h
  | some p =>
    rw [hf] at h
    have hp := List.find?_some hf
    simp only [beq_iff_eq] at hp
    have hmem := List.mem_of_find?_eq_some hf
    have hq : p.2 = outs := by
      simpa using h
    have : p = (n, outs) := by
      obtain ⟨p1, p2⟩ := p
      simp only at hp hq
      simp [hp, hq]
    rw [← this]
    exact hmem

theorem not_inNbrs_of_alGet_notMem (graph : List (String × List String)) (n v : String)
    (outs : List String) (hnd : (graph.map (·.1)).Nodup)
    (h : alGet graph n = some outs) (hv : v ∉ outs) : n ∉ inNbrs graph v := by
  intro habs
  obtain ⟨outs2, hmem2, hv2⟩ := (mem_inNbrs_iff graph n v).mp habs
  have := key_unique_of_nodup graph hnd n outs2 outs hmem2 (succs_mem_of_alGet graph n outs h)
  exact hv (this ▸ hv2)

theorem not_inNbrs_of_alGet_none (graph : List (String × List String)) (n v : String)
    (h : alGet graph n = none) : n ∉ inNbrs graph v := by
  intro habs
  obtain ⟨outs2, hmem2, _⟩ := (mem_inNbrs_iff graph n v).mp habs
  have : (alGet graph n).isSome :=
    alGet_isSome_of_key graph n (List.mem_map_of_mem (·.1) hmem2)
  rw [h] at this
  simp at this

theorem filter_length_eq_all {α : Type} (l : List α) (p : α → Bool)
    (h : (l.filter p).length = l.length) : ∀ x ∈ l, p x := by
  induction l with
  | nil => simp
  | cons a t ih =>
    intro x hx
    by_cases ha : p a
    · rw [List.filter_cons_of_pos ha] at h
      simp only [List.length_cons, Nat.add_right_cancel_iff] at h
      rcases List.mem_cons.mp hx with he | hm
      · rw [he]; exact ha
      · exact ih h x hm
    · rw [List.filter_cons_of_neg ha] at h
      have := List.length_filter_le p t
      simp only [List.length_cons] at h
      omega

/-! ### The decrement fold -/

theorem kahnDecFold_spec (succs : List String) :
    ∀ (deg : List (String × Int)) (acc : List String),
      succs.Nodup → (∀ v ∈ succs, v ∈ deg.map (·.1)) →
      ((succs.foldl kahnDecStep (deg, acc)).1.map (·.1) = deg.map (·.1)) ∧
      (∀ v ∈ succs, alGet (succs.foldl kahnDecStep (deg, acc)).1 v
        = some ((alGet deg v).getD 0 - 1)) ∧
      (∀ v, v ∉ succs → alGet (succs.foldl kahnDecStep (deg, acc)).1 v = alGet deg v) ∧
      (succs.foldl kahnDecStep (deg, acc)).2
        = acc ++ succs.filter (fun v => (alGet deg v).getD 0 - 1 = 0) := by
  induction succs with
  | nil => intro deg acc _ _; exact ⟨rfl, by simp, fun _ _ => rfl, by simp⟩
  | cons v0 rest ih =>
    intro deg acc hnd hsub
    simp only [List.nodup_cons] at hnd
    have hv0 : v0 ∈ deg.map (·.1) := hsub v0 (List.mem_cons_self _ _)
    have hstep : kahnDecStep (deg, acc) v0
        = (alSet deg v0 ((alGet deg v0).getD 0 - 1),
           if ((alGet deg v0).getD 0 - 1) = 0 then acc ++ [v0] else acc) := rfl
    have hkeys1 : (alSet deg v0 ((alGet deg v0).getD 0 - 1)).map (·.1) = deg.map (·.1) :=
      alSet_keys_of_mem _ _ _ hv0
    have hsub2 : ∀ v ∈ rest, v ∈ (alSet deg v0 ((alGet deg v0).getD 0 - 1)).map (·.1) := by
      intro v hv
      rw [hkeys1]
      exact hsub v (List.mem_cons_of_mem _ hv)
    obtain ⟨ihKeys, ihIn, ihOut, ihPush⟩ :=
      ih (alSet deg v0 ((alGet deg v0).getD 0 - 1))
        (if ((alGet deg v0).getD 0 - 1) = 0 then acc ++ [v0] else acc) hnd.2 hsub2
    have hfold : (v0 :: rest).foldl kahnDecStep (deg, acc)
        = rest.foldl kahnDecStep
            (alSet deg v0 ((alGet deg v0).getD 0 - 1),
             if ((alGet deg v0).getD 0 - 1) = 0 then acc ++ [v0] else acc) := by
      simp [List.foldl_cons, hstep]
    refine ⟨by rw [hfold, ihKeys, hkeys1], ?_, ?_, ?_⟩
    · intro v hv
      rw [hfold]
      rcases List.mem_cons.mp hv with he | hm
      · subst he
        rw [ihOut v hnd.1, alGet_alSet_self]
      · rw [ihIn v hm, alGet_alSet_other _ _ _ _ (by rintro rfl; exact hnd.1 hm)]
    · intro v hv
      rw [hfold]
      have hv0ne : v0 ≠ v := by rintro rfl; exact hv (List.mem_cons_self _ _)
      rw [ihOut v (fun hm => hv (List.mem_cons_of_mem _ hm)),
        alGet_alSet_other _ _ _ _ hv0ne]
    · rw [hfold, ihPush]
      have hfc : rest.filter
            (fun v => (alGet (alSet deg v0 ((alGet deg v0).getD 0 - 1)) v).getD 0 - 1 = 0)
          = rest.filter (fun v => (alGet deg v).getD 0 - 1 = 0) := by
        apply List.filter_congr
        intro v hv
        rw [alGet_alSet_other _ _ _ _ (by rintro rfl; exact hnd.1 hv)]
      rw [hfc]
      by_cases h0 : ((alGet deg v0).getD 0 - 1) = 0
      · rw [if_pos h0, List.filter_cons_of_pos (by simp [h0])]
        simp
      · rw [if_neg h0, List.filter_cons_of_neg (by simp [h0])]

/-! ### Counting lemmas -/

theorem inNbrs_sublist_keys (graph : List (String × List String)) (v : String) :
    (inNbrs graph v).Sublist (graph.map (·.1)) := by
  induction graph with
  | nil => exact List.Sublist.refl _
  | cons p rest ih =>
    unfold inNbrs at ih ⊢
    rw [List.filterMap_cons]
    by_cases hv : v ∈ p.2
    · rw [if_pos hv]
      exact List.Sublist.cons₂ _ ih
    · rw [if_neg hv]
      exact List.sublist_cons_of_sublist _ ih

theorem inNbrs_nodup (graph : List (String × List String)) (v : String)
    (hnd : (graph.map (·.1)).Nodup) : (inNbrs graph v).Nodup :=
  (inNbrs_sublist_keys graph v).nodup hnd

theorem count_filter_append_self (l order : List String) (n : String)
    (hnd : l.Nodup) (hn : n ∈ l) (hno : n ∉ order) :
    (l.filter (fun u => u ∈ order ++ [n])).length
      = (l.filter (fun u => u ∈ order)).length + 1 := by
  induction l with
  | nil => simp at hn
  | cons a t ih =>
    simp only [List.nodup_cons] at hnd
    rcases List.mem_cons.mp hn with he | hm
    · subst he
      rw [List.filter_cons_of_pos (by simp), List.filter_cons_of_neg (by simp [hno])]
      have ht : t.filter (fun u => u ∈ order ++ [n]) = t.filter (fun u => u ∈ order) := by
        apply List.filter_congr
        intro u hu
        have hun : u ≠ n := by rintro rfl; exact hnd.1 hu
        simp [List.mem_append, hun]
      rw [ht]
      simp
    · have hna : a ≠ n := by rintro rfl; exact hnd.1 hm
      by_cases ha : a ∈ order
      · rw [List.filter_cons_of_pos (by simp [List.mem_append, ha]),
          List.filter_cons_of_pos (by simp [ha])]
        simp only [List.length_cons]
        rw [ih hnd.2 hm]
      · rw [List.filter_cons_of_neg (by simp [List.mem_append, ha, hna]),
          List.filter_cons_of_neg (by simp [ha])]
        exact ih hnd.2 hm

theorem count_filter_append_notmem (l order : List String) (n : String) (hn : n ∉ l) :
    (l.filter (fun u => u ∈ order ++ [n])).length
      = (l.filter (fun u => u ∈ order)).length := by
  have : l.filter (fun u => u ∈ order ++ [n]) = l.filter (fun u => u ∈ order) := by
    apply List.filter_congr
    intro u hu
    have hun : u ≠ n := by rintro rfl; exact hn hu
    simp [List.mem_append, hun]
  rw [this]

/-! ### The Kahn loop invariant -/

structure KahnInv (graph : List (String × List String)) (nodes : List String)
    (q : List String) (deg : List (String × Int)) (order : List String) : Prop where
  degKeys : deg.map (·.1) = nodes
  degVal : ∀ v d, alGet deg v = some d →
    d = ((inNbrs graph v).length : Int)
      - (((inNbrs graph v).filter (fun u => u ∈ order)).length : Int)
  qZero : ∀ v ∈ q, ∀ u ∈ inNbrs graph v, u ∈ order
  orderPrefix : ∀ i (hi : i < order.length),
    ∀ u ∈ inNbrs graph (order.get ⟨i, hi⟩), u ∈ order.take i
  orderNodup : order.Nodup
  qNodup : q.Nodup
  qFresh : ∀ v ∈ q, v ∉ order
  qSub : ∀ v ∈ q, v ∈ nodes
  orderSub : ∀ v ∈ order, v ∈ nodes

theorem mem_order_inNbrs_sub (graph : List (String × List String)) (order : List String)
    (hpre : ∀ i (hi : i < order.length),
      ∀ u ∈ inNbrs graph (order.get ⟨i, hi⟩), u ∈ order.take i)
    (v : String) (hv : v ∈ order) : ∀ u ∈ inNbrs graph v, u ∈ order := by
  intro u hu
  obtain ⟨⟨i, hi⟩, rfl⟩ := List.mem_iff_get.mp hv
  exact List.mem_of_mem_take (hpre i hi u hu)

theorem kahnStep_inv (graph : List (String × List String)) (nodes : List String)
    (wf : GraphWF graph nodes) (n : String) (q : List String)
    (deg : List (String × Int)) (order : List String)
    (inv : KahnInv graph nodes (n :: q) deg order) :
    KahnInv graph nodes (q ++ (kahnDecrement ((alGet graph n).getD []) deg).2)
      (kahnDecrement ((alGet graph n).getD []) deg).1 (order ++ [n]) := by
  have hnOrder : n ∉ order := inv.qFresh n (List.mem_cons_self _ _)
  have hnNodes : n ∈ nodes := inv.qSub n (List.mem_cons_self _ _)
  have hnQ : n ∉ q := by
    have := inv.qNodup
    simp only [List.nodup_cons] at this
    exact this.1
  -- facts about the successor list
  have hsuccFacts : ((alGet graph n).getD []).Nodup ∧
      (∀ v ∈ (alGet graph n).getD [], v ∈ nodes) ∧
      (n ∉ (alGet graph n).getD []) ∧
      (∀ v, v ∈ (alGet graph n).getD [] → n ∈ inNbrs graph v) ∧
      (∀ v, v ∉ (alGet graph n).getD [] → n ∉ inNbrs graph v) := by
    cases hg : alGet graph n with
    | none =>
      refine ⟨by simp, by simp, by simp, by simp, ?_⟩
      intro v _
      exact not_inNbrs_of_alGet_none graph n v hg
    | some outs =>
      have hmem := succs_mem_of_alGet graph n outs hg
      refine ⟨by simpa using wf.succNodup _ hmem, ?_, by simpa using wf.noSelf _ hmem, ?_, ?_⟩
      · intro v hv
        exact wf.succSub _ hmem v (by simpa using hv)
      · intro v hv
        exact (mem_inNbrs_iff graph n v).mpr ⟨outs, hmem, by simpa using hv⟩
      · intro v hv
        exact not_inNbrs_of_alGet_notMem graph n v outs wf.keysNodup hg (by simpa using hv)
  obtain ⟨hsNodup, hsSub, hsNoSelf, hsIn, hsOut⟩ := hsuccFacts
  have hsKeys : ∀ v ∈ (alGet graph n).getD [], v ∈ deg.map (·.1) := by
    intro v hv
    rw [inv.degKeys]
    exact hsSub v hv
  obtain ⟨dKeys, dIn, dOut, dPush⟩ :=
    kahnDecFold_spec ((alGet graph n).getD []) deg [] hsNodup hsKeys
  have hdeg2 := dKeys
  -- the pushed list
  have hpush : (kahnDecrement ((alGet graph n).getD []) deg).2
      = ((alGet graph n).getD []).filter (fun v => (alGet deg v).getD 0 - 1 = 0) := by
    unfold kahnDecrement
    rw [dPush]
    simp
  -- helper: a value lookup on the old map, for keys in nodes
  have hgetOld : ∀ v ∈ nodes, ∃ d, alGet deg v = some d ∧
      d = ((inNbrs graph v).length : Int)
        - (((inNbrs graph v).filter (fun u => u ∈ order)).length : Int) := by
    intro v hv
    have : (alGet deg v).isSome := alGet_isSome_of_key _ _ (by rw [inv.degKeys]; exact hv)
    cases hd : alGet deg v with
    | none => rw [hd] at this; simp at this
    | some d => exact ⟨d, rfl, inv.degVal v d hd⟩
  -- membership in order++[n] splits
  have hordmem : ∀ u, u ∈ order ++ [n] ↔ (u ∈ order ∨ u = n) := by
    intro u; simp [List.mem_append]
  refine ⟨?_, ?_, ?_, ?_, ?_, ?_, ?_, ?_, ?_⟩
  · -- degKeys
    unfold kahnDecrement
    rw [dKeys, inv.degKeys]
  · -- degVal
    intro v d hd
    by_cases hvs : v ∈ (alGet graph n).getD []
    · have hvN : v ∈ nodes := hsSub v hvs
      obtain ⟨d0, hd0, hval0⟩ := hgetOld v hvN
      have := dIn v hvs
      unfold kahnDecrement at hd
      rw [this] at hd
      have hdd : d = d0 - 1 := by
        have := Option.some_inj.mp hd
        rw [hd0] at this
        simpa using this.symm
      have hcount := count_filter_append_self (inNbrs graph v) order n
        (inNbrs_nodup graph v wf.keysNodup) (hsIn v hvs) hnOrder
      rw [hdd, hval0]
      rw [hcount]
      push_cast
      ring
    · unfold kahnDecrement at hd
      rw [dOut v hvs] at hd
      have hval0 := inv.degVal v d hd
      have hcount := count_filter_append_notmem (inNbrs graph v) order n (hsOut v hvs)
      rw [hval0, hcount]
  · -- qZero
    intro v hv u hu
    rcases List.mem_append.mp hv with hvq | hvp
    · exact List.mem_append_left _ (inv.qZero v (List.mem_cons_of_mem _ hvq) u hu)
    · rw [hpush] at hvp
      have hvs : v ∈ (alGet graph n).getD [] := List.mem_of_mem_filter hvp
      have hvz : ((alGet deg v).getD 0 - 1) = 0 := by
        have := List.of_mem_filter hvp
        simpa using this
      obtain ⟨d0, hd0, hval0⟩ := hgetOld v (hsSub v hvs)
      rw [hd0] at hvz
      simp only [Option.getD_some] at hvz
      -- d0 = 1, so the new count of in-neighbours inside order++[n] is full
      have hcount := count_filter_append_self (inNbrs graph v) order n
        (inNbrs_nodup graph v wf.keysNodup) (hsIn v hvs) hnOrder
      have hle : (((inNbrs graph v).filter (fun u => u ∈ order)).length : Int)
          ≤ ((inNbrs graph v).length : Int) := by
        exact_mod_cast List.length_filter_le _ _
      have hfull : (((inNbrs graph v).filter (fun u => u ∈ order ++ [n])).length)
          = (inNbrs graph v).length := by
        omega
      exact of_decide_eq_true (filter_length_eq_all _ _ hfull u hu)
  · -- orderPrefix
    intro i hi u hu
    rw [List.length_append, List.length_singleton] at hi
    by_cases hilt : i < order.length
    · have hget : (order ++ [n]).get ⟨i, by simpa using hi⟩ = order.get ⟨i, hilt⟩ :=
        List.get_append i hilt
      rw [hget] at hu
      have := inv.orderPrefix i hilt u hu
      rw [List.take_append_of_le_length (by omega)]
      exact this
    · have hieq : i = order.length := by omega
      subst hieq
      have hget : ∀ hh : order.length < (order ++ [n]).length,
          (order ++ [n]).get ⟨order.length, hh⟩ = n := by
        intro hh
        rw [List.get_eq_getElem, List.getElem_append_right (Nat.le_refl _)]
        simp
      rw [hget _] at hu
      have : u ∈ order := inv.qZero n (List.mem_cons_self _ _) u hu
      rw [List.take_left]
      exact this
  · -- orderNodup
    rw [List.nodup_append]
    exact ⟨inv.orderNodup, List.nodup_singleton _, by
      intro a ha hb
      simp only [List.mem_singleton] at hb
      subst hb
      exact hnOrder ha⟩
  · -- qNodup
    rw [List.nodup_append]
    refine ⟨by
      have := inv.qNodup
      simp only [List.nodup_cons] at this
      exact this.2, ?_, ?_⟩
    · rw [hpush]
      exact hsNodup.filter _
    · intro a haq hap
      rw [hpush] at hap
      have has : a ∈ (alGet graph n).getD [] := List.mem_of_mem_filter hap
      have : n ∈ order := inv.qZero a (List.mem_cons_of_mem _ haq) n (hsIn a has)
      exact hnOrder this
  · -- qFresh
    intro v hv
    rw [hordmem v]
    push_neg
    rcases List.mem_append.mp hv with hvq | hvp
    · exact ⟨inv.qFresh v (List.mem_cons_of_mem _ hvq), by rintro rfl; exact hnQ hvq⟩
    · rw [hpush] at hvp
      have hvs : v ∈ (alGet graph n).getD [] := List.mem_of_mem_filter hvp
      constructor
      · intro hvo
        have : n ∈ order :=
          mem_order_inNbrs_sub graph order inv.orderPrefix v hvo n (hsIn v hvs)
        exact hnOrder this
      · rintro rfl
        exact hsNoSelf hvs
  · -- qSub
    intro v hv
    rcases List.mem_append.mp hv with hvq | hvp
    · exact inv.qSub v (List.mem_cons_of_mem _ hvq)
    · rw [hpush] at hvp
      exact hsSub v (List.mem_of_mem_filter hvp)
  · -- orderSub
    intro v hv
    rcases List.mem_append.mp hv with hvo | hvn
    · exact inv.orderSub v hvo
    · simp only [List.mem_singleton] at hvn
      subst hvn
      exact hnNodes

theorem kahnLoop_spec (graph : List (String × List String)) (nodes : List String)
    (wf : GraphWF graph nodes) :
    ∀ (fuel : Nat) (q : List String) (deg : List (String × Int)) (order : List String),
      KahnInv graph nodes q deg order →
      (∀ i (hi : i < (kahnLoop graph fuel q deg order).length),
        ∀ u ∈ inNbrs graph ((kahnLoop graph fuel q deg order).get ⟨i, hi⟩),
          u ∈ (kahnLoop graph fuel q deg order).take i) ∧
      (kahnLoop graph fuel q deg order).Nodup ∧
      (∀ v ∈ kahnLoop graph fuel q deg order, v ∈ nodes) := by
  intro fuel
  induction fuel with
  | zero =>
    intro q deg order inv
    exact ⟨inv.orderPrefix, inv.orderNodup, inv.orderSub⟩
  | succ fuel ih =>
    intro q deg order inv
    cases q with
    | nil => exact ⟨inv.orderPrefix, inv.orderNodup, inv.orderSub⟩
    | cons n q =>
      have hstep := kahnStep_inv graph nodes wf n q deg order inv
      have hloop : kahnLoop graph (fuel + 1) (n :: q) deg order
          = kahnLoop graph fuel (q ++ (kahnDecrement ((alGet graph n).getD []) deg).2)
              (kahnDecrement ((alGet graph n).getD []) deg).1 (order ++ [n]) := rfl
      rw [hloop]
      exact ih _ _ _ hstep

/-! ### The in-degree initialisation -/

theorem foldInc_outs_spec (outs : List String) :
    ∀ (deg : List (String × Int)), outs.Nodup → (∀ v ∈ outs, v ∈ deg.map (·.1)) →
      ((outs.foldl (fun deg v => alSet deg v ((alGet deg v).getD 0 + 1)) deg).map (·.1)
        = deg.map (·.1)) ∧
      (∀ v d0, alGet deg v = some d0 →
        alGet (outs.foldl (fun deg v => alSet deg v ((alGet deg v).getD 0 + 1)) deg) v
          = some (d0 + (if v ∈ outs then 1 else 0))) := by
  induction outs with
  | nil =>
    intro deg _ _
    refine ⟨rfl, ?_⟩
    intro v d0 h
    simpa using h
  | cons v0 rest ih =>
    intro deg hnd hsub
    simp only [List.nodup_cons] at hnd
    have hv0 : v0 ∈ deg.map (·.1) := hsub v0 (List.mem_cons_self _ _)
    have hkeys1 : (alSet deg v0 ((alGet deg v0).getD 0 + 1)).map (·.1) = deg.map (·.1) :=
      alSet_keys_of_mem _ _ _ hv0
    obtain ⟨ihKeys, ihVal⟩ := ih (alSet deg v0 ((alGet deg v0).getD 0 + 1)) hnd.2
      (fun v hv => by rw [hkeys1]; exact hsub v (List.mem_cons_of_mem _ hv))
    have hfold : (v0 :: rest).foldl (fun deg v => alSet deg v ((alGet deg v).getD 0 + 1)) deg
        = rest.foldl (fun deg v => alSet deg v ((alGet deg v).getD 0 + 1))
            (alSet deg v0 ((alGet deg v0).getD 0 + 1)) := rfl
    refine ⟨by rw [hfold, ihKeys, hkeys1], ?_⟩
    intro v d0 hd0
    rw [hfold]
    by_cases hvv : v = v0
    · subst hvv
      have h1 : alGet (alSet deg v ((alGet deg v).getD 0 + 1)) v = some (d0 + 1) := by
        rw [alGet_alSet_self, hd0]
        simp
      have := ihVal v (d0 + 1) h1
      rw [this]
      rw [if_neg hnd.1, if_pos (List.mem_cons_self _ _)]
      simp
    · have h1 : alGet (alSet deg v0 ((alGet deg v0).getD 0 + 1)) v = some d0 := by
        rw [alGet_alSet_other _ _ _ _ (fun he => hvv he.symm), hd0]
      have := ihVal v d0 h1
      rw [this]
      by_cases hvr : v ∈ rest
      · rw [if_pos hvr, if_pos (List.mem_cons_of_mem _ hvr)]
      · rw [if_neg hvr, if_neg (by
          intro hm
          rcases List.mem_cons.mp hm with he | hm2
          · exact hvv he
          · exact hvr hm2)]

theorem foldInc_graph_spec (G : List (String × List String)) :
    ∀ (deg : List (String × Int)),
      (∀ p ∈ G, p.2.Nodup) → (∀ p ∈ G, ∀ v ∈ p.2, v ∈ deg.map (·.1)) →
      ((G.foldl (fun deg p =>
          p.2.foldl (fun deg v => alSet deg v ((alGet deg v).getD 0 + 1)) deg) deg).map (·.1)
        = deg.map (·.1)) ∧
      (∀ v d0, alGet deg v = some d0 →
        alGet (G.foldl (fun deg p =>
            p.2.foldl (fun deg v => alSet deg v ((alGet deg v).getD 0 + 1)) deg) deg) v
          = some (d0 + ((inNbrs G v).length : Int))) := by
  induction G with
  | nil =>
    intro deg _ _
    refine ⟨rfl, ?_⟩
    intro v d0 h
    simp [inNbrs, h]
  | cons p rest ih =>
    intro deg hnd hsub
    have hpnd : p.2.Nodup := hnd p (List.mem_cons_self _ _)
    have hpsub : ∀ v ∈ p.2, v ∈ deg.map (·.1) := hsub p (List.mem_cons_self _ _)
    obtain ⟨oKeys, oVal⟩ := foldInc_outs_spec p.2 deg hpnd hpsub
    obtain ⟨ihKeys, ihVal⟩ := ih
      (p.2.foldl (fun deg v => alSet deg v ((alGet deg v).getD 0 + 1)) deg)
      (fun q hq => hnd q (List.mem_cons_of_mem _ hq))
      (fun q hq v hv => by rw [oKeys]; exact hsub q (List.mem_cons_of_mem _ hq) v hv)
    have hfold : (p :: rest).foldl (fun deg p =>
          p.2.foldl (fun deg v => alSet deg v ((alGet deg v).getD 0 + 1)) deg) deg
        = rest.foldl (fun deg p =>
            p.2.foldl (fun deg v => alSet deg v ((alGet deg v).getD 0 + 1)) deg)
            (p.2.foldl (fun deg v => alSet deg v ((alGet deg v).getD 0 + 1)) deg) := rfl
    refine ⟨by rw [hfold, ihKeys, oKeys], ?_⟩
    intro v d0 hd0
    rw [hfold]
    have h1 := oVal v d0 hd0
    have h2 := ihVal v _ h1
    rw [h2]
    have hcons : inNbrs (p :: rest) v
        = (if v ∈ p.2 then [p.1] else []) ++ inNbrs rest v := by
      unfold inNbrs
      rw [List.filterMap_cons]
      by_cases hv : v ∈ p.2
      · rw [if_pos hv, if_pos hv]
        rfl
      · rw [if_neg hv, if_neg hv]
        rfl
    rw [hcons]
    by_cases hv : v ∈ p.2
    · rw [if_pos hv, if_pos hv]
      simp only [List.length_append, List.length_singleton]
      congr 1
      push_cast
      ring
    · rw [if_neg hv, if_neg hv]
      simp

theorem alGet_const_map (nodes : List String) (v : String) (c : Int) :
    alGet (nodes.map (fun n => (n, c))) v
      = if v ∈ nodes then some c else none := by
  induction nodes with
  | nil => simp [alGet, List.find?]
  | cons n rest ih =>
    unfold alGet at ih ⊢
    by_cases hn : n = v
    · rw [List.map_cons, List.find?_cons_of_pos _ (by simp [hn])]
      simp [hn]
    · rw [List.map_cons, List.find?_cons_of_neg _ (by simp [hn])]
      rw [ih]
      by_cases hv : v ∈ rest
      · rw [if_pos hv, if_pos (List.mem_cons_of_mem _ hv)]
      · rw [if_neg hv, if_neg (by
          intro hm
          rcases List.mem_cons.mp hm with he | hm2
          · exact hn he.symm
          · exact hv hm2)]

theorem map_fst_const_zero (nodes : List String) :
    (nodes.map (fun n => (n, (0 : Int)))).map (·.1) = nodes := by
  induction nodes with
  | nil => rfl
  | cons n rest ih => simp only [List.map_cons, ih]

theorem buildInDeg_keys (nodes : List String) (graph : List (String × List String))
    (hsub : ∀ p ∈ graph, ∀ v ∈ p.2, v ∈ nodes) (hnd : ∀ p ∈ graph, p.2.Nodup) :
    (buildInDeg nodes graph).map (·.1) = nodes := by
  unfold buildInDeg
  have hkeys0 : (nodes.map (fun n => (n, (0 : Int)))).map (·.1) = nodes :=
    map_fst_const_zero nodes
  obtain ⟨hk, _⟩ := foldInc_graph_spec graph (nodes.map (fun n => (n, (0 : Int)))) hnd
    (fun p hp v hv => by rw [hkeys0]; exact hsub p hp v hv)
  rw [hk, hkeys0]

theorem buildInDeg_val (nodes : List String) (graph : List (String × List String))
    (hsub : ∀ p ∈ graph, ∀ v ∈ p.2, v ∈ nodes) (hnd : ∀ p ∈ graph, p.2.Nodup)
    (v : String) (d : Int) (h : alGet (buildInDeg nodes graph) v = some d) :
    d = ((inNbrs graph v).length : Int) := by
  have hvn : v ∈ nodes := by
    have := alGet_some_key _ _ _ h
    rwa [buildInDeg_keys nodes graph hsub hnd] at this
  have h0 : alGet (nodes.map (fun n => (n, (0 : Int)))) v = some 0 := by
    rw [alGet_const_map, if_pos hvn]
  have hkeys0 : (nodes.map (fun n => (n, (0 : Int)))).map (·.1) = nodes :=
    map_fst_const_zero nodes
  obtain ⟨_, hv⟩ := foldInc_graph_spec graph (nodes.map (fun n => (n, (0 : Int)))) hnd
    (fun p hp w hw => by rw [hkeys0]; exact hsub p hp w hw)
  have := hv v 0 h0
  unfold buildInDeg at h
  rw [this] at h
  have := Option.some_inj.mp h
  omega

/-- The initial state of the Kahn loop satisfies the invariant. -/
theorem kahnInit_inv (graph : List (String × List String)) (nodes : List String)
    (wf : GraphWF graph nodes) :
    KahnInv graph nodes
      (((buildInDeg nodes graph).filter (fun p => p.2 = 0)).map (·.1))
      (buildInDeg nodes graph) [] := by
  have hkeys := buildInDeg_keys nodes graph wf.succSub wf.succNodup
  have hkeysNodup : ((buildInDeg nodes graph).map (·.1)).Nodup := by
    rw [hkeys]; exact wf.nodesNodup
  refine ⟨hkeys, ?_, ?_, ?_, ?_, ?_, ?_, ?_, ?_⟩
  · intro v d hd
    have := buildInDeg_val nodes graph wf.succSub wf.succNodup v d hd
    rw [this]
    simp
  · intro v hv u hu
    obtain ⟨p, hp, hpe⟩ := List.mem_map.mp hv
    have hfilter := List.of_mem_filter hp
    have hmem := List.mem_of_mem_filter hp
    have hz : p.2 = 0 := by simpa using hfilter
    have hget : alGet (buildInDeg nodes graph) p.1 = some p.2 := by
      apply alGet_of_mem_nodup _ _ _ hkeysNodup
      simpa using hmem
    have := buildInDeg_val nodes graph wf.succSub wf.succNodup p.1 p.2 hget
    rw [hz] at this
    have hlen : (inNbrs graph p.1).length = 0 := by omega
    rw [List.length_eq_zero] at hlen
    rw [← hpe] at hu
    rw [hlen] at hu
    simp at hu
  · intro i hi
    simp at hi
  · exact List.nodup_nil
  · have : (((buildInDeg nodes graph).filter (fun p => p.2 = 0)).map (·.1)).Sublist
        ((buildInDeg nodes graph).map (·.1)) :=
      (List.filter_sublist _).map _
    exact this.nodup hkeysNodup
  · intro v _
    exact List.not_mem_nil v
  · intro v hv
    obtain ⟨p, hp, hpe⟩ := List.mem_map.mp hv
    rw [← hkeys]
    rw [← hpe]
    exact List.mem_map_of_mem _ (List.mem_of_mem_filter hp)
  · intro v hv
    simp at hv

/-! ### The relation graph built by the validation loop -/

/-- An edge `u → v` is present in the successor-set representation. -/
def edgeIn (g : List (String × List String)) (u v : String) : Prop :=
  ∃ outs, (u, outs) ∈ g ∧ v ∈ outs

/-- Invariant on the (errors, graph) part of the validation-loop state. -/
def GState (nodes : List String)
    (st : List MModel × List String × List (String × List String)) : Prop :=
  st.2.2.map (·.1) = nodes ∧
  ∀ p ∈ st.2.2, p.2.Nodup ∧ p.1 ∉ p.2 ∧ ∀ v ∈ p.2, v ∈ nodes

theorem graphAddEdge_keys (g : List (String × List String)) (u v : String) :
    (graphAddEdge g u v).map (·.1) = g.map (·.1) := by
  induction g with
  | nil => rfl
  | cons p rest ih =>
    obtain ⟨k, outs⟩ := p
    unfold graphAddEdge
    by_cases hk : k = u
    · rw [if_pos hk]
      simp
    · rw [if_neg hk]
      simp only [List.map_cons, ih]

theorem graphAddEdge_mono (g : List (String × List String)) (u v a b : String)
    (h : edgeIn g a b) : edgeIn (graphAddEdge g u v) a b := by
  induction g with
  | nil => simpa [edgeIn] using h
  | cons p rest ih =>
    obtain ⟨k, outs⟩ := p
    obtain ⟨outsa, hmem, hb⟩ := h
    unfold graphAddEdge
    by_cases hk : k = u
    · rw [if_pos hk]
      rcases List.mem_cons.mp hmem with he | hm
      · have hak : a = k := by
          have := congrArg Prod.fst he
          simpa using this
        have houts : outsa = outs := by
          have := congrArg Prod.snd he
          simpa using this
        refine ⟨if outs.contains v then outs else outs ++ [v], ?_, ?_⟩
        · rw [hak]
          exact List.mem_cons_self _ _
        · rw [houts] at hb
          by_cases hc : outs.contains v
          · rw [if_pos hc]; exact hb
          · rw [if_neg hc]; exact List.mem_append_left _ hb
      · exact ⟨outsa, List.mem_cons_of_mem _ hm, hb⟩
    · rw [if_neg hk]
      rcases List.mem_cons.mp hmem with he | hm
      · exact ⟨outsa, List.mem_cons.mpr (Or.inl he), hb⟩
      · obtain ⟨o2, hm2, hb2⟩ := ih ⟨outsa, hm, hb⟩
        exact ⟨o2, List.mem_cons_of_mem _ hm2, hb2⟩

theorem graphAddEdge_estab (g : List (String × List String)) (u v : String)
    (hu : u ∈ g.map (·.1)) : edgeIn (graphAddEdge g u v) u v := by
  induction g with
  | nil => simp at hu
  | cons p rest ih =>
    obtain ⟨k, outs⟩ := p
    unfold graphAddEdge
    by_cases hk : k = u
    · rw [if_pos hk]
      refine ⟨if outs.contains v then outs else outs ++ [v], ?_, ?_⟩
      · rw [hk]
        exact List.mem_cons_self _ _
      · by_cases hc : outs.contains v
        · rw [if_pos hc]
          exact List.mem_of_elem_eq_true hc
        · rw [if_neg hc]
          exact List.mem_append_right _ (List.mem_singleton_self v)
    · rw [if_neg hk]
      have hu2 : u ∈ rest.map (·.1) := by
        rcases List.mem_map.mp hu with ⟨q, hq, hqe⟩
        rcases List.mem_cons.mp hq with he | hm
        · exfalso
          apply hk
          rw [← hqe, he]
        · rw [← hqe]
          exact List.mem_map_of_mem _ hm
      obtain ⟨o2, hm2, hb2⟩ := ih hu2
      exact ⟨o2, List.mem_cons_of_mem _ hm2, hb2⟩

theorem graphAddEdge_wf (g : List (String × List String)) (nodes : List String)
    (u v : String) (huv : u ≠ v) (hv : v ∈ nodes)
    (h : ∀ p ∈ g, p.2.Nodup ∧ p.1 ∉ p.2 ∧ ∀ w ∈ p.2, w ∈ nodes) :
    ∀ p ∈ graphAddEdge g u v, p.2.Nodup ∧ p.1 ∉ p.2 ∧ ∀ w ∈ p.2, w ∈ nodes := by
  induction g with
  | nil => simp [graphAddEdge]
  | cons q rest ih =>
    obtain ⟨k, outs⟩ := q
    obtain ⟨hknd, hkns, hksub⟩ := h (k, outs) (List.mem_cons_self _ _)
    unfold graphAddEdge
    by_cases hk : k = u
    · rw [if_pos hk]
      intro p hp
      rcases List.mem_cons.mp hp with he | hm
      · subst he
        by_cases hc : outs.contains v
        · rw [if_pos hc]
          exact ⟨hknd, hkns, hksub⟩
        · rw [if_neg hc]
          refine ⟨?_, ?_, ?_⟩
          · have hvno : v ∉ outs := fun hmm => hc (List.elem_eq_true_of_mem hmm)
            simp [List.nodup_append, hknd, hvno]
          · intro habs
            rcases List.mem_append.mp habs with hm1 | hm2
            · exact hkns hm1
            · rw [List.mem_singleton] at hm2
              exact huv (hk.symm ▸ hm2 : u = v)
          · intro w hw
            rcases List.mem_append.mp hw with hm1 | hm2
            · exact hksub w hm1
            · rw [List.mem_singleton] at hm2
              rw [hm2]
              exact hv
      · exact h p (List.mem_cons_of_mem _ hm)
    · rw [if_neg hk]
      intro p hp
      rcases List.mem_cons.mp hp with he | hm
      · subst he
        exact ⟨hknd, hkns, hksub⟩
      · exact ih (fun q hq => h q (List.mem_cons_of_mem _ hq)) p hm

/-- An edge is only emitted by the final success branch: its source is the
case-folded target table (a key of the index map), its sink is the processed
model's own case-folded table, and they differ. -/
theorem processColumn_edge_shape (M : List (String × Nat)) (ms0 : List MModel)
    (t : String) (col : RtCol) (u v : String)
    (h : (processColumn M ms0 t col).edge = some (u, v)) :
    u ≠ v ∧ v = jsToLower t ∧ (alGet M u).isSome := by
  unfold processColumn at h
  cases hc : col.references with
  | none => rw [hc] at h; simp at h
  | some ref =>
    simp only [hc] at h
    by_cases hempty : (ref.table = "" ∨ ref.column = "")
    · rw [if_pos hempty] at h
      simp at h
    · rw [if_neg hempty] at h
      cases hA : alGet M (jsToLower ref.table) with
      | none => simp only [hA] at h; simp at h
      | some targetIdx =>
        simp only [hA] at h
        cases hF : ((ms0.get? targetIdx).getD { table := "" }).columns.find?
            (fun c => c.name = ref.column) with
        | none => simp only [hF] at h; simp at h
        | some targetCol =>
          simp only [hF] at h
          cases hR : normalizeRelation ref.relation with
          | none => simp only [hR] at h; simp at h
          | some relation =>
            simp only [hR] at h
            by_cases hmm : relation = "MANY-TO-MANY"
            · rw [if_pos hmm] at h
              simp at h
            · rw [if_neg hmm] at h
              by_cases hty : (parseTypeRV col.type).1 ≠ (parseTypeRV targetCol.type).1
              · rw [if_pos hty] at h
                simp at h
              · rw [if_neg hty] at h
                by_cases hself : jsToLower ref.table = jsToLower t
                · rw [if_pos hself] at h
                  simp at h
                · rw [if_neg hself] at h
                  have h2 : (some (jsToLower ref.table, jsToLower t) : Option (String × String))
                      = some (u, v) := h
                  have hp := Option.some_inj.mp h2
                  have hu : u = jsToLower ref.table := by
                    have := congrArg Prod.fst hp
                    simpa using this.symm
                  have hv : v = jsToLower t := by
                    have := congrArg Prod.snd hp
                    simpa using this.symm
                  refine ⟨?_, hv, ?_⟩
                  · rw [hu, hv]
                    exact hself
                  · rw [hu, hA]
                    rfl

/-- On a validated ONE-TO-ONE / ONE-TO-MANY non-self reference that produced
no error message, the dependency edge target-table → source-table is emitted. -/
theorem processColumn_success_edge (M : List (String × Nat)) (ms0 : List MModel)
    (t : String) (col : RtCol) (ref : ColRef)
    (href : col.references = some ref)
    (hrel : normalizeRelation ref.relation = some "ONE-TO-ONE" ∨
            normalizeRelation ref.relation = some "ONE-TO-MANY")
    (hns : jsToLower ref.table ≠ jsToLower t)
    (herr : (processColumn M ms0 t col).errors = []) :
    (processColumn M ms0 t col).edge = some (jsToLower ref.table, jsToLower t) := by
  unfold processColumn at herr ⊢
  simp only [href] at herr ⊢
  by_cases hempty : (ref.table = "" ∨ ref.column = "")
  · rw [if_pos hempty] at herr
    simp at herr
  · rw [if_neg hempty] at herr ⊢
    cases hA : alGet M (jsToLower ref.table) with
    | none => simp only [hA] at herr; simp at herr
    | some targetIdx =>
      simp only [hA] at herr ⊢
      cases hF : ((ms0.get? targetIdx).getD { table := "" }).columns.find?
          (fun c => c.name = ref.column) with
      | none => simp only [hF] at herr; simp at herr
      | some targetCol =>
        simp only [hF] at herr ⊢
        cases hR : normalizeRelation ref.relation with
        | none =>
          rw [hR] at hrel
          rcases hrel with h1 | h1 <;> simp at h1
        | some relation =>
          have hrval : relation = "ONE-TO-ONE" ∨ relation = "ONE-TO-MANY" := by
            rw [hR] at hrel
            rcases hrel with h1 | h1
            · exact Or.inl (Option.some_inj.mp h1.symm).symm
            · exact Or.inr (Option.some_inj.mp h1.symm).symm
          simp only [hR] at herr ⊢
          have hmm : ¬ relation = "MANY-TO-MANY" := by
            rcases hrval with h1 | h1 <;> rw [h1] <;> simp
          rw [if_neg hmm] at herr ⊢
          by_cases hty : (parseTypeRV col.type).1 ≠ (parseTypeRV targetCol.type).1
          · rw [if_pos hty] at herr
            simp at herr
          · rw [if_neg hty] at herr ⊢
            rw [if_neg hns]

/-! ### Node-list, index-map and positional-list lemmas -/

theorem mem_relNodes_aux (models : List MModel) :
    ∀ (acc : List String) (v : String),
      v ∈ models.foldl (fun acc m =>
        if acc.contains (jsToLower m.table) then acc else acc ++ [jsToLower m.table]) acc ↔
      v ∈ acc ∨ ∃ m ∈ models, jsToLower m.table = v := by
  induction models with
  | nil => intro acc v; simp
  | cons m rest ih =>
    intro acc v
    rw [List.foldl_cons]
    by_cases hc : acc.contains (jsToLower m.table)
    · rw [if_pos hc, ih]
      constructor
      · rintro (hv | hm)
        · exact Or.inl hv
        · exact Or.inr (by
            obtain ⟨m2, hm2, he⟩ := hm
            exact ⟨m2, List.mem_cons_of_mem _ hm2, he⟩)
      · rintro (hv | ⟨m2, hm2, he⟩)
        · exact Or.inl hv
        · rcases List.mem_cons.mp hm2 with he2 | hmr
          · subst he2
            exact Or.inl (he ▸ List.mem_of_elem_eq_true hc)
          · exact Or.inr ⟨m2, hmr, he⟩
    · rw [if_neg hc, ih]
      constructor
      · rintro (hv | hm)
        · rcases List.mem_append.mp hv with h1 | h2
          · exact Or.inl h1
          · rw [List.mem_singleton] at h2
            exact Or.inr ⟨m, List.mem_cons_self _ _, h2.symm⟩
        · exact Or.inr (by
            obtain ⟨m2, hm2, he⟩ := hm
            exact ⟨m2, List.mem_cons_of_mem _ hm2, he⟩)
      · rintro (hv | ⟨m2, hm2, he⟩)
        · exact Or.inl (List.mem_append_left _ hv)
        · rcases List.mem_cons.mp hm2 with he2 | hmr
          · subst he2
            exact Or.inl (List.mem_append_right _ (by rw [List.mem_singleton, he]))
          · exact Or.inr ⟨m2, hmr, he⟩

theorem mem_relNodes (models : List MModel) (v : String) :
    v ∈ relNodes models ↔ ∃ m ∈ models, jsToLower m.table = v := by
  unfold relNodes
  rw [mem_relNodes_aux]
  simp

theorem relNodes_nodup_aux (models : List MModel) :
    ∀ (acc : List String), acc.Nodup →
      (models.foldl (fun acc m =>
        if acc.contains (jsToLower m.table) then acc else acc ++ [jsToLower m.table]) acc).Nodup := by
  induction models with
  | nil => intro acc h; exact h
  | cons m rest ih =>
    intro acc h
    rw [List.foldl_cons]
    by_cases hc : acc.contains (jsToLower m.table)
    · rw [if_pos hc]
      exact ih acc h
    · rw [if_neg hc]
      apply ih
      have hni : jsToLower m.table ∉ acc := fun hm => hc (List.elem_eq_true_of_mem hm)
      simp [List.nodup_append, h, hni]

theorem relNodes_nodup (models : List MModel) : (relNodes models).Nodup :=
  relNodes_nodup_aux models [] List.nodup_nil

theorem relNodes_reset (models : List MModel) :
    relNodes (models.map (fun m => { m with outgoing := [], incoming := [] })) =
      relNodes models := by
  unfold relNodes
  rw [List.foldl_map]

theorem alSet_keys_sub {α : Type} (m : List (String × α)) (k k' : String) (v : α)
    (h : k' ∈ (alSet m k v).map (·.1)) : k' ∈ m.map (·.1) ∨ k' = k := by
  induction m with
  | nil =>
    simp only [alSet, List.map_cons, List.map_nil] at h
    rcases List.mem_cons.mp h with he | hm
    · exact Or.inr he
    · simp at hm
  | cons p rest ih =>
    obtain ⟨k0, v0⟩ := p
    unfold alSet at h
    by_cases hk : k0 = k
    · rw [if_pos hk] at h
      simp only [List.map_cons] at h
      rcases List.mem_cons.mp h with he | hm
      · exact Or.inr he
      · exact Or.inl (by
          simp only [List.map_cons]
          exact List.mem_cons_of_mem _ hm)
    · rw [if_neg hk] at h
      simp only [List.map_cons] at h
      rcases List.mem_cons.mp h with he | hm
      · exact Or.inl (by
          simp only [List.map_cons]
          exact List.mem_cons.mpr (Or.inl he))
      · rcases ih hm with h1 | h2
        · exact Or.inl (by
            simp only [List.map_cons]
            exact List.mem_cons_of_mem _ h1)
        · exact Or.inr h2

theorem jsMapOfEntries_keys_aux {α : Type} (entries : List (String × α)) :
    ∀ (acc : List (String × α)) (k : String),
      k ∈ (entries.foldl (fun m p => alSet m p.1 p.2) acc).map (·.1) →
      k ∈ acc.map (·.1) ∨ k ∈ entries.map (·.1) := by
  induction entries with
  | nil => intro acc k h; exact Or.inl h
  | cons p rest ih =>
    intro acc k h
    rw [List.foldl_cons] at h
    rcases ih (alSet acc p.1 p.2) k h with h1 | h2
    · rcases alSet_keys_sub acc p.1 k p.2 h1 with h3 | h4
      · exact Or.inl h3
      · exact Or.inr (by
          simp only [List.map_cons]
          exact List.mem_cons.mpr (Or.inl h4))
    · exact Or.inr (by
        simp only [List.map_cons]
        exact List.mem_cons_of_mem _ h2)

theorem jsMapOfEntries_keys {α : Type} (entries : List (String × α)) (k : String)
    (h : k ∈ (jsMapOfEntries entries).map (·.1)) : k ∈ entries.map (·.1) := by
  rcases jsMapOfEntries_keys_aux entries [] k h with h1 | h2
  · simp at h1
  · exact h2

theorem idxList_length {α : Type} (l : List α) : (idxList l).length = l.length := by
  unfold idxList
  simp

theorem idxList_get {α : Type} (l : List α) (i : Nat) (hi : i < (idxList l).length) :
    (idxList l).get ⟨i, hi⟩
      = (i, l.get ⟨i, by rw [← idxList_length l]; exact hi⟩) := by
  unfold idxList at hi ⊢
  rw [List.get_eq_getElem, List.getElem_zip]
  rw [List.get_eq_getElem]
  congr 1
  exact List.getElem_range _ _

theorem mem_idxList_snd {α : Type} (p : Nat × α) (l : List α) (h : p ∈ idxList l) :
    p.2 ∈ l := by
  unfold idxList at h
  obtain ⟨i, a⟩ := p
  exact (List.of_mem_zip h).2

theorem mem_idxList_of_mem {α : Type} (a : α) (l : List α) (h : a ∈ l) :
    ∃ i, (i, a) ∈ idxList l := by
  obtain ⟨⟨i, hi⟩, rfl⟩ := List.mem_iff_get.mp h
  refine ⟨i, ?_⟩
  have hi2 : i < (idxList l).length := by rw [idxList_length]; exact hi
  have := idxList_get l i hi2
  rw [← this]
  exact List.get_mem _ _ _

/-! ### Table preservation through the validation loop -/

theorem mapIdxL_table (f : Nat → MModel → MModel)
    (hf : ∀ i m, (f i m).table = m.table) (l : List MModel) :
    (mapIdxL f l).map (·.table) = l.map (·.table) := by
  apply List.ext_get
  · simp [mapIdxL, idxList_length]
  · intro i h1 h2
    rw [List.get_map, List.get_map]
    have hi : i < (idxList l).length := by
      simpa [mapIdxL] using h1
    have := idxList_get l i hi
    simp only [mapIdxL]
    rw [List.get_map]
    rw [this]
    exact hf i _

theorem mapIdxL_if_table (k : Nat) (g : MModel → MModel)
    (hg : ∀ m, (g m).table = m.table) (l : List MModel) :
    (mapIdxL (fun i m => if i = k then g m else m) l).map (·.table)
      = l.map (·.table) := by
  apply mapIdxL_table
  intro i m
  by_cases hi : i = k
  · rw [if_pos hi]
    exact hg m
  · rw [if_neg hi]

theorem applyColEffect_table (ms : List MModel) (a b : Nat) (r : ColProcResult) :
    (applyColEffect ms a b r).map (·.table) = ms.map (·.table) := by
  unfold applyColEffect
  cases hr : r.record with
  | none =>
    simp only [hr]
    rw [mapIdxL_if_table]
    intro m
    rfl
  | some p =>
    obtain ⟨desc, tIdx⟩ := p
    simp only [hr]
    rw [mapIdxL_if_table, mapIdxL_if_table, mapIdxL_if_table]
    · intro m; rfl
    · intro m; rfl
    · intro m; rfl

theorem processModelColumns_cons (M : List (String × Nat)) (ms0 : List MModel)
    (mIdx : Nat) (t : String) (cp : Nat × RtCol) (rest : List (Nat × RtCol))
    (st : List MModel × List String × List (String × List String)) :
    processModelColumns M ms0 mIdx t (cp :: rest) st
      = processModelColumns M ms0 mIdx t rest
          (applyColEffect st.1 mIdx cp.1 (processColumn M ms0 t cp.2),
           st.2.1 ++ (processColumn M ms0 t cp.2).errors,
           match (processColumn M ms0 t cp.2).edge with
           | some (u, v) => graphAddEdge st.2.2 u v
           | none => st.2.2) := rfl

theorem pmc_table (M : List (String × Nat)) (ms0 : List MModel) (mIdx : Nat)
    (t : String) :
    ∀ (cols : List (Nat × RtCol)) (st : List MModel × List String × List (String × List String)),
      ((processModelColumns M ms0 mIdx t cols st).1).map (·.table)
        = st.1.map (·.table) := by
  intro cols
  induction cols with
  | nil => intro st; rfl
  | cons cp rest ih =>
    intro st
    rw [processModelColumns_cons, ih]
    exact applyColEffect_table _ _ _ _

/-- The per-model step of the validation loop's outer fold. -/
def collectStep (M : List (String × Nat)) (ms0 : List MModel)
    (st : List MModel × List String × List (String × List String)) (p : Nat × MModel) :
    List MModel × List String × List (String × List String) :=
  processModelColumns M ms0 p.1 p.2.table (idxList p.2.columns) st

theorem collectRelations_eq (models : List MModel) :
    collectRelations models
      = (idxList (models.map (fun m => { m with outgoing := [], incoming := [] }))).foldl
          (collectStep
            (modelIdxByLowerOf (models.map (fun m => { m with outgoing := [], incoming := [] })))
            (models.map (fun m => { m with outgoing := [], incoming := [] })))
          (models.map (fun m => { m with outgoing := [], incoming := [] }), [],
           (relNodes (models.map (fun m => { m with outgoing := [], incoming := [] }))).map
             (fun n => (n, ([] : List String)))) := rfl

theorem collect_table_fold (M : List (String × Nat)) (ms0 : List MModel) :
    ∀ (ps : List (Nat × MModel)) (st : List MModel × List String × List (String × List String)),
      ((ps.foldl (collectStep M ms0) st).1).map (·.table) = st.1.map (·.table) := by
  intro ps
  induction ps with
  | nil => intro st; rfl
  | cons p rest ih =>
    intro st
    rw [List.foldl_cons, ih]
    exact pmc_table _ _ _ _ _ _

theorem map_table_reset (models : List MModel) :
    (models.map (fun m => { m with outgoing := [], incoming := [] })).map (·.table)
      = models.map (·.table) := by
  induction models with
  | nil => rfl
  | cons m rest ih =>
    simp only [List.map_cons, ih]

/-! ### Invariant of the validation loop -/

theorem processModelColumns_spec (nodes : List String) (M : List (String × Nat))
    (ms0 : List MModel) (mIdx : Nat) (t : String)
    (hM : ∀ u, (alGet M u).isSome → u ∈ nodes)
    (ht : jsToLower t ∈ nodes) :
    ∀ (cols : List (Nat × RtCol))
      (st : List MModel × List String × List (String × List String)),
      GState nodes st →
      GState nodes (processModelColumns M ms0 mIdx t cols st) ∧
      (∀ e ∈ st.2.1, e ∈ (processModelColumns M ms0 mIdx t cols st).2.1) ∧
      (∀ a b, edgeIn st.2.2 a b →
        edgeIn (processModelColumns M ms0 mIdx t cols st).2.2 a b) ∧
      (∀ cp ∈ cols,
        (∀ e ∈ (processColumn M ms0 t cp.2).errors,
          e ∈ (processModelColumns M ms0 mIdx t cols st).2.1) ∧
        (∀ u v, (processColumn M ms0 t cp.2).edge = some (u, v) →
          edgeIn (processModelColumns M ms0 mIdx t cols st).2.2 u v)) := by
  intro cols
  induction cols with
  | nil =>
    intro st hst
    exact ⟨hst, fun _ he => he, fun _ _ h => h, by simp⟩
  | cons cp rest ih =>
    intro st hst
    rw [processModelColumns_cons]
    have hG1 : GState nodes
        (applyColEffect st.1 mIdx cp.1 (processColumn M ms0 t cp.2),
         st.2.1 ++ (processColumn M ms0 t cp.2).errors,
         match (processColumn M ms0 t cp.2).edge with
         | some (u, v) => graphAddEdge st.2.2 u v
         | none => st.2.2) := by
      cases he : (processColumn M ms0 t cp.2).edge with
      | none =>
        simp only [he]
        exact hst
      | some e =>
        obtain ⟨u, v⟩ := e
        simp only [he]
        obtain ⟨huv, hvt, _⟩ := processColumn_edge_shape M ms0 t cp.2 u v he
        refine ⟨?_, ?_⟩
        · rw [graphAddEdge_keys]
          exact hst.1
        · exact graphAddEdge_wf st.2.2 nodes u v huv (hvt ▸ ht) hst.2
    obtain ⟨ihG, ihE, ihEdge, ihEstab⟩ := ih _ hG1
    refine ⟨ihG, ?_, ?_, ?_⟩
    · intro e he
      exact ihE e (List.mem_append_left _ he)
    · intro a b hab
      apply ihEdge
      cases he : (processColumn M ms0 t cp.2).edge with
      | none => simpa only [he] using hab
      | some e =>
        obtain ⟨u, v⟩ := e
        simp only [he]
        exact graphAddEdge_mono _ _ _ _ _ hab
    · intro cp' hcp'
      rcases List.mem_cons.mp hcp' with he' | hm'
      · subst he'
        refine ⟨?_, ?_⟩
        · intro e he
          exact ihE e (List.mem_append_right _ he)
        · intro u v huv
          apply ihEdge
          simp only [huv]
          apply graphAddEdge_estab
          rw [hst.1]
          obtain ⟨_, _, hsome⟩ := processColumn_edge_shape M ms0 t cp'.2 u v huv
          exact hM u hsome
      · exact ihEstab cp' hm'

theorem collect_fold_spec (nodes : List String) (M : List (String × Nat))
    (ms0 : List MModel)
    (hM : ∀ u, (alGet M u).isSome → u ∈ nodes) :
    ∀ (ps : List (Nat × MModel))
      (st : List MModel × List String × List (String × List String)),
      (∀ p ∈ ps, jsToLower p.2.table ∈ nodes) →
      GState nodes st →
      GState nodes (ps.foldl (collectStep M ms0) st) ∧
      (∀ e ∈ st.2.1, e ∈ (ps.foldl (collectStep M ms0) st).2.1) ∧
      (∀ a b, edgeIn st.2.2 a b →
        edgeIn (ps.foldl (collectStep M ms0) st).2.2 a b) ∧
      (∀ p ∈ ps, ∀ cp ∈ idxList p.2.columns,
        (∀ e ∈ (processColumn M ms0 p.2.table cp.2).errors,
          e ∈ (ps.foldl (collectStep M ms0) st).2.1) ∧
        (∀ u v, (processColumn M ms0 p.2.table cp.2).edge = some (u, v) →
          edgeIn (ps.foldl (collectStep M ms0) st).2.2 u v)) := by
  intro ps
  induction ps with
  | nil =>
    intro st _ hst
    exact ⟨hst, fun _ he => he, fun _ _ h => h, by simp⟩
  | cons p rest ih =>
    intro st hps hst
    rw [List.foldl_cons]
    have hpt : jsToLower p.2.table ∈ nodes := hps p (List.mem_cons_self _ _)
    obtain ⟨sG, sE, sEdge, sEstab⟩ :=
      processModelColumns_spec nodes M ms0 p.1 p.2.table hM hpt (idxList p.2.columns) st hst
    obtain ⟨ihG, ihE, ihEdge, ihEstab⟩ :=
      ih (collectStep M ms0 st p) (fun q hq => hps q (List.mem_cons_of_mem _ hq)) sG
    refine ⟨ihG, ?_, ?_, ?_⟩
    · intro e he
      exact ihE e (sE e he)
    · intro a b hab
      exact ihEdge a b (sEdge a b hab)
    · intro p' hp'
      rcases List.mem_cons.mp hp' with he' | hm'
      · subst he'
        intro cp hcp
        obtain ⟨cE, cEdge⟩ := sEstab cp hcp
        refine ⟨?_, ?_⟩
        · intro e he
          exact ihE e (cE e he)
        · intro u v huv
          exact ihEdge u v (cEdge u v huv)
      · exact ihEstab p' hm'

/-! ### Bridging the order to the sorted model list -/

theorem filterMap_total_get {α β : Type} (f : α → Option β) :
    ∀ (l : List α), (∀ t ∈ l, (f t).isSome) →
      ∀ i, (l.filterMap f).get? i = (l.get? i).bind f := by
  intro l
  induction l with
  | nil => intro _ i; simp
  | cons a t ih =>
    intro h i
    obtain ⟨b, hb⟩ := Option.isSome_iff_exists.mp (h a (List.mem_cons_self _ _))
    rw [List.filterMap_cons_some hb]
    cases i with
    | zero => simp [hb]
    | succ i =>
      simp only [List.get?_cons_succ]
      exact ih (fun x hx => h x (List.mem_cons_of_mem _ hx)) i

theorem filterMap_total_length {α β : Type} (f : α → Option β) :
    ∀ (l : List α), (∀ t ∈ l, (f t).isSome) →
      (l.filterMap f).length = l.length := by
  intro l
  induction l with
  | nil => intro _; rfl
  | cons a t ih =>
    intro h
    obtain ⟨b, hb⟩ := Option.isSome_iff_exists.mp (h a (List.mem_cons_self _ _))
    rw [List.filterMap_cons_some hb]
    simp only [List.length_cons]
    rw [ih (fun x hx => h x (List.mem_cons_of_mem _ hx))]

theorem indexOf_lt_of_mem_take (l : List String) :
    ∀ (n : Nat) (u : String), u ∈ l.take n → l.indexOf u < n := by
  induction l with
  | nil => intro n u h; simp at h
  | cons a t ih =>
    intro n u h
    cases n with
    | zero => simp at h
    | succ n =>
      rw [List.take_succ_cons] at h
      by_cases hu : u = a
      · rw [hu, List.indexOf_cons_self]
        exact Nat.succ_pos n
      · have hut : u ∈ t.take n := by
          rcases List.mem_cons.mp h with he | hm
          · exact absurd he hu
          · exact hm
        rw [List.indexOf_cons_ne _ (fun he => hu he.symm)]
        exact Nat.succ_lt_succ (ih n u hut)

theorem getElem_indexOf_mem (l : List String) (w : String) (h : w ∈ l) :
    ∃ hlt : l.indexOf w < l.length, l.get ⟨l.indexOf w, hlt⟩ = w := by
  induction l with
  | nil => simp at h
  | cons a t ih =>
    by_cases hw : w = a
    · subst hw
      have h0 : (w :: t).indexOf w = 0 := List.indexOf_cons_self _ _
      refine ⟨?_, ?_⟩
      · rw [h0]
        exact Nat.succ_pos _
      · simp [h0]
    · have hwt : w ∈ t := by
        rcases List.mem_cons.mp h with he | hm
        · exact absurd he hw
        · exact hm
      obtain ⟨hlt, hget⟩ := ih hwt
      rw [List.indexOf_cons_ne _ (fun he => hw he.symm)]
      exact ⟨Nat.succ_lt_succ hlt, hget⟩

theorem chain_lt_of_chain {R : String → String → Prop} (pos : String → Nat)
    (hR : ∀ a b, R a b → pos a < pos b) :
    ∀ (p : List String) (a v : String), List.Chain R a (p ++ [v]) → pos a < pos v := by
  intro p
  induction p with
  | nil =>
    intro a v h
    rw [List.nil_append] at h
    rcases List.chain_cons.mp h with ⟨hab, _⟩
    exact hR _ _ hab
  | cons b t ih =>
    intro a v h
    rw [List.cons_append] at h
    rcases List.chain_cons.mp h with ⟨hab, hrest⟩
    exact Nat.lt_trans (hR _ _ hab) (ih b v hrest)

theorem mem_of_subset_nodup_length (l1 l2 : List String)
    (hnd : l1.Nodup) (hsub : ∀ x ∈ l1, x ∈ l2) (hlen : l2.length ≤ l1.length) :
    ∀ x ∈ l2, x ∈ l1 := by
  have hsp : List.Subperm l1 l2 := hnd.subperm hsub
  have hperm : l1.Perm l2 := hsp.perm_of_length_le hlen
  intro x hx
  exact hperm.mem_iff.mpr hx

theorem map_fst_mkpair {α : Type} (c : α) (l : List String) :
    (l.map (fun n => (n, c))).map (·.1) = l := by
  induction l with
  | nil => rfl
  | cons n rest ih => simp only [List.map_cons, ih]

theorem kahn_edge_before (graph : List (String × List String)) (nodes : List String)
    (wf : GraphWF graph nodes) (order : List String)
    (horder : order = kahnLoop graph (kahnFuel nodes graph)
      (((buildInDeg nodes graph).filter (fun p => p.2 = 0)).map (·.1))
      (buildInDeg nodes graph) []) :
    (∀ i (hi : i < order.length),
      ∀ u ∈ inNbrs graph (order.get ⟨i, hi⟩), u ∈ order.take i) ∧
    order.Nodup ∧ (∀ v ∈ order, v ∈ nodes) := by
  obtain ⟨h1, h2, h3⟩ := kahnLoop_spec graph nodes wf (kahnFuel nodes graph)
    (((buildInDeg nodes graph).filter (fun p => p.2 = 0)).map (·.1))
    (buildInDeg nodes graph) [] (kahnInit_inv graph nodes wf)
  rw [horder]
  exact ⟨h1, h2, h3⟩

theorem order_pos_of_edge (graph : List (String × List String)) (nodes : List String)
    (wf : GraphWF graph nodes) (order : List String)
    (horder : order = kahnLoop graph (kahnFuel nodes graph)
      (((buildInDeg nodes graph).filter (fun p => p.2 = 0)).map (·.1))
      (buildInDeg nodes graph) [])
    (u v : String) (hedge : edgeIn graph u v)
    (i j : Nat) (hi : i < order.length) (hj : j < order.length)
    (hvi : order.get ⟨i, hi⟩ = v) (huj : order.get ⟨j, hj⟩ = u) : j < i := by
  obtain ⟨hpre, hnd, _⟩ := kahn_edge_before graph nodes wf order horder
  have hu_in : u ∈ inNbrs graph v := (mem_inNbrs_iff graph u v).mpr hedge
  have htake : u ∈ order.take i := hpre i hi u (by rw [hvi]; exact hu_in)
  obtain ⟨⟨k, hk⟩, hke⟩ := List.mem_iff_get.mp htake
  have hki : k < i := lt_of_lt_of_le hk (by simpa using List.length_take_le i order)
  have hkl : k < order.length := Nat.lt_trans hki hi
  have hgetk : order.get ⟨k, hkl⟩ = u := by
    rw [← hke]
    rw [List.get_eq_getElem, List.get_eq_getElem, List.getElem_take]
  have hfin : (⟨k, hkl⟩ : Fin order.length) = ⟨j, hj⟩ := by
    apply (List.Nodup.get_inj_iff hnd).mp
    rw [hgetk, huj]
  have hkj : k = j := by
    have := congrArg Fin.val hfin
    simpa using this
  omega

theorem kahn_cycle_incomplete (graph : List (String × List String)) (nodes : List String)
    (wf : GraphWF graph nodes) (order : List String)
    (horder : order = kahnLoop graph (kahnFuel nodes graph)
      (((buildInDeg nodes graph).filter (fun p => p.2 = 0)).map (·.1))
      (buildInDeg nodes graph) [])
    (hcyc : ∃ v p, List.Chain (edgeIn graph) v (p ++ [v])) :
    order.length ≠ nodes.length := by
  intro hlen
  obtain ⟨v, p, hchain⟩ := hcyc
  obtain ⟨hpre, hnd, hsub⟩ := kahn_edge_before graph nodes wf order horder
  have hcomp : ∀ x ∈ nodes, x ∈ order :=
    mem_of_subset_nodup_length order nodes hnd hsub (le_of_eq hlen.symm)
  have hstep : ∀ a b, edgeIn graph a b → order.indexOf a < order.indexOf b := by
    intro a b hab
    have hbn : b ∈ nodes := by
      obtain ⟨outs, hm, hbo⟩ := hab
      exact wf.succSub _ hm b hbo
    have hbo : b ∈ order := hcomp b hbn
    obtain ⟨hlt, hget⟩ := getElem_indexOf_mem order b hbo
    have hain : a ∈ inNbrs graph b := (mem_inNbrs_iff graph a b).mpr hab
    have htk : a ∈ order.take (order.indexOf b) :=
      hpre (order.indexOf b) hlt a (by rw [hget]; exact hain)
    exact indexOf_lt_of_mem_take order _ a htk
  have := chain_lt_of_chain (fun x => order.indexOf x) hstep p v v hchain
  omega

/-- The reference-validation loop yields a well-formed graph over the node
list, preserves the model table sequence, and records every emitted column
error and dependency edge. -/
theorem collectRelations_spec (models : List MModel) :
    GraphWF (collectRelations models).2.2 (relNodes models) ∧
    ((collectRelations models).1).map (·.table) = models.map (·.table) ∧
    (∀ mi ∈ models, ∀ col ∈ mi.columns,
      (∀ e ∈ (processColumn
          (modelIdxByLowerOf (models.map (fun m => { m with outgoing := [], incoming := [] })))
          (models.map (fun m => { m with outgoing := [], incoming := [] }))
          mi.table col).errors,
        e ∈ (collectRelations models).2.1) ∧
      (∀ u v, (processColumn
          (modelIdxByLowerOf (models.map (fun m => { m with outgoing := [], incoming := [] })))
          (models.map (fun m => { m with outgoing := [], incoming := [] }))
          mi.table col).edge = some (u, v) →
        edgeIn (collectRelations models).2.2 u v)) := by
  set ms0 := models.map (fun m => { m with outgoing := [], incoming := [] }) with hms0
  have hM : ∀ u, (alGet (modelIdxByLowerOf ms0) u).isSome → u ∈ relNodes models := by
    intro u hu
    obtain ⟨idx, hidx⟩ := Option.isSome_iff_exists.mp hu
    have hkey := alGet_some_key _ _ _ hidx
    have hent := jsMapOfEntries_keys _ _ hkey
    rw [List.map_map] at hent
    obtain ⟨p, hp, hpe⟩ := List.mem_map.mp hent
    have hpt : jsToLower p.2.table = u := hpe
    have hmem : p.2 ∈ ms0 := mem_idxList_snd p _ hp
    rw [← relNodes_reset models]
    exact (mem_relNodes ms0 u).mpr ⟨p.2, hmem, hpt⟩
  have hps : ∀ p ∈ idxList ms0, jsToLower p.2.table ∈ relNodes models := by
    intro p hp
    have hmem : p.2 ∈ ms0 := mem_idxList_snd p _ hp
    rw [← relNodes_reset models]
    exact (mem_relNodes ms0 _).mpr ⟨p.2, hmem, rfl⟩
  have hG0 : GState (relNodes models)
      (ms0, [], (relNodes ms0).map (fun n => (n, ([] : List String)))) := by
    refine ⟨?_, ?_⟩
    · rw [map_fst_mkpair]
      exact relNodes_reset models
    · intro p hp
      obtain ⟨n, _, hpe⟩ := List.mem_map.mp hp
      refine ⟨?_, ?_, ?_⟩ <;> rw [← hpe]
      · exact List.nodup_nil
      · exact List.not_mem_nil n
      · intro v hv
        simp at hv
  obtain ⟨hGf, _, _, hEstab⟩ := collect_fold_spec (relNodes models)
    (modelIdxByLowerOf ms0) ms0 hM (idxList ms0)
    (ms0, [], (relNodes ms0).map (fun n => (n, ([] : List String)))) hps hG0
  refine ⟨?_, ?_, ?_⟩
  · rw [collectRelations_eq]
    exact { keysNodup := by rw [hGf.1]; exact relNodes_nodup models
            succNodup := fun p hp => (hGf.2 p hp).1
            noSelf := fun p hp => (hGf.2 p hp).2.1
            keysSub := fun p hp => by rw [← hGf.1]; exact List.mem_map_of_mem _ hp
            succSub := fun p hp => (hGf.2 p hp).2.2
            nodesNodup := relNodes_nodup models }
  · rw [collectRelations_eq, collect_table_fold]
    exact map_table_reset models
  · intro mi hmi col hcol
    have hmi0 : ({ mi with outgoing := [], incoming := [] } : MModel) ∈ ms0 :=
      List.mem_map_of_mem _ hmi
    obtain ⟨iM, hiM⟩ := mem_idxList_of_mem _ _ hmi0
    obtain ⟨jC, hjC⟩ := mem_idxList_of_mem _ _ hcol
    have hres := hEstab (iM, { mi with outgoing := [], incoming := [] }) hiM (jC, col) hjC
    rw [collectRelations_eq]
    exact hres

/-- C6: in the model order produced by `validateAndSortModels`, for every
non-self ONE-TO-ONE or ONE-TO-MANY reference from a source model to a target
model, the target appears strictly before the source in the returned sorted
list; and when the reference validation itself passes but the dependency
graph contains a cycle, the function returns the cyclic-relations error and
a null order. -/
theorem claim6 (models : List MModel) :
    (∀ sortedList, (validateAndSortModels models).sorted = some sortedList →
      ∀ mi ∈ models, ∀ col ∈ mi.columns, ∀ ref, col.references = some ref →
        (normalizeRelation ref.relation = some "ONE-TO-ONE" ∨
         normalizeRelation ref.relation = some "ONE-TO-MANY") →
        jsToLower ref.table ≠ jsToLower mi.table →
        ∀ i j (hi : i < sortedList.length) (hj : j < sortedList.length),
          jsToLower (sortedList.get ⟨i, hi⟩).table = jsToLower mi.table →
          jsToLower (sortedList.get ⟨j, hj⟩).table = jsToLower ref.table →
          j < i) ∧
    ((collectRelations models).2.1 = [] →
      (∃ v p, List.Chain (edgeIn (collectRelations models).2.2) v (p ++ [v])) →
      validateAndSortModels models
        = { errors := [cyclicRelationsMsg], infos := [], sorted := none }) := by
  obtain ⟨hwf, htab, hcols⟩ := collectRelations_spec models
  constructor
  · intro sortedList hsorted mi hmi col hcol ref href hrel hns i j hi hj hti htj
    simp only [validateAndSortModels] at hsorted
    by_cases herr : (collectRelations models).2.1 = []
    · rw [if_neg (by simp [herr])] at hsorted
      set graph := (collectRelations models).2.2 with hg
      set nodes := relNodes models with hn
      set inDeg := buildInDeg nodes graph with hdeg
      set q0 := (inDeg.filter (fun p => p.2 = 0)).map (·.1) with hq0
      set order := kahnLoop graph (kahnFuel nodes graph) q0 inDeg [] with ho
      have horder2 : order = kahnLoop graph (kahnFuel nodes graph)
          (((buildInDeg nodes graph).filter (fun p => p.2 = 0)).map (·.1))
          (buildInDeg nodes graph) [] := by
        rw [ho, hq0, hdeg]
      by_cases hlen : order.length ≠ nodes.length
      · rw [if_pos hlen] at hsorted
        exact absurd hsorted (by simp)
      · rw [if_neg hlen] at hsorted
        have hsl : order.filterMap
            (fun t => (collectRelations models).1.find? (fun m => jsToLower m.table = t))
              = sortedList := Option.some_inj.mp hsorted
        obtain ⟨hpre, hnd, hsub⟩ := kahn_edge_before graph nodes hwf order horder2
        have hftotal : ∀ t ∈ order,
            ((collectRelations models).1.find? (fun m => jsToLower m.table = t)).isSome := by
          intro t htO
          have htn : t ∈ nodes := hsub t htO
          rw [hn] at htn
          obtain ⟨m, hmM, hme⟩ := (mem_relNodes models t).mp htn
          have hmt : m.table ∈ ((collectRelations models).1).map (·.table) := by
            rw [htab]
            exact List.mem_map_of_mem _ hmM
          obtain ⟨m2, hm2, hm2e⟩ := List.mem_map.mp hmt
          rw [List.find?_isSome]
          refine ⟨m2, hm2, ?_⟩
          have : jsToLower m2.table = t := by rw [hm2e, hme]
          simp [this]
        have hslen : sortedList.length = order.length := by
          rw [← hsl]
          exact filterMap_total_length _ order hftotal
        have hi2 : i < order.length := by omega
        have hj2 : j < order.length := by omega
        have hposs : ∀ (k : Nat) (hk : k < sortedList.length) (hk2 : k < order.length),
            (collectRelations models).1.find?
              (fun m => jsToLower m.table = order.get ⟨k, hk2⟩)
                = some (sortedList.get ⟨k, hk⟩) := by
          intro k hk hk2
          have h1 := filterMap_total_get _ order hftotal k
          rw [hsl] at h1
          rw [List.get?_eq_get hk, List.get?_eq_get hk2] at h1
          simpa using h1.symm
        have hfi := hposs i hi hi2
        have hfj := hposs j hj hj2
        have hti2 : jsToLower (sortedList.get ⟨i, hi⟩).table = order.get ⟨i, hi2⟩ := by
          have := List.find?_some hfi
          simpa using this
        have htj2 : jsToLower (sortedList.get ⟨j, hj⟩).table = order.get ⟨j, hj2⟩ := by
          have := List.find?_some hfj
          simpa using this
        have hovi : order.get ⟨i, hi2⟩ = jsToLower mi.table := hti2.symm.trans hti
        have hovj : order.get ⟨j, hj2⟩ = jsToLower ref.table := htj2.symm.trans htj
        obtain ⟨hcolErr, hcolEdge⟩ := hcols mi hmi col hcol
        have herrcol : (processColumn
            (modelIdxByLowerOf (models.map (fun m => { m with outgoing := [], incoming := [] })))
            (models.map (fun m => { m with outgoing := [], incoming := [] }))
            mi.table col).errors = [] := by
          apply List.eq_nil_iff_forall_not_mem.mpr
          intro e he
          have hmem := hcolErr e he
          rw [herr] at hmem
          exact absurd hmem (List.not_mem_nil e)
        have hedge0 := processColumn_success_edge _ _ mi.table col ref href hrel hns herrcol
        have hedge : edgeIn graph (jsToLower ref.table) (jsToLower mi.table) := by
          rw [hg]
          exact hcolEdge _ _ hedge0
        exact order_pos_of_edge graph nodes hwf order horder2 _ _ hedge
          i j hi2 hj2 hovi hovj
    · rw [if_pos herr] at hsorted
      exact absurd hsorted (by simp)
  · intro herr hcyc
    simp only [validateAndSortModels]
    set graph := (collectRelations models).2.2 with hg
    set nodes := relNodes models with hn
    set inDeg := buildInDeg nodes graph with hdeg
    set q0 := (inDeg.filter (fun p => p.2 = 0)).map (·.1) with hq0
    set order := kahnLoop graph (kahnFuel nodes graph) q0 inDeg [] with ho
    have horder2 : order = kahnLoop graph (kahnFuel nodes graph)
        (((buildInDeg nodes graph).filter (fun p => p.2 = 0)).map (·.1))
        (buildInDeg nodes graph) [] := by
      rw [ho, hq0, hdeg]
    have hlenne : order.length ≠ nodes.length :=
      kahn_cycle_incomplete graph nodes hwf order horder2 hcyc
    rw [if_neg (by simp [herr]), if_pos hlenne]

/-- Demo model `a` with a ONE-TO-MANY reference to `b.id`. -/
def relDemoA : MModel :=
  { table := "a",
    columns := [{ name := "b_id", type := "UUID",
                  references := some { table := "b", column := "id",
                                       relation := some "one-to-many" } }] }

/-- Demo model `b`, the reference target. -/
def relDemoB : MModel :=
  { table := "b", columns := [{ name := "id", type := "UUID" }] }

/-- Demo model `c1` of a two-model reference cycle. -/
def relDemoC1 : MModel :=
  { table := "c1",
    columns := [{ name := "c2_id", type := "UUID",
                  references := some { table := "c2", column := "id",
                                       relation := some "one-to-one" } },
                { name := "id", type := "UUID" }] }

/-- Demo model `c2` of a two-model reference cycle. -/
def relDemoC2 : MModel :=
  { table := "c2",
    columns := [{ name := "c1_id", type := "UUID",
                  references := some { table := "c1", column := "id",
                                       relation := some "one-to-one" } },
                { name := "id", type := "UUID" }] }

/-- Witness for C6 at concrete inputs: on `[a → b]` the order exists and the
target `b` (index 0) precedes the source `a` (index 1); on the two-model
cycle the cyclic-relations record is returned. -/
theorem claim6_witness :
    (validateAndSortModels [relDemoA, relDemoB]).sorted
      = some ((validateAndSortModels [relDemoA, relDemoB]).sorted.getD []) ∧
    (0 : Nat) < 1 ∧
    validateAndSortModels [relDemoC1, relDemoC2]
      = { errors := [cyclicRelationsMsg], infos := [], sorted := none } := by
  refine ⟨by rfl, ?_, ?_⟩
  · exact (claim6 [relDemoA, relDemoB]).1
      ((validateAndSortModels [relDemoA, relDemoB]).sorted.getD []) (by rfl)
      relDemoA (List.mem_cons_self _ _)
      { name := "b_id", type := "UUID",
        references := some { table := "b", column := "id",
                             relation := some "one-to-many" } }
      (List.mem_cons_self _ _)
      { table := "b", column := "id", relation := some "one-to-many" } (by rfl)
      (Or.inr (by rfl))
      (by decide)
      1 0 (by decide) (by decide)
      (by rfl) (by rfl)
  · exact (claim6 [relDemoC1, relDemoC2]).2 (by rfl)
      ⟨"c1", ["c2"],
        List.Chain.cons ⟨["c2"], by decide, by decide⟩
          (List.Chain.cons ⟨["c1"], by decide, by decide⟩ List.Chain.nil)⟩

/-! ## Model runtime creation: `morm/model.ts` `createModelRuntime`

The DB-independent part of `createModelRuntime`: enum setup and conflict
detection, the column validation loop, and the CREATE TABLE SQL that the
`migrate` closure later executes when the table does not exist.  The JS
`Date.parse` oracle of `isISODateString` is passed in as `dateParse`. -/

/-- Is the value a JS number (`typeof v === "number"`). -/
def isJsNumber : JSVal → Bool
  | .int _ => true
  | .float _ => true
  | _ => false

/-- `typeof v === "number" && Number.isInteger(v)` (`isWholeNumber`). -/
def isWholeNumber : JSVal → Bool
  | .int _ => true
  | _ => false

/-- `typeof v === "boolean"`. -/
def isJsBool : JSVal → Bool
  | .boolean _ => true
  | _ => false

/-- `typeof v === "object"` (true for `null`, arrays and plain objects). -/
def isJsObjectTypeof : JSVal → Bool
  | .null => true
  | .arr _ => true
  | .obj _ => true
  | _ => false

/-- `Array.isArray(v)`. -/
def isJsArray : JSVal → Bool
  | .arr _ => true
  | _ => false

/-- Hexadecimal digit (element class of the `isUuidLiteral` regex, `/i`). -/
def isUuidHexDigit (c : Char) : Bool :=
  isDigitC c ∨ (97 ≤ c.toNat ∧ c.toNat ≤ 102) ∨ (65 ≤ c.toNat ∧ c.toNat ≤ 70)

/-- `isUuidLiteral` of `defaultValidator.ts`: the anchored dashed 8-4-4-4-12
hex shape, case-insensitive. -/
def isUuidLiteral (s : String) : Bool :=
  let l := s.data
  l.length = 36 &&
    (List.range 36).all (fun i =>
      match l.get? i with
      | some c =>
        if i = 8 ∨ i = 13 ∨ i = 18 ∨ i = 23 then c = '-' else isUuidHexDigit c
      | none => false)

/-- Regex `^-?\d+$` on a character list. -/
def isIntLit (l : List Char) : Bool :=
  let l2 := if l.head? = some '-' then l.tail else l
  decide (l2 ≠ []) && l2.all isDigitC

/-- Anchored regex `^\w+\s*\(.*\)$`: word characters, optional whitespace,
then a parenthesised stretch with no line terminator, ending the string. -/
def funcLikeAnchored (s : String) : Bool :=
  let l := s.data
  let w := l.takeWhile isWordChar
  decide (w ≠ []) &&
    (match (l.drop w.length).dropWhile isJsSpace with
     | '(' :: mid =>
       match mid.reverse with
       | ')' :: rev => rev.all (fun c => !(c = '\n' ∨ c = '\r'))
       | _ => false
     | _ => false)

/-- Regex `^\d{4}-\d{2}-\d{2}$`. -/
def isDateShape (s : String) : Bool :=
  match s.data with
  | [a, b, c, d, '-', e, f, '-', g, h] => [a, b, c, d, e, f, g, h].all isDigitC
  | _ => false

/-- One array element of the base-type-array branch of
`validateDefaultValue`. -/
def validateArrayElem (dateParse : String → Bool) (cname : String)
    (canonicalBase : String) (el : JSVal) : List String :=
  if canonicalBase = "TEXT" then
    match el with
    | .str s =>
      if funcLikeAnchored (jsTrim s) then
        [colorsRed ++ colorsBold ++ "MORM ERROR: TEXT[] element cannot be function-like \"" ++
          s ++ "\" in \"" ++ cname ++ "\"." ++ colorsReset]
      else []
    | _ =>
      [colorsRed ++ colorsBold ++ "MORM ERROR: TEXT[] element invalid in \"" ++ cname ++
        "\". Must be string." ++ colorsReset]
  else if canonicalBase = "INT" ∨ canonicalBase = "INTEGER" ∨
      canonicalBase = "SMALLINT" ∨ canonicalBase = "BIGINT" then
    if isWholeNumber el ||
        (match el with | .str s => isIntLit s.data | _ => false) then []
    else
      [colorsRed ++ colorsBold ++ "MORM ERROR: INT[] element \"" ++ jsString el ++
        "\" invalid in \"" ++ cname ++ "\". Must be whole number or whole-number string." ++
        colorsReset]
  else if canonicalBase = "UUID" then
    match el with
    | .str s =>
      if isUuidLiteral s then []
      else [colorsRed ++ colorsBold ++ "MORM ERROR: UUID[] element \"" ++ s ++
        "\" invalid in \"" ++ cname ++ "\"." ++ colorsReset]
    | _ =>
      [colorsRed ++ colorsBold ++ "MORM ERROR: UUID[] element \"" ++ jsString el ++
        "\" invalid in \"" ++ cname ++ "\"." ++ colorsReset]
  else if canonicalBase = "BOOLEAN" then
    if isJsBool el then []
    else [colorsRed ++ colorsBold ++ "MORM ERROR: BOOLEAN[] element \"" ++ jsString el ++
      "\" invalid in \"" ++ cname ++ "\". Must be true/false." ++ colorsReset]
  else if canonicalBase = "JSON" ∨ canonicalBase = "JSONB" then
    if isJsObjectTypeof el || el.isStr then []
    else [colorsRed ++ colorsBold ++ "MORM ERROR: JSON/JSONB[] element \"" ++ jsString el ++
      "\" invalid in \"" ++ cname ++ "\". Must be object or JSON string." ++ colorsReset]
  else if canonicalBase = "TIMESTAMP" ∨ canonicalBase = "TIME" then
    if (match el with | .str s => dateParse s | _ => false) then []
    else [colorsRed ++ colorsBold ++ "MORM ERROR: " ++ canonicalBase ++ "[] element \"" ++
      jsString el ++ "\" invalid in \"" ++ cname ++
      "\". Must be ISO time/date without timezone." ++ colorsReset]
  else if canonicalBase = "TIMESTAMPTZ" ∨ canonicalBase = "TIMEZ" then
    if (match el with | .str s => dateParse s | _ => false) then []
    else [colorsRed ++ colorsBold ++ "MORM ERROR: " ++ canonicalBase ++ "[] element \"" ++
      jsString el ++ "\" invalid in \"" ++ cname ++ "\". Must include timezone." ++ colorsReset]
  else if canonicalBase = "DATE" then
    if (match el with | .str s => isDateShape s || dateParse s | _ => false) then []
    else [colorsRed ++ colorsBold ++ "MORM ERROR: DATE[] element \"" ++ jsString el ++
      "\" invalid in \"" ++ cname ++ "\". Must be YYYY-MM-DD." ++ colorsReset]
  else []

/-- Embedding of `validateDefaultValue` from `utils/defaultValidator.ts`. -/
def validateDefaultValue (dateParse : String → Bool) (c : RtCol)
    (canonicalBase : String) (isArray : Bool)
    (enumName : Option String) (enumValuesLower : Option (List String)) : List String :=
  let defRaw := c.default
  if defRaw.isUndef || defRaw.isNull then []
  else
    let defLowerStr : Option String :=
      match defRaw with
      | .str s => some (jsToLower (jsTrim s))
      | _ => none
    if isArray then
      match defRaw with
      | .arr elems =>
        if checkTruthy enumName then
          elems.flatMap (fun el =>
            if (match enumValuesLower with
                | some vs => vs.contains (jsToLower (jsString el))
                | none => false) then []
            else
              [colorsRed ++ colorsBold ++ "MORM ERROR: \"" ++ jsString el ++
                "\" is not valid for enum-array \"" ++ c.name ++ "\"." ++ colorsReset])
        else
          elems.flatMap (validateArrayElem dateParse c.name canonicalBase)
      | _ =>
        [colorsRed ++ colorsBold ++ "MORM ERROR: default for array column \"" ++ c.name ++
          "\" must be an array." ++ colorsReset]
    else
      let isUuidFunc := defLowerStr = some "uuid()"
      let isIntFunc := defLowerStr = some "int()"
      let isNow := defLowerStr = some "now()" ∨ defLowerStr = some "current_timestamp"
      let isCurrentDate := defLowerStr = some "current_date"
      if checkTruthy enumName then
        if (match enumValuesLower with
            | some vs => vs.contains (jsToLower (jsString defRaw))
            | none => false) then []
        else
          [colorsRed ++ colorsBold ++ "MORM ERROR: default \"" ++ jsString defRaw ++
            "\" invalid for enum \"" ++ enumName.getD "" ++ "\"." ++ colorsReset]
      else if canonicalBase = "UUID" then
        if isUuidFunc then []
        else if (match defRaw with | .str s => isUuidLiteral s | _ => false) then []
        else
          [colorsRed ++ colorsBold ++ "MORM ERROR: default for UUID \"" ++ c.name ++
            "\" must be uuid() or valid UUID." ++ colorsReset]
      else if canonicalBase = "INT" ∨ canonicalBase = "INTEGER" ∨
          canonicalBase = "SMALLINT" ∨ canonicalBase = "BIGINT" then
        if isIntFunc then []
        else if isJsNumber defRaw then
          if isWholeNumber defRaw then []
          else
            [colorsRed ++ colorsBold ++ "MORM ERROR: default for \"" ++ c.name ++
              "\" must be whole number or int()." ++ colorsReset]
        else
          match defRaw with
          | .str s =>
            if isIntLit (trimChars s.data) then []
            else
              [colorsRed ++ colorsBold ++ "MORM ERROR: default for \"" ++ c.name ++
                "\" must be whole number string or int()." ++ colorsReset]
          | _ =>
            [colorsRed ++ colorsBold ++ "MORM ERROR: default for \"" ++ c.name ++
              "\" must be number, numeric string, or int()." ++ colorsReset]
      else if canonicalBase = "NUMERIC" ∨ canonicalBase = "DECIMAL" then
        if isJsNumber defRaw ||
            (match defRaw with | .str s => isDecimalLit (trimChars s.data) | _ => false) then []
        else
          [colorsRed ++ colorsBold ++ "MORM ERROR: default for DECIMAL/NUMERIC \"" ++ c.name ++
            "\" must be a number or numeric string." ++ colorsReset]
      else if canonicalBase = "BOOLEAN" then
        if isJsBool defRaw then []
        else
          [colorsRed ++ colorsBold ++ "MORM ERROR: default for BOOLEAN \"" ++ c.name ++
            "\" must be true/false." ++ colorsReset]
      else if canonicalBase = "TEXT" then
        match defRaw with
        | .str s =>
          if funcLikeAnchored (jsToLower (jsTrim s)) then
            [colorsRed ++ colorsBold ++ "MORM ERROR: TEXT column \"" ++ c.name ++
              "\" cannot use function defaults like " ++ s ++ "." ++ colorsReset]
          else []
        | _ =>
          [colorsRed ++ colorsBold ++ "MORM ERROR: default for TEXT \"" ++ c.name ++
            "\" must be a string." ++ colorsReset]
      else if canonicalBase = "JSON" ∨ canonicalBase = "JSONB" then
        if defRaw.isStr || isJsObjectTypeof defRaw then []
        else
          [colorsRed ++ colorsBold ++ "MORM ERROR: default for JSON/JSONB \"" ++ c.name ++
            "\" must be object or JSON string." ++ colorsReset]
      else if canonicalBase = "TIME" ∨ canonicalBase = "TIMESTAMP" then
        if isNow then []
        else if (match defRaw with | .str s => dateParse s | _ => false) then []
        else
          [colorsRed ++ colorsBold ++ "MORM ERROR: default for " ++ canonicalBase ++ " \"" ++
            c.name ++ "\" must be ISO date/time or now()." ++ colorsReset]
      else if canonicalBase = "TIMEZ" ∨ canonicalBase = "TIMESTAMPTZ" then
        if isNow then []
        else if (match defRaw with | .str s => dateParse s | _ => false) then []
        else
          [colorsRed ++ colorsBold ++ "MORM ERROR: default for " ++ canonicalBase ++ " \"" ++
            c.name ++ "\" must include timezone or use now()." ++ colorsReset]
      else if canonicalBase = "DATE" then
        if isCurrentDate then []
        else if (match defRaw with
            | .str s => isDateShape s || dateParse s
            | _ => false) then []
        else
          [colorsRed ++ colorsBold ++ "MORM ERROR: default for DATE \"" ++ c.name ++
            "\" must be YYYY-MM-DD, current_date, or now()." ++ colorsReset]
      else []

/-- Declared enum of a model config (`config.enums` element); `values`
defaults to the `e.values ?? []` fallback. -/
structure EnumDef where
  name : String
  values : List String := []
deriving Repr, DecidableEq

/-- Result of `createModelRuntime` (the DB-independent fields: the processed
columns, the enum DDL, and the `sql.create` / `sql.columns` strings). -/
structure ModelRuntime where
  table : String
  columns : List RtCol := []
  indexes : List String := []
  enumSqls : List String := []
  create : String := ""
  columnsSql : String := ""
  validationMessages : List String := []
deriving Repr

/-- `ALLOWED_SCALAR` of `createModelRuntime`. -/
def allowedScalar : List String :=
  ["INT", "INTEGER", "TEXT", "UUID", "BOOLEAN", "JSON", "JSONB",
   "TIMESTAMP", "TIMESTAMPTZ", "DATE", "TIME", "TIMETZ", "DECIMAL"]

/-- The enum-creation DDL pushed per declared enum (exact template of the
source, using the user-cased name). -/
def enumCreateSql (name : String) (values : List String) : String :=
  "DO $$ BEGIN\n        IF NOT EXISTS (SELECT 1 FROM pg_type WHERE LOWER(typname) = LOWER(\x27" ++
    name ++ "\x27) ) THEN\n          CREATE TYPE \"" ++ name ++ "\" AS ENUM (" ++
    String.intercalate ", " (values.map (fun v => "\x27" ++ escapeLiteral v ++ "\x27")) ++
    ");\n        END IF;\n      END $$;"

/-- The per-column body of the validation loop of `createModelRuntime`:
returns the mutated column and the messages it pushed. -/
def validateModelColumn (dateParse : String → Bool)
    (enumDefsByName : List (String × List String))
    (enumValsLowerByName : List (String × List String)) (c : RtCol) :
    RtCol × List String :=
  let c1 := { c with __primary := c.primary }
  let t := jsTrim c.type
  let upper := jsToUpper t
  let isArray := typeEndsArray upper
  let base := if isArray then dropRight2 upper else upper
  let enumExactNameRaw := c.type
  let enumKeyForThisCol := jsToLower c.type
  let enumKeyBase := stripArraySuffix enumKeyForThisCol
  let enumExistsExact := (alGet enumDefsByName enumKeyForThisCol).isSome ||
    (isArray && (alGet enumDefsByName enumKeyBase).isSome)
  let canonicalBase := canonicalTypeModel base
  if ¬ enumExistsExact ∧ ¬ allowedScalar.contains canonicalBase then
    (c1, [colorsRed ++ colorsBold ++ "MORM ERROR: column \"" ++ c1.name ++
      "\" has unknown type \"" ++ c.type ++ "\"." ++ colorsReset])
  else
    let isEnumType := (alGet enumDefsByName enumKeyForThisCol).isSome && !isArray
    let c2 := { c1 with
      __isEnumType := isEnumType,
      __isArray := isArray,
      __arrayInner := if isArray then some base else none,
      __enumKey := if isEnumType then some enumKeyForThisCol else none }
    let defaultErrors :=
      if ¬ c2.default.isUndef ∧ ¬ c2.default.isNull then
        validateDefaultValue dateParse c2 canonicalBase isArray
          (if isEnumType then some enumExactNameRaw else none)
          (if isEnumType then alGet enumValsLowerByName enumKeyForThisCol else none)
      else []
    if defaultErrors ≠ [] then (c2, defaultErrors)
    else
      let checkErrs :=
        if checkTruthy c2.check ∧ c2.references = none then
          match parseCheck (c2.check.getD "") with
          | .error msg =>
            [colorsRed ++ colorsBold ++ "MORM ERROR: invalid CHECK on \"" ++ c2.name ++
              "\": " ++ msg ++ colorsReset]
          | .ok _ => []
        else []
      let relErrs :=
        match c2.references with
        | some ref =>
          match ref.relation with
          | some rel0 =>
            if rel0 = "" then []
            else
              let rel := jsToUpper rel0
              if rel = "MANY-TO-MANY" ∧ ¬ c2.__isArray then
                [colorsRed ++ colorsBold ++ "MORM ERROR: MANY-TO-MANY relation on column \"" ++
                  c2.name ++ "\" requires an array type (e.g. UUID[]). Found: " ++ c2.type ++
                  "." ++ colorsReset]
              else if (rel = "ONE-TO-ONE" ∨ rel = "ONE-TO-MANY") ∧ c2.__isArray then
                [colorsRed ++ colorsBold ++ "MORM ERROR: " ++ rel ++ " relation on column \"" ++
                  c2.name ++ "\" cannot use an array type. Found: " ++ c2.type ++ "." ++
                  colorsReset]
              else []
          | none => []
        | none => []
      (c2, checkErrs ++ relErrs)

/-- Embedding of `createModelRuntime` from `morm/model.ts`: enum setup,
enum conflict detection, timestamp auto-add, the column validation loop,
and the CREATE TABLE SQL.  Crucially, `sql.create` is rendered from the
processed columns at model-creation time, before the relation validator of
the global migrate marks MANY-TO-MANY columns `__virtual`. -/
def createModelRuntime (dateParse : String → Bool) (table : String)
    (columns : List RtCol) (indexes : List String)
    (enums : Option (List EnumDef)) : ModelRuntime :=
  let enumSqls :=
    match enums with
    | some es => es.map (fun e => enumCreateSql e.name e.values)
    | none => []
  let enumDefsByName :=
    match enums with
    | some es => es.foldl (fun m e => alSet m (jsToLower e.name) e.values) []
    | none => []
  let enumValsLowerByName :=
    match enums with
    | some es => es.foldl (fun m e => alSet m (jsToLower e.name) (e.values.map jsToLower)) []
    | none => []
  let conflictMsgs :=
    match enums with
    | some es =>
      es.flatMap (fun e =>
        enumDefsByName.flatMap (fun p =>
          if jsToLower p.1 = jsToLower e.name then
            if e.values = p.2 then []
            else
              [colorsRed ++ colorsBold ++ "MORM ENUM CONFLICT:" ++ colorsReset ++
                " enum type \"" ++ e.name ++
                "\" is defined in multiple models with different values.\n" ++
                "  Previous: [" ++ String.intercalate ", " p.2 ++ "]\n" ++
                "  Current:  [" ++ String.intercalate ", " e.values ++ "]"]
          else []))
    | none => []
  let processed0 := columns ++
    (if columns.any (fun c => c.name = "created_at") then []
     else [{ name := "created_at", type := "TIMESTAMPTZ", notNull := some true,
             default := .str "now()" }]) ++
    (if columns.any (fun c => c.name = "updated_at") then []
     else [{ name := "updated_at", type := "TIMESTAMPTZ", notNull := some true,
             default := .str "now()" }])
  let looped := processed0.foldl (fun acc c =>
    let r := validateModelColumn dateParse enumDefsByName enumValsLowerByName c
    (acc.1 ++ [r.1], acc.2 ++ r.2)) (([] : List RtCol), ([] : List String))
  let processed := looped.1
  let validationMessages := conflictMsgs ++ looped.2
  if validationMessages ≠ [] then
    { table := table, columns := processed, indexes := indexes,
      enumSqls := enumSqls, create := "", columnsSql := "",
      validationMessages := validationMessages }
  else
    let columnsSQL := String.intercalate ", " (processed.map buildColumnSQL)
    { table := table, columns := processed, indexes := indexes,
      enumSqls := enumSqls,
      create := "\n    CREATE TABLE IF NOT EXISTS \"" ++ table ++ "\" (\n      " ++
        columnsSQL ++ "\n    );\n  ",
      columnsSql := columnsSQL,
      validationMessages := [] }

/-- C4 (code bug): for the spec's S4 `users` model, whose `position_id`
column declares a MANY-TO-MANY reference to `position.id`, validation passes
but the CREATE TABLE statement stored in the runtime (and executed by
`migrate` when the table does not exist) still contains a physical
`"position_id" UUID[]` column definition: `createModelRuntime` renders
`sql.create` before the relation validator marks the column `__virtual`. -/
theorem claim4_code_bug :
    (createModelRuntime (fun _ => false) "users"
      [{ name := "id", type := "uuid", primary := true },
       { name := "position_id", type := "uuid[]",
         references := some { table := "position", column := "id",
                              relation := some "many-to-many" } }]
      [] none).validationMessages = [] ∧
    List.IsInfix ("\"position_id\" UUID[] NOT NULL REFERENCES \"position\"(\"id\")" ++
        "ON DELETE CASCADE ON UPDATE CASCADE").data
      (createModelRuntime (fun _ => false) "users"
        [{ name := "id", type := "uuid", primary := true },
         { name := "position_id", type := "uuid[]",
           references := some { table := "position", column := "id",
                                relation := some "many-to-many" } }]
        [] none).create.data := by
  refine ⟨by rfl, ?_⟩
  set_option maxRecDepth 4096 in decide

/-! ## JunctionBuilder: `morm/utils/junctionBuilder.ts` -/

/-- A planned MANY-TO-MANY junction table. -/
structure JunctionPlan where
  table : String
  createSQL : String
  indexSQL : List String
deriving Repr, DecidableEq

/-- `snake`: prefix every uppercase letter with an underscore and lower-case
it, then strip a single leading underscore. -/
def snake (name : String) : String :=
  let mapped := name.data.flatMap (fun c =>
    if 65 ≤ c.toNat ∧ c.toNat ≤ 90 then ['_', jsLowChar c] else [c])
  ⟨match mapped with
   | '_' :: rest => rest
   | l => l⟩

/-- Lexicographic code-point comparison, modelling `localeCompare` on the
plain identifier names the engine produces. -/
def lexLtChars : List Char → List Char → Bool
  | [], [] => false
  | [], _ :: _ => true
  | _ :: _, [] => false
  | a :: as, b :: bs =>
    if a.toNat < b.toNat then true
    else if b.toNat < a.toNat then false
    else lexLtChars as bs

/-- `sortedPair`: deterministic naming order of the two tables. -/
def sortedPair (a b : String) : String × String :=
  if lexLtChars b.data a.data then (b, a) else (a, b)

/-- `getPrimaryKeyType` (primaryKey is never set on the runtime, so the key
is always `id`); a missing model or column or an empty type throws. -/
def getPrimaryKeyType (m : Option MModel) : Except String String :=
  match m with
  | none => .error "TypeError: cannot read properties of undefined"
  | some model =>
    match model.columns.find? (fun c => c.name = "id") with
    | some col =>
      if col.type = "" then
        .error ("Cannot resolve primary key type for table \"" ++ model.table ++ "\"")
      else .ok (jsToUpper col.type)
    | none =>
      .error ("Cannot resolve primary key type for table \"" ++ model.table ++ "\"")

/-- The trimmed CREATE TABLE template of a junction plan. -/
def junctionCreateSQL (junction colA pkTypeA colB pkTypeB t1 pkA t2 pkB : String) : String :=
  "CREATE TABLE IF NOT EXISTS \"" ++ junction ++ "\" (\n          \"" ++ colA ++ "\" " ++
    pkTypeA ++ " NOT NULL,\n          \"" ++ colB ++ "\" " ++ pkTypeB ++
    " NOT NULL,\n          PRIMARY KEY (\"" ++ colA ++ "\", \"" ++ colB ++
    "\"),\n          FOREIGN KEY (\"" ++ colA ++ "\") REFERENCES \"" ++ t1 ++ "\"(\"" ++
    pkA ++ "\")\n            ON DELETE CASCADE ON UPDATE CASCADE,\n          FOREIGN KEY (\"" ++
    colB ++ "\") REFERENCES \"" ++ t2 ++ "\"(\"" ++ pkB ++
    "\")\n            ON DELETE CASCADE ON UPDATE CASCADE\n        );"

/-- Loop of `buildJunctionTables` over the (table, outgoing-relation) pairs
with the `seen` set of junction names.  The relation records carry no
`isSelf` flag (the validator never sets one), so the self-reference column
naming branch is never taken. -/
def buildJunctionGo (models : List MModel) :
    List (String × RelOut) → List String → Except String (List JunctionPlan)
  | [], _ => .ok []
  | (tableA, rel) :: rest, seen =>
    if rel.relation ≠ "MANY-TO-MANY" then buildJunctionGo models rest seen
    else if rel.toTable = "" then buildJunctionGo models rest seen
    else
      let p := sortedPair tableA rel.toTable
      let junction := snake p.1 ++ "_" ++ snake p.2 ++ "_junction"
      if seen.contains junction then buildJunctionGo models rest seen
      else
        let colA := snake p.1 ++ "_id"
        let colB := snake p.2 ++ "_id"
        match getPrimaryKeyType (models.find? (fun m => m.table = p.1)) with
        | .error e => .error e
        | .ok pkTypeA =>
          match getPrimaryKeyType (models.find? (fun m => m.table = p.2)) with
          | .error e => .error e
          | .ok pkTypeB =>
            match buildJunctionGo models rest (seen ++ [junction]) with
            | .error e => .error e
            | .ok plans =>
              .ok ({ table := junction,
                     createSQL := junctionCreateSQL junction colA pkTypeA colB pkTypeB
                       p.1 "id" p.2 "id",
                     indexSQL :=
                       ["CREATE INDEX IF NOT EXISTS \"" ++ junction ++ "_" ++ colA ++
                          "_idx\" ON \"" ++ junction ++ "\"(\"" ++ colA ++ "\")",
                        "CREATE INDEX IF NOT EXISTS \"" ++ junction ++ "_" ++ colB ++
                          "_idx\" ON \"" ++ junction ++ "\"(\"" ++ colB ++ "\")"] } :: plans)

/-- Embedding of `buildJunctionTables`: models with an empty table name are
skipped; a primary-key resolution failure propagates as a thrown error. -/
def buildJunctionTables (models : List MModel) : Except String (List JunctionPlan) :=
  buildJunctionGo models
    (models.flatMap (fun m =>
      if m.table = "" then []
      else m.outgoing.map (fun r => (m.table, r)))) []

/-! ## Morm.migrate: `morm/sql/buildDefaultSQL.ts` lines 317-444

The run is modelled by the ordered list of mutating statements submitted to
the database (read-only SELECTs are not traced).  `thrower` is the oracle
for `client.query` statements throwing inside the transaction try-block;
the `ROLLBACK` issued by the catch handler is modelled as always succeeding.
Each model's `migrate` closure is abstracted by `modelMigrate`, returning
its boolean outcome and the statements it submitted; the closure catches
its own errors and never throws. -/

/-- Database state visible to the orchestration. -/
structure MormState where
  extensions : List String := []
  tables : List String := []
  enumDb : EnumCatalog := {}
deriving Repr

/-- Statements of `resetDatabase` (`extensions` already excludes
`plpgsql`). -/
def resetDatabaseStmts (st : MormState) : List String :=
  st.extensions.map (fun e => "DROP EXTENSION IF EXISTS \"" ++ e ++ "\" CASCADE") ++
  st.tables.map (fun t => "DROP TABLE IF EXISTS \"" ++ t ++ "\" CASCADE") ++
  st.enumDb.enums.map (fun p => "DROP TYPE IF EXISTS \"" ++ p.1 ++ "\" CASCADE")

/-- Outcome of a prefix of the transaction body. -/
inductive TxnRes where
  | ok
  | threw
  | failed
deriving Repr, DecidableEq

/-- Submit statements in order until one throws; the trace records every
submitted statement, including a throwing one. -/
def execSeq (thrower : String → Bool) : List String → List String × Bool
  | [] => ([], false)
  | s :: rest =>
    if thrower s then ([s], true)
    else
      let t := execSeq thrower rest
      (s :: t.1, t.2)

/-- The per-model loop of the transaction body: a failing model issues
`ROLLBACK` and returns false (unless that `ROLLBACK` itself throws). -/
def txnModelsLoop (thrower : String → Bool) (modelMigrate : MModel → Bool × List String) :
    List MModel → List String × TxnRes
  | [] => ([], .ok)
  | m :: rest =>
    let r := modelMigrate m
    if r.1 then
      let tail := txnModelsLoop thrower modelMigrate rest
      (r.2 ++ tail.1, tail.2)
    else
      if thrower "ROLLBACK" then (r.2 ++ ["ROLLBACK"], .threw)
      else (r.2 ++ ["ROLLBACK"], .failed)

/-- Embedding of `Morm.migrate` (lines 317-444): reset, enum-registry gate,
global enum migration on the pool, hard model validation, table-rename
detection on the pool, relation validation, then the single transaction
(BEGIN, pgcrypto, per-model migrate, junction tables, COMMIT) whose catch
handler rolls back, logs, and falls through to `return true`. -/
def mormMigrate (thrower : String → Bool) (modelMigrate : MModel → Bool × List String)
    (migrating : Bool) (registryHasErrors : Bool)
    (registry : List (String × List String)) (models : List MModel)
    (reset : Bool) (st : MormState) : Bool × List String :=
  if migrating then (false, [])
  else
    let resetTrace := if reset then resetDatabaseStmts st else []
    let st1 : MormState := if reset then {} else st
    if registryHasErrors then (false, resetTrace)
    else
      let enumRes := migrateEnumsGlobal st1.enumDb registry
      let trace1 := resetTrace ++ enumRes.2
      if models.any (fun m => m.sqlCreate = "") then (false, trace1)
      else
        let modelTables := models.map (·.table)
        let removed := st1.tables.filter (fun t => ¬ modelTables.contains t)
        let added := modelTables.filter (fun t => ¬ st1.tables.contains t)
        let renameTrace :=
          if removed.length = 1 ∧ added.length = 1 then
            ["ALTER TABLE \"" ++ removed.headD "" ++ "\" RENAME TO \"" ++
              added.headD "" ++ "\""]
          else []
        let trace2 := trace1 ++ renameTrace
        let relRes := validateAndSortModels models
        if relRes.errors ≠ [] then (false, trace2)
        else
          let models2 := relRes.sorted.getD models
          let pre := execSeq thrower ["BEGIN", "CREATE EXTENSION IF NOT EXISTS pgcrypto;"]
          if pre.2 then (true, trace2 ++ pre.1 ++ ["ROLLBACK"])
          else
            let ml := txnModelsLoop thrower modelMigrate models2
            match ml.2 with
            | .failed => (false, trace2 ++ pre.1 ++ ml.1)
            | .threw => (true, trace2 ++ pre.1 ++ ml.1 ++ ["ROLLBACK"])
            | .ok =>
              match buildJunctionTables models2 with
              | .error _ => (true, trace2 ++ pre.1 ++ ml.1 ++ ["ROLLBACK"])
              | .ok js =>
                let jl := execSeq thrower (js.flatMap (fun j => j.createSQL :: j.indexSQL))
                if jl.2 then (true, trace2 ++ pre.1 ++ ml.1 ++ jl.1 ++ ["ROLLBACK"])
                else
                  let cm := execSeq thrower ["COMMIT"]
                  if cm.2 then (true, trace2 ++ pre.1 ++ ml.1 ++ jl.1 ++ cm.1 ++ ["ROLLBACK"])
                  else (true, trace2 ++ pre.1 ++ ml.1 ++ jl.1 ++ cm.1)

/-- The statements `Morm.migrate` executes on the pool before the outer
transaction opens: the reset drops and the whole global enum migration. -/
def preTransactionTrace (registry : List (String × List String)) (reset : Bool)
    (st : MormState) : List String :=
  (if reset then resetDatabaseStmts st else []) ++
  (migrateEnumsGlobal (if reset then ({} : MormState) else st).enumDb registry).2

theorem head_append_of_head (p s : String) (c : Char) (hp : p.data.head? = some c) :
    (p ++ s).data.head? = some c := by
  rw [String.data_append]
  cases hd : p.data with
  | nil => rw [hd] at hp; simp at hp
  | cons a t =>
    rw [hd] at hp
    simp only [List.head?_cons] at hp
    simp [hp]

theorem migrateEnumStep_heads (cat : EnumCatalog) (name : String) (desired : List String) :
    ∀ s ∈ (migrateEnumStep cat name desired).2,
      s.data.head? = some 'C' ∨ s.data.head? = some 'A' ∨ s.data.head? = some 'D' := by
  have haddv : ∀ v : String,
      ("ALTER TYPE \"" ++ name ++ "\" ADD VALUE \x27" ++ escapeSqlString v ++
        "\x27").data.head? = some 'A' := by
    intro v
    exact head_append_of_head _ _ _ (head_append_of_head _ _ _
      (head_append_of_head _ _ _ (head_append_of_head _ _ _ (by rfl))))
  have hcreate :
      ("CREATE TYPE \"" ++ name ++ "\" AS ENUM (" ++ sqlEnumVals desired ++
        ")").data.head? = some 'C' :=
    head_append_of_head _ _ _ (head_append_of_head _ _ _
      (head_append_of_head _ _ _ (head_append_of_head _ _ _ (by rfl))))
  have hdrop : ("DROP TYPE \"" ++ name ++ "\"").data.head? = some 'D' :=
    head_append_of_head _ _ _ (head_append_of_head _ _ _ (by rfl))
  unfold migrateEnumStep
  split
  · intro s hs
    rw [List.mem_singleton] at hs
    subst hs
    exact Or.inl hcreate
  · intro s hs
    dsimp only at hs
    split at hs
    · dsimp only at hs
      rcases List.mem_map.mp hs with ⟨v, _, hv⟩
      subst hv
      exact Or.inr (Or.inl (haddv v))
    · split at hs
      · dsimp only at hs
        rcases List.mem_append.mp hs with h1 | h2
        · rcases List.mem_map.mp h1 with ⟨v, _, hv⟩
          subst hv
          exact Or.inr (Or.inl (haddv v))
        · rcases List.mem_cons.mp h2 with he | hm
          · subst he
            exact Or.inr (Or.inr hdrop)
          · rw [List.mem_singleton] at hm
            subst hm
            exact Or.inl hcreate
      · dsimp only at hs
        rcases List.mem_map.mp hs with ⟨v, _, hv⟩
        subst hv
        exact Or.inr (Or.inl (haddv v))

theorem migrateEnumsGlobal_heads :
    ∀ (registry : List (String × List String)) (cat : EnumCatalog),
      ∀ s ∈ (migrateEnumsGlobal cat registry).2,
        s.data.head? = some 'C' ∨ s.data.head? = some 'A' ∨ s.data.head? = some 'D' := by
  intro registry
  induction registry with
  | nil => intro cat s hs; simp [migrateEnumsGlobal] at hs
  | cons e rest ih =>
    intro cat s hs
    obtain ⟨n, d⟩ := e
    unfold migrateEnumsGlobal at hs
    rcases List.mem_append.mp hs with h1 | h2
    · exact migrateEnumStep_heads cat n d s h1
    · exact ih _ s h2

theorem resetDatabaseStmts_heads (st : MormState) :
    ∀ s ∈ resetDatabaseStmts st, s.data.head? = some 'D' := by
  intro s hs
  unfold resetDatabaseStmts at hs
  rcases List.mem_append.mp hs with h1 | h2
  · rcases List.mem_append.mp h1 with h3 | h4
    · rcases List.mem_map.mp h3 with ⟨e, _, he⟩
      subst he
      exact head_append_of_head _ _ _ (head_append_of_head _ _ _ (by rfl))
    · rcases List.mem_map.mp h4 with ⟨t, _, ht⟩
      subst ht
      exact head_append_of_head _ _ _ (head_append_of_head _ _ _ (by rfl))
  · rcases List.mem_map.mp h2 with ⟨p, _, hp⟩
    subst hp
    exact head_append_of_head _ _ _ (head_append_of_head _ _ _ (by rfl))

/-- No statement of the pool-executed prefix is the transaction opener. -/
theorem begin_not_mem_preTransactionTrace (registry : List (String × List String))
    (reset : Bool) (st : MormState) :
    "BEGIN" ∉ preTransactionTrace registry reset st := by
  intro h
  unfold preTransactionTrace at h
  have hhead : ("BEGIN" : String).data.head? = some 'B' := rfl
  rcases List.mem_append.mp h with h1 | h2
  · by_cases hr : reset
    · rw [if_pos hr] at h1
      have := resetDatabaseStmts_heads st _ h1
      rw [hhead] at this
      simp at this
    · rw [if_neg hr] at h1
      simp at h1
  · have := migrateEnumsGlobal_heads registry _ _ h2
    rw [hhead] at this
    rcases this with h3 | h3 | h3 <;> simp at h3

/-- Every run of the orchestration (not already migrating, registry clean)
executes the whole reset and enum phase on the pool first: the trace starts
with `preTransactionTrace`, which contains no `BEGIN`. -/
theorem mormMigrate_trace_prefix (thrower : String → Bool)
    (modelMigrate : MModel → Bool × List String)
    (registry : List (String × List String)) (models : List MModel)
    (reset : Bool) (st : MormState) :
    ∃ rest,
      (mormMigrate thrower modelMigrate false false registry models reset st).2
        = preTransactionTrace registry reset st ++ rest := by
  simp only [mormMigrate, preTransactionTrace]
  rw [if_neg (show ¬(false = true) by decide), if_neg (show ¬(false = true) by decide)]
  generalize (if reset = true then resetDatabaseStmts st else []) = rt
  generalize (if reset = true then ({} : MormState) else st) = st1
  generalize (rt ++ (migrateEnumsGlobal st1.enumDb registry).2) = p
  split
  · exact ⟨[], (List.append_nil p).symm⟩
  · split
    · exact ⟨_, rfl⟩
    · split
      · exact ⟨_, by simp only [List.append_assoc]; try rfl⟩
      · split
        · exact ⟨_, by simp only [List.append_assoc]; try rfl⟩
        · exact ⟨_, by simp only [List.append_assoc]; try rfl⟩
        · split
          · exact ⟨_, by simp only [List.append_assoc]; try rfl⟩
          · split
            · exact ⟨_, by simp only [List.append_assoc]; try rfl⟩
            · split
              · exact ⟨_, by simp only [List.append_assoc]; try rfl⟩
              · exact ⟨_, by simp only [List.append_assoc]; try rfl⟩

/-- Claim C1 counterexample: with one registered enum and no models, the
run executes `CREATE TYPE` on the pool as the very first statement, and the
outer transaction only opens afterwards (`BEGIN` is at index 1): the enum
DDL is not inside the transaction, so a later failure cannot roll it back. -/
theorem claim1_counterexample :
    mormMigrate (fun _ => false) (fun _ => (true, [])) false false
        [("USER_ROLE", ["A"])] [] false {}
      = (true, ["CREATE TYPE \"USER_ROLE\" AS ENUM (\x27A\x27)", "BEGIN",
                "CREATE EXTENSION IF NOT EXISTS pgcrypto;", "COMMIT"]) ∧
    ((mormMigrate (fun _ => false) (fun _ => (true, [])) false false
        [("USER_ROLE", ["A"])] [] false {}).2.indexOf "BEGIN" = 1 ∧
      (mormMigrate (fun _ => false) (fun _ => (true, [])) false false
        [("USER_ROLE", ["A"])] [] false {}).2.indexOf
          "CREATE TYPE \"USER_ROLE\" AS ENUM (\x27A\x27)" = 0) := by
  exact ⟨rfl, by decide, by decide⟩

/-- Claim C1 (amended): every schema-changing statement of the reset and
enum phases is executed on the pool before the outer transaction of
`Morm.migrate` opens: the run trace always begins with the full
`preTransactionTrace`, which never contains `BEGIN`; hence a failure inside
the transaction rolls back model and junction work but not the enum DDL. -/
theorem claim1_amended :
    ∀ (thrower : String → Bool) (modelMigrate : MModel → Bool × List String)
      (registry : List (String × List String)) (models : List MModel)
      (reset : Bool) (st : MormState),
      ∃ rest,
        (mormMigrate thrower modelMigrate false false registry models reset st).2
            = preTransactionTrace registry reset st ++ rest ∧
        "BEGIN" ∉ preTransactionTrace registry reset st := by
  intro thrower modelMigrate registry models reset st
  obtain ⟨rest, hrest⟩ :=
    mormMigrate_trace_prefix thrower modelMigrate registry models reset st
  exact ⟨rest, hrest, begin_not_mem_preTransactionTrace registry reset st⟩

/-- C5 (code bug): when a statement inside the outer transaction throws
(here `CREATE EXTENSION IF NOT EXISTS pgcrypto;`), the catch handler rolls
back, logs, and falls through to `return true`: `Morm.migrate` reports
success to the caller although the whole run was rolled back. -/
theorem claim5_code_bug :
    mormMigrate (fun s => s = "CREATE EXTENSION IF NOT EXISTS pgcrypto;")
        (fun _ => (true, [])) false false [] [] false {}
      = (true, ["BEGIN", "CREATE EXTENSION IF NOT EXISTS pgcrypto;", "ROLLBACK"]) := by
  rfl

end Morm
